import Mathlib

/-! # MESH install table over paged SPI flash

A shallow embedding of `common/mesh.c` (u-boot-ectf) and of the constants of
`include/mesh.h`.  Flash memory is a function from byte address to byte value,
C buffers are functions from index to byte value, `unsigned int` arithmetic is
`Nat` arithmetic reduced modulo `2^32` where the C expression can wrap.
-/

namespace Mesh

/-! ## Constants of mesh.h -/

/-- The erase page size, `FLASH_PAGE_SIZE` (64 KiB). -/
def FLASH_PAGE_SIZE : Nat := 65536

/-- The size of the SPI flash: `mesh_reset_flash` erases `0x1000000` bytes,
"all 16 MB of flash". -/
def FLASH_SIZE : Nat := 0x1000000

def MAX_STR_LEN : Nat := 64
def MAX_USERNAME_LENGTH : Nat := 15
def MAX_PIN_LENGTH : Nat := 8
def MAX_GAME_LENGTH : Nat := 31
def MAX_NUM_USERS : Nat := 5

def MESH_SENTINEL_LOCATION : Nat := 0x40
def MESH_SENTINEL_VALUE : Nat := 0x12345678
def MESH_SENTINEL_LENGTH : Nat := 4
def MESH_INSTALL_GAME_OFFSET : Nat := 0x44

def MESH_TABLE_UNINSTALLED : Nat := 0x00
def MESH_TABLE_INSTALLED : Nat := 0x01
def MESH_TABLE_END : Nat := 0xff

/-- Reduction of a value to the range of a C `unsigned int` (32 bits). -/
def u32 (n : Nat) : Nat := n % 2 ^ 32

/-! ## The flash device -/

/-- The content of the flash: byte value by byte address.  Only the addresses
below `FLASH_SIZE` exist on the device; the commands below never look at or
change the others. -/
abbrev Flash := Nat → Nat

/-- A buffer in RAM: byte value by index. -/
abbrev Buf := Nat → Nat

/-- The two `sf` sub-commands that `mesh.c` issues on the flash content. -/
inductive SfOp where
  | read
  | update
deriving DecidableEq, Repr

/-- One issued `sf` command: its kind, flash offset, length and returned status. -/
structure SfCall where
  op : SfOp
  addr : Nat
  len : Nat
  status : Nat
deriving DecidableEq, Repr

/-- Modelled from the spec: the u-boot command `sf read buf addr len`
(`page_read(addr, len) -> bytes` of the block/command layer), which is not part
of `mesh.c`.  It copies `len` bytes of flash starting at `addr` into the buffer
and returns status 0; a range that does not lie inside the flash is refused
with status 1 and leaves the buffer as it was. -/
def sf_read (f : Flash) (buf : Buf) (addr len : Nat) : Buf × Nat :=
  if addr + len ≤ FLASH_SIZE then
    (fun j => if j < len then f (addr + j) else buf j, 0)
  else (buf, 1)

/-- Modelled from the spec: the u-boot command `sf update buf addr len`
(`page_program(addr, len, buf) -> status` of the block/command layer), which is
not part of `mesh.c`.  It erases and rewrites the `len` bytes of flash starting
at `addr` with the buffer content and returns status 0; a range that does not
lie inside the flash is refused with status 1 and leaves the flash as it was. -/
def sf_update (f : Flash) (buf : Buf) (addr len : Nat) : Flash × Nat :=
  if addr + len ≤ FLASH_SIZE then
    (fun a => if addr ≤ a ∧ a < addr + len then buf (a - addr) else f a, 0)
  else (f, 1)

/-- `mesh_flash_read(data, flash_location, flash_length)`: one `sf read`, whose
status is returned. -/
def mesh_flash_read (f : Flash) (data : Buf) (flash_location flash_length : Nat) : Buf × Nat :=
  sf_read f data flash_location flash_length

/-- The byte copy loop of `mesh_flash_write` for the first page:
`for (; (flash_location + bytes_copied < page_starting_address + FLASH_PAGE_SIZE)
&& (bytes_copied < flash_length); ++bytes_copied)`.  The first argument bounds
the number of iterations; `flash_length` iterations always suffice, since
`bytes_copied` grows by one per iteration and stays below `flash_length`. -/
def copy_first (data : Buf) (flash_location flash_length page_starting_address : Nat) :
    Nat → Buf → Nat → Buf × Nat
  | 0, flash_data, bytes_copied => (flash_data, bytes_copied)
  | fuel + 1, flash_data, bytes_copied =>
    if u32 (flash_location + bytes_copied) < u32 (page_starting_address + FLASH_PAGE_SIZE)
        ∧ bytes_copied < flash_length then
      copy_first data flash_location flash_length page_starting_address fuel
        (Function.update flash_data (flash_location % FLASH_PAGE_SIZE + bytes_copied)
          (data bytes_copied))
        (bytes_copied + 1)
    else (flash_data, bytes_copied)

/-- The byte copy loop of `mesh_flash_write` for the pages after the first:
`for (unsigned int j = 0; (i * FLASH_PAGE_SIZE + j < (i + 1) * FLASH_PAGE_SIZE)
&& (bytes_copied < flash_length); ++j)`. -/
def copy_rest (data : Buf) (flash_length i : Nat) : Nat → Buf → Nat → Nat → Buf × Nat
  | 0, flash_data, _, bytes_copied => (flash_data, bytes_copied)
  | fuel + 1, flash_data, j, bytes_copied =>
    if u32 (u32 (i * FLASH_PAGE_SIZE) + j) < u32 ((i + 1) * FLASH_PAGE_SIZE)
        ∧ bytes_copied < flash_length then
      copy_rest data flash_length i fuel (Function.update flash_data j (data bytes_copied))
        (j + 1) (bytes_copied + 1)
    else (flash_data, bytes_copied)

/-- The variables of `mesh_flash_write` that live across its page loop, and
the `sf` commands issued so far. -/
structure WriteState where
  flash : Flash
  flash_data : Buf
  bytes_copied : Nat
  log : List SfCall

/-- The body of the page loop of `mesh_flash_write` for page index `i`: read
the page, copy the bytes of `data` that fall into it, `sf update` the page.
The status of the update is not looked at. -/
def write_page (data : Buf) (flash_location flash_length starting_page : Nat)
    (s : WriteState) (i : Nat) : WriteState :=
  let page_starting_address := u32 (i * FLASH_PAGE_SIZE)
  let r := mesh_flash_read s.flash s.flash_data page_starting_address FLASH_PAGE_SIZE
  let c :=
    if i = starting_page then
      copy_first data flash_location flash_length page_starting_address flash_length
        r.1 s.bytes_copied
    else
      copy_rest data flash_length i flash_length r.1 0 s.bytes_copied
  let w := sf_update s.flash c.1 page_starting_address FLASH_PAGE_SIZE
  { flash := w.1
    flash_data := c.1
    bytes_copied := c.2
    log := s.log ++ [⟨SfOp.read, page_starting_address, FLASH_PAGE_SIZE, r.2⟩,
                     ⟨SfOp.update, page_starting_address, FLASH_PAGE_SIZE, w.2⟩] }

/-- What a call of `mesh_flash_write` leaves behind: the flash content, the
returned `int`, and the `sf` commands it issued, in order. -/
structure WriteResult where
  flash : Flash
  ret : Int
  log : List SfCall

/-- `mesh_flash_write(data, flash_location, flash_length)`.  The page loop
`for (i = starting_page; i <= ending_page; ++i)` runs over the page indices
`starting_page, ..., ending_page` (none when `ending_page < starting_page`).
The page buffer comes from `malloc`; its initial content is never written to
flash, because an update of a page follows a read of the same page. -/
def mesh_flash_write (f : Flash) (data : Buf) (flash_location flash_length : Nat) :
    WriteResult :=
  if flash_length < 1 then ⟨f, 0, []⟩
  else
    let starting_page := flash_location / FLASH_PAGE_SIZE
    let ending_page := u32 (flash_location + flash_length) / FLASH_PAGE_SIZE
    let s := (List.range' starting_page (ending_page + 1 - starting_page)).foldl
      (write_page data flash_location flash_length starting_page)
      ⟨f, fun _ => 0, 0, []⟩
    ⟨s.flash, 0, s.log⟩

/-! ## Strings and library functions -/

/-- A C string: its bytes up to, and without, the terminating NUL. -/
abbrev CStr := List Nat

/-- The C string that starts at the beginning of a byte array: the bytes before
the first NUL. -/
def cstr (bytes : List Nat) : CStr := bytes.takeWhile (fun c => c ≠ 0)

/-- The bytes of a string stored in a `char[n]` array by a copy loop that pads
with zeros: the string followed by zeros up to length `n`. -/
def pad_to (n : Nat) (s : List Nat) : List Nat := s ++ List.replicate (n - s.length) 0

/-- The four bytes of an `unsigned int` in memory (little endian, ARM). -/
def le_bytes (v : Nat) : List Nat :=
  [v % 256, v / 256 % 256, v / 65536 % 256, v / 16777216 % 256]

/-- The `unsigned int` stored in four bytes of memory (little endian, ARM). -/
def le_value (b0 b1 b2 b3 : Nat) : Nat := b0 + 256 * b1 + 65536 * b2 + 16777216 * b3

/-- Decimal digits of a number as ASCII bytes, most significant first; the
first argument bounds the number of digits. -/
def dec_digits : Nat → Nat → List Nat
  | 0, _ => []
  | fuel + 1, n => if n < 10 then [48 + n] else dec_digits fuel (n / 10) ++ [48 + n % 10]

/-- The output of `printf("%d", v)` for the bits of an `unsigned int` `v`: the
conversion `%d` reads them as a signed `int`. -/
def fmt_d (v : Nat) : List Nat :=
  if v < 2 ^ 31 then dec_digits (v + 1) v else 45 :: dec_digits (2 ^ 32 - v + 1) (2 ^ 32 - v)

/-- Modelled from the spec: the u-boot library function `strtok`, which is not
part of `mesh.c`.  `strtok_from s delims` is one call on the position `s`: it
skips the delimiters, and returns the token up to the next delimiter (or
`none` when the string is used up) together with the position saved for the
next call `strtok(NULL, ...)`, which is just after the delimiter that ended
the token. -/
def strtok_from (s : CStr) (delims : List Nat) : Option CStr × CStr :=
  let s1 := s.dropWhile (fun c => decide (c ∈ delims))
  if s1 = [] then (none, [])
  else (some (s1.takeWhile (fun c => !decide (c ∈ delims))),
        (s1.dropWhile (fun c => !decide (c ∈ delims))).drop 1)

/-- The C string found at the start of a buffer after `strtok(buffer, delim)`
has run on it: `strtok` writes a NUL over the delimiter that ends the first
token, and leaves the delimiters that precede the token in place. -/
def strtok_buffer (s : CStr) (delim : Nat) : CStr :=
  s.takeWhile (fun c => decide (c = delim)) ++
    (s.dropWhile (fun c => decide (c = delim))).takeWhile (fun c => !decide (c = delim))

/-- Loop of `simple_strtoul` at base 10: `result = result * 10 + digit` while
the next character is a decimal digit, in `unsigned long` (32 bit) arithmetic. -/
def strtoul_loop : List Nat → Nat → Nat
  | [], result => result
  | c :: cs, result =>
    if 48 ≤ c ∧ c ≤ 57 then strtoul_loop cs (u32 (result * 10 + (c - 48))) else result

/-- Modelled from the spec: the u-boot library function
`simple_strtoul(cp, NULL, 10)`, which is not part of `mesh.c`, on a string that
does not begin with `0x`: the value of the leading decimal digits
(an `unsigned` field of the record). -/
def simple_strtoul (cp : CStr) : Nat := strtoul_loop cp 0

/-! ## The install table -/

/-- The size `sizeof(struct games_tbl_row)` on the 32 bit ARM target:
`install_flag` at byte 0, `game_name` at 1..32, three bytes of padding,
`major_version` at 36, `minor_version` at 40, `user_name` at 44..59. -/
def ROW_SIZE : Nat := 60

/-- A `struct games_tbl_row` as it lies in memory: its `ROW_SIZE` bytes. -/
structure games_tbl_row where
  bytes : List Nat
deriving DecidableEq, Repr

/-- Field `install_flag` (a `char`, unsigned on ARM). -/
def games_tbl_row.install_flag (row : games_tbl_row) : Nat := row.bytes.getD 0 0

/-- Field `game_name`, read as a C string; the array is taken to hold its
terminating NUL, as every row written by `mesh_install` does. -/
def games_tbl_row.game_name (row : games_tbl_row) : CStr :=
  cstr ((row.bytes.drop 1).take (MAX_GAME_LENGTH + 1))

/-- Field `major_version`. -/
def games_tbl_row.major_version (row : games_tbl_row) : Nat :=
  le_value (row.bytes.getD 36 0) (row.bytes.getD 37 0) (row.bytes.getD 38 0) (row.bytes.getD 39 0)

/-- Field `minor_version`. -/
def games_tbl_row.minor_version (row : games_tbl_row) : Nat :=
  le_value (row.bytes.getD 40 0) (row.bytes.getD 41 0) (row.bytes.getD 42 0) (row.bytes.getD 43 0)

/-- Field `user_name`, read as a C string; the array is taken to hold its
terminating NUL, as every row written by `mesh_install` does. -/
def games_tbl_row.user_name (row : games_tbl_row) : CStr :=
  cstr ((row.bytes.drop 44).take (MAX_USERNAME_LENGTH + 1))

/-- The assignment `row.install_flag = v`. -/
def games_tbl_row.set_install_flag (row : games_tbl_row) (v : Nat) : games_tbl_row :=
  ⟨row.bytes.set 0 v⟩

/-- A row seen as the source buffer of a flash write. -/
def games_tbl_row.data (row : games_tbl_row) : Buf := fun j => row.bytes.getD j 0

/-- The global `User user`. -/
structure User where
  name : CStr
  pin : CStr
deriving DecidableEq, Repr

/-- `mesh_flash_read(&row, offset, sizeof(struct games_tbl_row))`: the row
variable after the call.  A read that fails leaves the variable as it was. -/
def read_row (f : Flash) (row : games_tbl_row) (offset : Nat) : games_tbl_row :=
  ⟨(List.range ROW_SIZE).map (mesh_flash_read f row.data offset ROW_SIZE).1⟩

/-- The content of a row variable before the first read.  The first read of
every table loop is at `MESH_INSTALL_GAME_OFFSET`, lies inside the flash and
overwrites all of it. -/
def row_uninit : games_tbl_row := ⟨List.replicate ROW_SIZE 0⟩

/-- How one pass through the body of a table loop ends. -/
inductive LoopStep (σ ρ : Type) where
  | next (s : σ) (offset : Nat)
  | exit (r : ρ)

/-- The loop shape shared by all table scans of `mesh.c`:
`for (mesh_flash_read(&row, offset, sizeof row); row.install_flag != MESH_TABLE_END;
mesh_flash_read(&row, offset, sizeof row)) body`.  The body yields the local
state and the offset for the next pass (`next`), or leaves the loop by `return`
or `break` (`exit`); `done` is what follows the loop once END is read.  The
first argument bounds the number of passes; `none` means the bound was
reached with no END record read. -/
def table_loop {σ ρ : Type} (f : Flash)
    (body : games_tbl_row → Nat → σ → LoopStep σ ρ) (done : σ → Nat → ρ) :
    Nat → games_tbl_row → Nat → σ → Option ρ
  | 0, _, _, _ => none
  | fuel + 1, row, offset, s =>
    let row1 := read_row f row offset
    if row1.install_flag ≠ MESH_TABLE_END then
      match body row1 offset s with
      | LoopStep.next s1 offset1 => table_loop f body done fuel row1 offset1 s1
      | LoopStep.exit r => some r
    else some (done s offset)

/-- `full_name_from_short_name`: `sprintf(full_name, "%s-v%d.%d", ...)`. -/
def full_name_from_short_name (row : games_tbl_row) : CStr :=
  row.game_name ++ [45, 118] ++ fmt_d row.major_version ++ [46] ++ fmt_d row.minor_version

/-- `mesh_list`: the lines it prints (without the newline), in order. -/
def mesh_list (f : Flash) (user : User) (fuel : Nat) : Option (List CStr) :=
  table_loop f
    (fun row offset out =>
      LoopStep.next
        (if row.user_name = user.name ∧ row.install_flag = MESH_TABLE_INSTALLED then
          out ++ [full_name_from_short_name row] else out)
        (u32 (offset + ROW_SIZE)))
    (fun out _ => out) fuel row_uninit MESH_INSTALL_GAME_OFFSET []

/-- `mesh_game_installed(game_name)`. -/
def mesh_game_installed (f : Flash) (user : User) (game_name : CStr) (fuel : Nat) :
    Option Int :=
  table_loop f
    (fun row offset (_ : Unit) =>
      if game_name = full_name_from_short_name row ∧ user.name = row.user_name ∧
          row.install_flag = MESH_TABLE_INSTALLED then
        LoopStep.exit 1
      else LoopStep.next () (u32 (offset + ROW_SIZE)))
    (fun _ _ => 0) fuel row_uninit MESH_INSTALL_GAME_OFFSET ()

/-- The local `short_game_name` of `mesh_check_downgrade` as `strcmp` sees it,
after `strncpy(short_game_name, game_name, MAX_GAME_LENGTH)` and
`strtok(short_game_name, "-")`. -/
def short_game_name_of (game_name : CStr) : CStr :=
  strtok_buffer (game_name.take MAX_GAME_LENGTH) 45

/-- The body of the loop of `mesh_check_downgrade`, on the local
`return_value`. -/
def check_downgrade_body (user : User) (game_name : CStr) (major_version minor_version : Nat)
    (row : games_tbl_row) (return_value : Int) : Int :=
  if user.name ≠ row.user_name then return_value
  else if short_game_name_of game_name ≠ row.game_name then return_value
  else if major_version < row.major_version then 1
  else if major_version = row.major_version ∧ minor_version < row.minor_version then 1
  else if major_version = row.major_version ∧ minor_version = row.minor_version ∧
      row.install_flag = MESH_TABLE_INSTALLED then
    (if return_value = 1 then return_value else 2)
  else return_value

/-- `mesh_check_downgrade(game_name, major_version, minor_version)`. -/
def mesh_check_downgrade (f : Flash) (user : User) (game_name : CStr)
    (major_version minor_version : Nat) (fuel : Nat) : Option Int :=
  table_loop f
    (fun row offset return_value =>
      LoopStep.next
        (check_downgrade_body user game_name major_version minor_version row return_value)
        (u32 (offset + ROW_SIZE)))
    (fun return_value _ => return_value) fuel row_uninit MESH_INSTALL_GAME_OFFSET 0

/-! ## Game packages and their headers -/

/-- Modelled from the spec: the filesystem collaborator (`file_exists`,
`file_size`, `file_read` over the games partition), which is not part of
`mesh.c`: the content of the regular file of a given name in the root
directory, if there is one. -/
abbrev FS := CStr → Option (List Nat)

/-- `mesh_game_exists(game_name)`: `mesh_query_ext4("/", game_name) == 1`. -/
def mesh_game_exists (fs : FS) (game_name : CStr) : Int :=
  if (fs game_name).isSome then 1 else 0

/-- The `Game` struct.  `users` holds the bytes of `users[MAX_NUM_USERS]
[MAX_USERNAME_LENGTH + 1]`, entry `i` at indices `16 * i .. 16 * i + 15`; the
field `num_users` follows it in memory. -/
structure Game where
  name : CStr
  major_version : Nat
  minor_version : Nat
  users : Buf
  num_users : Nat

/-- The C string that starts at `game->users[i]`, as `strcmp` reads it: the
bytes from the start of entry `i` up to the first NUL.  An entry that holds 16
characters has no NUL of its own, and the string runs on into the next entry
and, after the last entry, into the bytes of `num_users`. -/
def Game.user_at (game : Game) (i : Nat) : CStr :=
  cstr ((List.range' (16 * i) (80 - 16 * i)).map game.users ++ le_bytes game.num_users)

/-- Inner loop of the user copy of `mesh_get_game_header`:
`for (j = 0; j <= MAX_USERNAME_LENGTH && users[strplace] != ' ' &&
users[strplace] != '\0'; j++) game->users[i][j] = users[strplace++];`.
Returns the user memory, `j` and `strplace`. -/
def copy_user (users : CStr) (i : Nat) : Nat → Buf → Nat → Nat → Buf × Nat × Nat
  | 0, mem, j, strplace => (mem, j, strplace)
  | fuel + 1, mem, j, strplace =>
    if j ≤ MAX_USERNAME_LENGTH ∧ users.getD strplace 0 ≠ 32 ∧ users.getD strplace 0 ≠ 0 then
      copy_user users i fuel (Function.update mem (16 * i + j) (users.getD strplace 0))
        (j + 1) (strplace + 1)
    else (mem, j, strplace)

/-- Outer loop of the user copy of `mesh_get_game_header`:
`for (i = 0; i < MAX_NUM_USERS && users[strplace] != '\0'; i++)`.  Returns the
user memory and `i`.  The store `game->users[i][j] = '\0'` with `j = 16` goes
to index `16 * (i + 1)`, the first byte of what follows entry `i`. -/
def copy_users (users : CStr) : Nat → Buf → Nat → Nat → Buf × Nat
  | 0, mem, i, _ => (mem, i)
  | fuel + 1, mem, i, strplace =>
    if i < MAX_NUM_USERS ∧ users.getD strplace 0 ≠ 0 then
      let c := copy_user users i (MAX_USERNAME_LENGTH + 2) mem 0 strplace
      let strplace1 := if users.getD c.2.2 0 = 32 then c.2.2 + 1 else c.2.2
      copy_users users fuel (Function.update c.1 (16 * i + c.2.1) 0) (i + 1) strplace1
    else (mem, i)

/-- `mesh_get_game_header(game, game_name)`.  The buffer is read as a C string
that ends with the file content at the latest.  `none` stands for the
dereference of a NULL pointer: a `strtok` call that found no token, or a file
that does not exist. -/
def mesh_get_game_header (fs : FS) (game_name : CStr) : Option Game :=
  match fs game_name with
  | none => none
  | some content =>
    let game_buffer := cstr content
    let t0 := strtok_from game_buffer [58]
    let major_version_str := strtok_from t0.2 [46]
    let minor_version_str := strtok_from major_version_str.2 [10]
    let t1 := strtok_from minor_version_str.2 [58]
    let name := strtok_from t1.2 [10]
    let t2 := strtok_from name.2 [58]
    let users := strtok_from t2.2 [10]
    match major_version_str.1, minor_version_str.1, name.1, users.1 with
    | some major, some minor, some nm, some us =>
      let c := copy_users us (MAX_NUM_USERS + 1) (fun _ => 0) 0 0
      some { name := nm.take MAX_GAME_LENGTH
             major_version := simple_strtoul major
             minor_version := simple_strtoul minor
             users := c.1
             num_users := c.2 }
    | _, _, _, _ => none

/-- `mesh_check_user(game)`. -/
def mesh_check_user (game : Game) (user : User) : Int :=
  if (List.range game.num_users).any (fun i => decide (game.user_at i = user.name)) then 1
  else 0

/-! ## Install, uninstall, initialisation -/

/-- `mesh_valid_install(game_name)`.  `none` when a table scan reads no END
record within the bound, or the header cannot be parsed. -/
def mesh_valid_install (fs : FS) (f : Flash) (user : User) (game_name : CStr) (fuel : Nat) :
    Option Int :=
  if mesh_game_exists fs game_name = 0 then some 1
  else
    match mesh_get_game_header fs game_name with
    | none => none
    | some game =>
      if mesh_check_user game user = 0 then some 2
      else
        match mesh_game_installed f user game_name fuel with
        | none => none
        | some installed =>
          if installed ≠ 0 then some 4
          else
            match mesh_check_downgrade f user game_name game.major_version
                game.minor_version fuel with
            | none => none
            | some downgrade => if downgrade ≠ 0 then some 3 else some 0

/-- `mesh_install_validate_args(args)`; `args` are the strings before the
terminating NULL of the argument vector. -/
def mesh_install_validate_args (fs : FS) (f : Flash) (user : User) (args : List CStr)
    (fuel : Nat) : Option Int :=
  if args.length < 2 then some 1
  else
    let game_name := args.getD 1 []
    if (List.range game_name.length).any (fun count => decide (MAX_GAME_LENGTH < count)) then
      some 2
    else
      match mesh_valid_install fs f user game_name fuel with
      | none => none
      | some errno =>
        if errno = 0 then
          (if mesh_game_exists fs game_name = 0 then some 3 else some 0)
        else if errno = 1 then some 3
        else if errno = 2 then some 4
        else if errno = 3 then some 5
        else if errno = 4 then some 6
        else some (-1)

/-- The local `row` of `mesh_install` once it is filled in.  `junk` is the
content of the variable before: the three padding bytes are never assigned. -/
def install_row (junk : games_tbl_row) (short_game_name : CStr) (user : User)
    (major_version minor_version : CStr) : games_tbl_row :=
  ⟨[MESH_TABLE_INSTALLED] ++
    (pad_to MAX_GAME_LENGTH (short_game_name.take MAX_GAME_LENGTH) ++ [0]) ++
    [junk.bytes.getD 33 0, junk.bytes.getD 34 0, junk.bytes.getD 35 0] ++
    le_bytes (simple_strtoul major_version) ++
    le_bytes (simple_strtoul minor_version) ++
    (pad_to (MAX_USERNAME_LENGTH + 1) (user.name.take (MAX_USERNAME_LENGTH + 1))).set
      MAX_USERNAME_LENGTH 0⟩

/-- The loop of `mesh_install` that finds the end of the table: the offset at
which the END record was read. -/
def find_table_end (f : Flash) (fuel : Nat) : Option Nat :=
  table_loop f (fun _ offset (_ : Unit) => LoopStep.next () (u32 (offset + ROW_SIZE)))
    (fun _ offset => offset) fuel row_uninit MESH_INSTALL_GAME_OFFSET ()

/-- The table write of `mesh_install`: the row at the offset of the END
record, then an END flag one row further. -/
def install_write (f : Flash) (row : games_tbl_row) (offset : Nat) : Flash :=
  let f1 := (mesh_flash_write f row.data offset ROW_SIZE).flash
  (mesh_flash_write f1 (fun _ => MESH_TABLE_END) (u32 (offset + ROW_SIZE)) 1).flash

/-- The three `strtok` calls of `mesh_install` on the full game name:
`short_game_name = strtok(full_game_name, "-")`,
`major_version = strtok(NULL, ".") + 1` (one past the `v`) and
`minor_version = strtok(NULL, "\0")`.  `none` when one of them returns NULL,
which `mesh_install` goes on to dereference. -/
def split_game_name (full_game_name : CStr) : Option (CStr × CStr × CStr) :=
  let short_game_name := strtok_from full_game_name [45]
  let major_version := strtok_from short_game_name.2 [46]
  let minor_version := strtok_from major_version.2 []
  match short_game_name.1, major_version.1, minor_version.1 with
  | some short, some major, some minor => some (short, major.drop 1, minor)
  | _, _, _ => none

/-- `mesh_install(args)`: the flash afterwards and the returned code.  `none`
when a table scan reads no END record within the bound, or a NULL pointer is
dereferenced (a `strtok` call on the game name that finds no token). -/
def mesh_install (fs : FS) (f : Flash) (user : User) (junk : games_tbl_row)
    (args : List CStr) (fuel : Nat) : Option (Flash × Int) :=
  match mesh_install_validate_args fs f user args fuel with
  | none => none
  | some validated =>
    if validated ≠ 0 then some (f, validated)
    else
      match split_game_name (args.getD 1 []) with
      | none => none
      | some (short_game_name, major_version, minor_version) =>
        match find_table_end f fuel with
        | none => none
        | some offset =>
          some (install_write f
            (install_row junk short_game_name user major_version minor_version) offset, 0)

/-- The loop of `mesh_uninstall`: the flash after it. -/
def uninstall_write (f : Flash) (user : User) (game_name : CStr) (fuel : Nat) : Option Flash :=
  table_loop f
    (fun row offset (_ : Unit) =>
      if row.user_name = user.name ∧ full_name_from_short_name row = game_name ∧
          row.install_flag = MESH_TABLE_INSTALLED then
        LoopStep.exit
          (mesh_flash_write f (row.set_install_flag MESH_TABLE_UNINSTALLED).data offset
            ROW_SIZE).flash
      else LoopStep.next () (u32 (offset + ROW_SIZE)))
    (fun _ _ => f) fuel row_uninit MESH_INSTALL_GAME_OFFSET ()

/-- `mesh_uninstall(args)`: the flash afterwards and the returned code. -/
def mesh_uninstall (f : Flash) (user : User) (args : List CStr) (fuel : Nat) :
    Option (Flash × Int) :=
  match mesh_game_installed f user (args.getD 1 []) fuel with
  | none => none
  | some installed =>
    if installed = 0 then some (f, 0)
    else
      match uninstall_write f user (args.getD 1 []) fuel with
      | none => none
      | some f1 => some (f1, 0)

/-- The `unsigned int` that `mesh_init_table` and `mesh_is_first_table_write`
read from the sentinel location. -/
def read_sentinel (f : Flash) : Nat :=
  let sentinel := (mesh_flash_read f (fun _ => 0) MESH_SENTINEL_LOCATION MESH_SENTINEL_LENGTH).1
  le_value (sentinel 0) (sentinel 1) (sentinel 2) (sentinel 3)

/-- `mesh_init_table()`: the flash afterwards and the returned code. -/
def mesh_init_table (f : Flash) : Flash × Int :=
  if read_sentinel f ≠ MESH_SENTINEL_VALUE then
    let f1 := (mesh_flash_write f (fun j => (le_bytes MESH_SENTINEL_VALUE).getD j 0)
      MESH_SENTINEL_LOCATION MESH_SENTINEL_LENGTH).flash
    let f2 := (mesh_flash_write f1 (fun j => (le_bytes MESH_TABLE_END).getD j 0)
      MESH_INSTALL_GAME_OFFSET 1).flash
    (f2, 0)
  else (f, 1)

/-- `mesh_is_first_table_write()`. -/
def mesh_is_first_table_write (f : Flash) : Int :=
  if read_sentinel f ≠ MESH_SENTINEL_VALUE then 1 else 0

/-! ## Definitions used to state the properties -/

/-- The flash content `f` with the first `n` bytes of `data` placed at `loc`. -/
def written (f : Flash) (data : Buf) (loc n : Nat) : Flash :=
  fun a => if loc ≤ a ∧ a < loc + n then data (a - loc) else f a

/-- Invariant of the page loop of `mesh_flash_write` before page `i`. -/
def WriteInv (f : Flash) (data : Buf) (loc len : Nat) (s : WriteState) (i : Nat) : Prop :=
  s.flash = written f data loc s.bytes_copied ∧ s.bytes_copied ≤ len ∧
  (i = loc / FLASH_PAGE_SIZE → s.bytes_copied = 0) ∧
  (loc / FLASH_PAGE_SIZE < i → loc + s.bytes_copied ≤ i * FLASH_PAGE_SIZE ∧
    (s.bytes_copied = len ∨ loc + s.bytes_copied = i * FLASH_PAGE_SIZE))

/-- The two `sf` commands that the page loop issues for page index `i`, with
their statuses. -/
def page_calls (i : Nat) : List SfCall :=
  [⟨SfOp.read, u32 (i * FLASH_PAGE_SIZE), FLASH_PAGE_SIZE,
      if u32 (i * FLASH_PAGE_SIZE) + FLASH_PAGE_SIZE ≤ FLASH_SIZE then 0 else 1⟩,
   ⟨SfOp.update, u32 (i * FLASH_PAGE_SIZE), FLASH_PAGE_SIZE,
      if u32 (i * FLASH_PAGE_SIZE) + FLASH_PAGE_SIZE ≤ FLASH_SIZE then 0 else 1⟩]

/-- The flash offset of the `k`-th row of the install table. -/
def slot_offset (k : Nat) : Nat := MESH_INSTALL_GAME_OFFSET + ROW_SIZE * k

/-- The `k`-th row of the install table as stored in flash. -/
def slot_row (f : Flash) (k : Nat) : games_tbl_row :=
  ⟨(List.range ROW_SIZE).map (fun j => f (slot_offset k + j))⟩

/-- The table in flash has `n` records followed by an END record, and the
whole of that END row lies inside the flash (so that a scan can read it). -/
def TableEnd (f : Flash) (n : Nat) : Prop :=
  slot_offset (n + 1) ≤ FLASH_SIZE ∧
  (∀ k, k < n → f (slot_offset k) ≠ MESH_TABLE_END) ∧
  f (slot_offset n) = MESH_TABLE_END

/-- The records before END of a table with `n` records. -/
def table_rows (f : Flash) (n : Nat) : List games_tbl_row :=
  (List.range n).map (slot_row f)

/-- A table loop run over a list of rows, the first of which is in slot `k`. -/
def walk {σ ρ : Type} (body : games_tbl_row → Nat → σ → LoopStep σ ρ) (done : σ → Nat → ρ) :
    List games_tbl_row → Nat → σ → ρ
  | [], k, s => done s (slot_offset k)
  | row :: rest, k, s =>
    match body row (slot_offset k) s with
    | LoopStep.next s1 _ => walk body done rest (k + 1) s1
    | LoopStep.exit r => r

/-- The bytes of a string literal. -/
def ascii (s : String) : CStr := s.toList.map Char.toNat

/-- A flash that holds the sentinel, the given rows from the table base on,
and an END flag after them; every other byte is 0. -/
def table_flash (rows : List games_tbl_row) : Flash :=
  fun a =>
    if a < MESH_SENTINEL_LOCATION then 0
    else (le_bytes MESH_SENTINEL_VALUE ++ rows.flatMap (fun row => row.bytes) ++
      [MESH_TABLE_END]).getD (a - MESH_SENTINEL_LOCATION) 0

/-- A record matches a user and a short game name. -/
def record_matches (user : User) (short_name : CStr) (row : games_tbl_row) : Prop :=
  row.user_name = user.name ∧ row.game_name = short_name

instance (user : User) (short_name : CStr) (row : games_tbl_row) :
    Decidable (record_matches user short_name row) :=
  inferInstanceAs (Decidable (_ ∧ _))

/-- The reference definition of `classify_install` of the specification, over
the records before END: 1 (Downgrade) if some record of the user and the game
has a strictly higher version, whatever its status; otherwise 2
(DuplicateInstalled) if some such record has the same version and is
INSTALLED; otherwise 0 (Ok). -/
def classify_install (records : List games_tbl_row) (user : User) (short_name : CStr)
    (major minor : Nat) : Int :=
  if ∃ row ∈ records, record_matches user short_name row ∧
      (major < row.major_version ∨ (major = row.major_version ∧ minor < row.minor_version)) then 1
  else if ∃ row ∈ records, record_matches user short_name row ∧
      major = row.major_version ∧ minor = row.minor_version ∧
      row.install_flag = MESH_TABLE_INSTALLED then 2
  else 0

/-- The part of a game name before its first `-`. -/
def short_name_before_dash (game_name : CStr) : CStr :=
  game_name.takeWhile (fun c => !decide (c = 45))

instance (f : Flash) (n : Nat) : Decidable (TableEnd f n) :=
  inferInstanceAs (Decidable (_ ∧ _ ∧ _))

/-- The user of the examples. -/
def alice : User := ⟨ascii "alice", ascii "12345678"⟩

/-- The row that `mesh_install` writes for `alice` and the game `chess-v1.0`. -/
def chess_1_0 : games_tbl_row :=
  install_row row_uninit (ascii "chess") alice (ascii "1") (ascii "0")

/-- The test of the loop body of `mesh_uninstall`: the row is the one to
uninstall. -/
def uninstall_match (user : User) (game_name : CStr) (row : games_tbl_row) : Prop :=
  row.user_name = user.name ∧ full_name_from_short_name row = game_name ∧
    row.install_flag = MESH_TABLE_INSTALLED

instance (user : User) (game_name : CStr) (row : games_tbl_row) :
    Decidable (uninstall_match user game_name row) :=
  inferInstanceAs (Decidable (_ ∧ _ ∧ _))

/-- The slot of the first record before END that `mesh_uninstall` matches, in
a table with `n` records. -/
def uninstall_target (f : Flash) (user : User) (game_name : CStr) (n : Nat) : Option Nat :=
  (List.range n).find? (fun k => decide (uninstall_match user game_name (slot_row f k)))

/-- The flash with the status byte of slot `k` set to UNINSTALLED when `k` is a
slot, and the flash as it is otherwise. -/
def tombstoned (f : Flash) : Option Nat → Flash
  | some k => Function.update f (slot_offset k) MESH_TABLE_UNINSTALLED
  | none => f

/-- A games partition that holds the package `chess-v1.0`, with `alice` and
`bob` as its authorized users. -/
def chess_fs : FS := fun name =>
  if name = ascii "chess-v1.0" then some (ascii "version:1.0\nname:Chess\nusers:alice bob\n")
  else none

/-- A user who is not named in the header of `chess-v1.0`. -/
def carol : User := ⟨ascii "carol", ascii "87654321"⟩

/-- A write to the install table: the append that `mesh_install` performs for
the row it has built, or the tombstone that the loop of `mesh_uninstall`
performs for a user and a full game name. -/
inductive TableOp where
  | append (junk : games_tbl_row) (short_game_name : CStr) (user : User)
      (major_version minor_version : CStr)
  | tombstone (user : User) (game_name : CStr)

/-- One table write on a flash; `none` when the scan that precedes it reads no
END record within the bound. -/
def apply_op (fuel : Nat) (f : Flash) : TableOp → Option Flash
  | TableOp.append junk short user major minor =>
    (find_table_end f fuel).map (install_write f (install_row junk short user major minor))
  | TableOp.tombstone user game_name => uninstall_write f user game_name fuel

/-- A sequence of table writes, in order. -/
def apply_ops (fuel : Nat) : Flash → List TableOp → Option Flash
  | f, [] => some f
  | f, op :: rest =>
    match apply_op fuel f op with
    | none => none
    | some f1 => apply_ops fuel f1 rest

/-- The number of appends in a sequence of table writes. -/
def count_appends : List TableOp → Nat
  | [] => 0
  | TableOp.append _ _ _ _ _ :: rest => count_appends rest + 1
  | TableOp.tombstone _ _ :: rest => count_appends rest

/-- The largest number of records after which the END row still lies inside
the flash: `MESH_INSTALL_GAME_OFFSET + ROW_SIZE * (279618 + 1) ≤ FLASH_SIZE`. -/
def MAX_RECORDS : Nat := 279618

/-- A well-formed table with `n` records, each INSTALLED or UNINSTALLED. -/
def TableInv (f : Flash) (n : Nat) : Prop :=
  TableEnd f n ∧
  ∀ k, k < n → f (slot_offset k) = MESH_TABLE_INSTALLED ∨ f (slot_offset k) = MESH_TABLE_UNINSTALLED

/-- The only END byte of the flash is the status byte of slot `k`. -/
def OnlyEndAt (f : Flash) (k : Nat) : Prop :=
  f (slot_offset k) = MESH_TABLE_END ∧ ∀ a, f a = MESH_TABLE_END → a = slot_offset k

/-- The append of the record `chess` 1.0 of `alice`. -/
def append_chess : TableOp :=
  TableOp.append row_uninit (ascii "chess") alice (ascii "1") (ascii "0")

/-- The `sf` commands that `mesh_init_table()` issues, in order: the read of
the sentinel and, when the sentinel is absent, the commands of the two
writes. -/
def mesh_init_table_log (f : Flash) : List SfCall :=
  ⟨SfOp.read, MESH_SENTINEL_LOCATION, MESH_SENTINEL_LENGTH,
    (mesh_flash_read f (fun _ => 0) MESH_SENTINEL_LOCATION MESH_SENTINEL_LENGTH).2⟩ ::
  (if read_sentinel f ≠ MESH_SENTINEL_VALUE then
    (mesh_flash_write f (fun j => (le_bytes MESH_SENTINEL_VALUE).getD j 0)
      MESH_SENTINEL_LOCATION MESH_SENTINEL_LENGTH).log ++
    (mesh_flash_write
      (mesh_flash_write f (fun j => (le_bytes MESH_SENTINEL_VALUE).getD j 0)
        MESH_SENTINEL_LOCATION MESH_SENTINEL_LENGTH).flash
      (fun j => (le_bytes MESH_TABLE_END).getD j 0) MESH_INSTALL_GAME_OFFSET 1).log
  else [])

/-- The test of the loop body of `mesh_list`: the row is printed. -/
def listed (user : User) (row : games_tbl_row) : Prop :=
  row.user_name = user.name ∧ row.install_flag = MESH_TABLE_INSTALLED

instance (user : User) (row : games_tbl_row) : Decidable (listed user row) :=
  inferInstanceAs (Decidable (_ ∧ _))

/-- The lines that `mesh_list` prints for a list of records: the full name of
every record of the user that is INSTALLED, in order. -/
def listing (user : User) (rows : List games_tbl_row) : List CStr :=
  (rows.filter (fun row => decide (listed user row))).map full_name_from_short_name

/-- A package name whose major version is the largest `unsigned int`. -/
def big_name : CStr := ascii "g-v4294967295.0"

/-- A games partition that holds the package `big_name`, with `alice` as its
authorized user. -/
def big_fs : FS := fun name =>
  if name = big_name then some (ascii "version:4294967295.0\nname:G\nusers:alice\n") else none

/-- The name of the package of the game with short name `g` at the version
written `M.m`: `g-vM.m`. -/
def package_name (g M m : CStr) : CStr := g ++ [45, 118] ++ M ++ [46] ++ m

/-- A short game name that `mesh_install` records as it is: not empty, without
`-` and NUL, at most `MAX_GAME_LENGTH` bytes. -/
def NameOk (g : CStr) : Prop :=
  g ≠ [] ∧ (∀ c ∈ g, c ≠ 45 ∧ c ≠ 0) ∧ g.length ≤ MAX_GAME_LENGTH

/-- A user name that fits the `name` array of `User`: without NUL, at most
`MAX_USERNAME_LENGTH` bytes. -/
def UserOk (user : User) : Prop :=
  (∀ c ∈ user.name, c ≠ 0) ∧ user.name.length ≤ MAX_USERNAME_LENGTH

/-- The package `g-vM.m` exists on the games partition with a header that
parses, carries the version of the file name and names the user; the name is
at most `MAX_GAME_LENGTH + 1` bytes long, and `M` and `m` are the decimal
numbers that `%d` prints for their values. -/
structure PackageOk (fs : FS) (user : User) (g M m : CStr) : Prop where
  header : ∃ game, mesh_get_game_header fs (package_name g M m) = some game ∧
    game.major_version = simple_strtoul M ∧ game.minor_version = simple_strtoul m ∧
    mesh_check_user game user = 1
  name_len : (package_name g M m).length ≤ MAX_GAME_LENGTH + 1
  major_print : fmt_d (simple_strtoul M) = M
  minor_print : fmt_d (simple_strtoul m) = m
  major_chars : ∀ c ∈ M, c ≠ 46 ∧ c ≠ 45
  minor_chars : m ≠ [] ∧ ∀ c ∈ m, c ≠ 45

/-- The rows of a table after the loop of `mesh_uninstall`: the first row that
matches has its status set to UNINSTALLED. -/
def tombstone_rows (user : User) (game_name : CStr) : List games_tbl_row → List games_tbl_row
  | [] => []
  | row :: rest =>
    if uninstall_match user game_name row then
      row.set_install_flag MESH_TABLE_UNINSTALLED :: rest
    else row :: tombstone_rows user game_name rest

/-- A games partition that holds the packages `a-b-v1.0` and `a-b-v0.9` of a
game named `a-b`, each with the version of its file name in its header and
`alice` as its authorized user. -/
def dash_fs : FS := fun name =>
  if name = ascii "a-b-v1.0" then some (ascii "version:1.0\nname:a-b\nusers:alice\n")
  else if name = ascii "a-b-v0.9" then some (ascii "version:0.9\nname:a-b\nusers:alice\n")
  else none

/-- A games partition that holds the packages `chess-v1.0`, `chess-v0.9`,
`chess-v1.2` and `chess-v1.1`, each with the version of its file name in its
header and `alice` and `bob` as its authorized users. -/
def versions_fs : FS := fun name =>
  if name = ascii "chess-v1.0" then some (ascii "version:1.0\nname:Chess\nusers:alice bob\n")
  else if name = ascii "chess-v0.9" then
    some (ascii "version:0.9\nname:Chess\nusers:alice bob\n")
  else if name = ascii "chess-v1.2" then
    some (ascii "version:1.2\nname:Chess\nusers:alice bob\n")
  else if name = ascii "chess-v1.1" then
    some (ascii "version:1.1\nname:Chess\nusers:alice bob\n")
  else none

/-- The header of a package as `mesh_get_game_header` parses it (an empty
header when the parse fails). -/
def parsed_header (fs : FS) (game_name : CStr) : Game :=
  (mesh_get_game_header fs game_name).getD ⟨[], 0, 0, fun _ => 0, 0⟩

/-- Loop of `decimal_value`: the digits seen so far have the value `r`. -/
def decimal_loop : List Nat → Nat → Nat
  | [], r => r
  | c :: cs, r => decimal_loop cs (r * 10 + (c - 48))

/-- The number that a string of decimal digits denotes. -/
def decimal_value (cs : CStr) : Nat := decimal_loop cs 0

/-- A version number of a well-formed header: a string of decimal digits, not
empty, whose value fits an `unsigned int`. -/
def IsDecimal (cs : CStr) : Prop :=
  cs ≠ [] ∧ (∀ c ∈ cs, 48 ≤ c ∧ c ≤ 57) ∧ decimal_value cs < 2 ^ 32

/-- A game name of a well-formed header: not empty, without newline and NUL,
at most `MAX_GAME_LENGTH` bytes. -/
def HeaderNameOk (N : CStr) : Prop :=
  N ≠ [] ∧ (∀ c ∈ N, c ≠ 10 ∧ c ≠ 0) ∧ N.length ≤ MAX_GAME_LENGTH

/-- The users of a well-formed header: between one and `MAX_NUM_USERS` names,
each not empty, without space, newline and NUL, at most `MAX_USERNAME_LENGTH`
bytes. -/
def HeaderUsersOk (users : List CStr) : Prop :=
  users ≠ [] ∧ users.length ≤ MAX_NUM_USERS ∧
  ∀ u ∈ users, u ≠ [] ∧ (∀ c ∈ u, c ≠ 32 ∧ c ≠ 10 ∧ c ≠ 0) ∧
    u.length ≤ MAX_USERNAME_LENGTH

/-- The user names of a `users:` line, separated by single spaces. -/
def join_users : List CStr → CStr
  | [] => []
  | [u] => u
  | u :: v :: rest => u ++ 32 :: join_users (v :: rest)

/-- The bytes of a three-line header: `version:M.m`, `name:N` and
`users:u1 u2 ...`, each line ended by a newline. -/
def header_bytes (M m N : CStr) (users : List CStr) : List Nat :=
  ascii "version:" ++ M ++ [46] ++ m ++ [10] ++ ascii "name:" ++ N ++ [10] ++
    ascii "users:" ++ join_users users ++ [10]

/-- A games partition that holds one package, `chess`, whose content is the
header `version:1.3`, `name:Chess`, `users:alice bob` followed by two more
bytes. -/
def header_fs : FS := fun name =>
  if name = ascii "chess" then
    some (ascii "version:1.3\nname:Chess\nusers:alice bob\n" ++ [127, 69])
  else none

/-- The offset and the length of every `sf update` among the issued commands,
in order. -/
def update_calls (log : List SfCall) : List (Nat × Nat) :=
  (log.filter (fun c => decide (c.op = SfOp.update))).map (fun c => (c.addr, c.len))

/-- A package name of 33 bytes that begins with `chess-v1.0`. -/
def long_chess_name : CStr := ascii "chess-v1.0" ++ List.replicate 23 48

/-- A games partition that holds two packages of `chess` at version 1.0 under
names other than `chess-v1.0`: `chess-v1.00` and `long_chess_name`, each with
`alice` as its authorized user. -/
def duplicate_fs : FS := fun name =>
  if name = ascii "chess-v1.00" then some (ascii "version:1.0\nname:Chess\nusers:alice\n")
  else if name = long_chess_name then some (ascii "version:1.0\nname:Chess\nusers:alice\n")
  else none

/-- A games partition that holds one package, `noname`, whose header has no
name line: `version:1.0`, `users:alice bob`, and then the line `size:42`. -/
def malformed_fs : FS := fun name =>
  if name = ascii "noname" then some (ascii "version:1.0\nusers:alice bob\nsize:42\n")
  else none

/-- The user memory after one pass of the outer loop of the user copy has
stored the characters `u` in entry `i`: the characters from index `16 * i` on,
and a NUL after them. -/
def put_entry (mem : Buf) (i : Nat) (u : CStr) : Buf :=
  fun a =>
    if 16 * i ≤ a ∧ a < 16 * i + u.length then u.getD (a - 16 * i) 0
    else if a = 16 * i + u.length then 0
    else mem a

/-- The user memory after the names of a list are stored in the entries from
`i` on, one after the other. -/
def put_entries (mem : Buf) : Nat → List CStr → Buf
  | _, [] => mem
  | i, u :: rest => put_entries (put_entry mem i u) (i + 1) rest

/-- The bytes of a three-line header with the users line given as it stands:
`version:M.m`, `name:N` and `users:` followed by `line`, each line ended by a
newline. -/
def header_line_bytes (M m N line : CStr) : List Nat :=
  ascii "version:" ++ M ++ [46] ++ m ++ [10] ++ ascii "name:" ++ N ++ [10] ++
    ascii "users:" ++ line ++ [10]

/-- The names of a users line, however many: at least one name, each not
empty, without space, newline and NUL, at most `MAX_USERNAME_LENGTH` bytes. -/
def HeaderNamesOk (users : List CStr) : Prop :=
  users ≠ [] ∧
  ∀ u ∈ users, u ≠ [] ∧ (∀ c ∈ u, c ≠ 32 ∧ c ≠ 10 ∧ c ≠ 0) ∧
    u.length ≤ MAX_USERNAME_LENGTH

/-- A games partition that holds one package, `six`, whose header names the
six users `a`, `b`, `c`, `d`, `e` and `f`. -/
def six_users_fs : FS := fun name =>
  if name = ascii "six" then some (ascii "version:1.0\nname:Six\nusers:a b c d e f\n")
  else none

/-- The number of entries that the user copy makes of `pre`, the part of a
users line before a token. -/
def entries_before (pre : CStr) : Nat :=
  (copy_users pre (MAX_NUM_USERS + 1) (fun _ => 0) 0 0).2

/-- A games partition that holds one package, `sixteen`, whose users line is
the 16 character token `abcdefghijklmnop` followed by `bob`. -/
def sixteen_fs : FS := fun name =>
  if name = ascii "sixteen" then
    some (ascii "version:1.0\nname:G\nusers:abcdefghijklmnop bob\n")
  else none

/-- A games partition that holds one package, `split`, whose users line is
`alice`, the 19 character token `abcdefghijklmnopqrs` and `bob`. -/
def split_fs : FS := fun name =>
  if name = ascii "split" then
    some (ascii "version:1.0\nname:G\nusers:alice abcdefghijklmnopqrs bob\n")
  else none

/-- The game names of the records are of the kind that `mesh_install` stores:
not empty, without `-`, shorter than `MAX_GAME_LENGTH` bytes. -/
def StoredNamesOk (rows : List games_tbl_row) : Prop :=
  ∀ row ∈ rows, row.game_name ≠ [] ∧ 45 ∉ row.game_name ∧
    row.game_name.length < MAX_GAME_LENGTH

/-! ## Theorems: paged flash -/

theorem copy_first_spec (data : Buf) (loc len psa N : Nat)
    (hmod : loc % FLASH_PAGE_SIZE = loc - psa)
    (hsz : psa + FLASH_PAGE_SIZE < 2 ^ 32)
    (hN1 : N ≤ len) (hN2 : loc + N ≤ psa + FLASH_PAGE_SIZE)
    (hN3 : N = len ∨ loc + N = psa + FLASH_PAGE_SIZE) :
    ∀ (fuel : Nat) (buf : Buf) (bc : Nat), bc ≤ N → N - bc ≤ fuel →
      (copy_first data loc len psa fuel buf bc).2 = N ∧
      ∀ j, (copy_first data loc len psa fuel buf bc).1 j =
        if loc - psa + bc ≤ j ∧ j < loc - psa + N then data (j - (loc - psa)) else buf j := by
  intro fuel
  induction fuel with
  | zero =>
    intro buf bc hbc hfuel
    have hN : bc = N := by omega
    refine ⟨by simpa [copy_first] using hN, fun j => ?_⟩
    have : ¬ (loc - psa + bc ≤ j ∧ j < loc - psa + N) := by omega
    simp [copy_first, this]
  | succ fuel ih =>
    intro buf bc hbc hfuel
    have h1 : u32 (loc + bc) = loc + bc := by
      unfold u32; apply Nat.mod_eq_of_lt; omega
    have h2 : u32 (psa + FLASH_PAGE_SIZE) = psa + FLASH_PAGE_SIZE := by
      unfold u32; exact Nat.mod_eq_of_lt hsz
    by_cases hc : bc < N
    · have hcond : u32 (loc + bc) < u32 (psa + FLASH_PAGE_SIZE) ∧ bc < len := by
        rw [h1, h2]; omega
      have ih' := ih (Function.update buf (loc % FLASH_PAGE_SIZE + bc) (data bc)) (bc + 1)
        (by omega) (by omega)
      rw [copy_first, if_pos hcond]
      refine ⟨ih'.1, fun j => ?_⟩
      rw [ih'.2 j, hmod]
      by_cases hj : j = loc - psa + bc
      · subst hj
        have e : loc - psa + bc - (loc - psa) = bc := by omega
        have hr : loc - psa + bc ≤ loc - psa + bc ∧ loc - psa + bc < loc - psa + N := by omega
        have hr' : ¬ (loc - psa + (bc + 1) ≤ loc - psa + bc ∧
            loc - psa + bc < loc - psa + N) := by omega
        rw [if_pos hr, if_neg hr', e]
        simp [Function.update]
      · by_cases hr : loc - psa + bc ≤ j ∧ j < loc - psa + N
        · have hr' : loc - psa + (bc + 1) ≤ j ∧ j < loc - psa + N := by omega
          rw [if_pos hr, if_pos hr']
        · have hr' : ¬ (loc - psa + (bc + 1) ≤ j ∧ j < loc - psa + N) := by omega
          rw [if_neg hr, if_neg hr']
          simp [Function.update, hj]
    · have hN : bc = N := by omega
      have hcond : ¬ (u32 (loc + bc) < u32 (psa + FLASH_PAGE_SIZE) ∧ bc < len) := by
        rw [h1, h2]; omega
      rw [copy_first, if_neg hcond]
      refine ⟨hN, fun j => ?_⟩
      have : ¬ (loc - psa + bc ≤ j ∧ j < loc - psa + N) := by omega
      simp [this]

theorem copy_rest_spec (data : Buf) (len i N : Nat)
    (hsz : (i + 1) * FLASH_PAGE_SIZE < 2 ^ 32)
    (hN2 : N ≤ FLASH_PAGE_SIZE) :
    ∀ (fuel : Nat) (buf : Buf) (j bc : Nat), j ≤ N → N - j ≤ fuel →
      bc + (N - j) ≤ len → (N = FLASH_PAGE_SIZE ∨ bc + (N - j) = len) →
      (copy_rest data len i fuel buf j bc).2 = bc + (N - j) ∧
      ∀ k, (copy_rest data len i fuel buf j bc).1 k =
        if j ≤ k ∧ k < N then data (bc + (k - j)) else buf k := by
  intro fuel
  induction fuel with
  | zero =>
    intro buf j bc hj hfuel _ _
    have hN : j = N := by omega
    refine ⟨by simp [copy_rest, hN], fun k => ?_⟩
    have : ¬ (j ≤ k ∧ k < N) := by omega
    simp [copy_rest, this]
  | succ fuel ih =>
    intro buf j bc hj hfuel hlen hN3
    have e0 : (i + 1) * FLASH_PAGE_SIZE = i * FLASH_PAGE_SIZE + FLASH_PAGE_SIZE := by ring
    have h0 : u32 (i * FLASH_PAGE_SIZE) = i * FLASH_PAGE_SIZE := by
      unfold u32; apply Nat.mod_eq_of_lt; omega
    have h1 : u32 (i * FLASH_PAGE_SIZE + j) = i * FLASH_PAGE_SIZE + j := by
      unfold u32; apply Nat.mod_eq_of_lt; omega
    have h2 : u32 ((i + 1) * FLASH_PAGE_SIZE) = i * FLASH_PAGE_SIZE + FLASH_PAGE_SIZE := by
      unfold u32; rw [Nat.mod_eq_of_lt hsz, e0]
    by_cases hc : j < N
    · have hcond : u32 (u32 (i * FLASH_PAGE_SIZE) + j) < u32 ((i + 1) * FLASH_PAGE_SIZE)
          ∧ bc < len := by
        rw [h0, h1, h2]; omega
      have ih' := ih (Function.update buf j (data bc)) (j + 1) (bc + 1)
        (by omega) (by omega) (by omega) (by omega)
      rw [copy_rest, if_pos hcond]
      refine ⟨by rw [ih'.1]; omega, fun k => ?_⟩
      rw [ih'.2 k]
      by_cases hk : k = j
      · subst hk
        have hr : k ≤ k ∧ k < N := by omega
        have hr' : ¬ (k + 1 ≤ k ∧ k < N) := by omega
        rw [if_pos hr, if_neg hr']
        simp [Function.update]
      · by_cases hr : j ≤ k ∧ k < N
        · have hr' : j + 1 ≤ k ∧ k < N := by omega
          rw [if_pos hr, if_pos hr']
          congr 1; omega
        · have hr' : ¬ (j + 1 ≤ k ∧ k < N) := by omega
          rw [if_neg hr, if_neg hr']
          simp [Function.update, hk]
    · have hN : j = N := by omega
      have hcond : ¬ (u32 (u32 (i * FLASH_PAGE_SIZE) + j) < u32 ((i + 1) * FLASH_PAGE_SIZE)
          ∧ bc < len) := by
        rw [h0, h1, h2]
        rcases hN3 with h | h
        · omega
        · omega
      rw [copy_rest, if_neg hcond]
      refine ⟨by omega, fun k => ?_⟩
      have : ¬ (j ≤ k ∧ k < N) := by omega
      simp [this]

theorem write_page_inv (f : Flash) (data : Buf) (loc len : Nat) (s : WriteState) (i : Nat)
    (hlen : 1 ≤ len) (hin : loc + len ≤ FLASH_SIZE)
    (hi1 : loc / FLASH_PAGE_SIZE ≤ i) (hi2 : i ≤ (loc + len) / FLASH_PAGE_SIZE)
    (hinv : WriteInv f data loc len s i) :
    WriteInv f data loc len (write_page data loc len (loc / FLASH_PAGE_SIZE) s i) (i + 1) := by
  obtain ⟨hfl, hble, h0, hgt⟩ := hinv
  simp only [FLASH_PAGE_SIZE, FLASH_SIZE] at *
  have hi256 : i ≤ 256 := by omega
  have hu : u32 (i * 65536) = i * 65536 := by
    unfold u32; apply Nat.mod_eq_of_lt; omega
  by_cases hsp : i = loc / 65536
  · -- the first page
    have hb0 := h0 hsp
    have hrange : i * 65536 + 65536 ≤ 16777216 := by omega
    obtain ⟨N, hN1, hN2, hN3⟩ : ∃ N, N ≤ len ∧ loc + N ≤ i * 65536 + 65536 ∧
        (N = len ∨ loc + N = i * 65536 + 65536) := by
      by_cases h : loc + len ≤ i * 65536 + 65536
      · exact ⟨len, le_refl _, h, Or.inl rfl⟩
      · exact ⟨i * 65536 + 65536 - loc, by omega, by omega, Or.inr (by omega)⟩
    have hspec := copy_first_spec data loc len (i * 65536) N
      (by simp only [FLASH_PAGE_SIZE]; omega) (by simp only [FLASH_PAGE_SIZE]; omega)
      hN1 (by simpa only [FLASH_PAGE_SIZE] using hN2) (by simpa only [FLASH_PAGE_SIZE] using hN3)
      len (mesh_flash_read s.flash s.flash_data (i * 65536) 65536).1 0 (by omega) (by omega)
    simp only [WriteInv, write_page, FLASH_PAGE_SIZE, FLASH_SIZE, hu, if_pos hsp, hb0]
    rw [← hsp]
    rw [hspec.1]
    refine ⟨?_, hN1, by omega, fun _ => ⟨by omega, by omega⟩⟩
    funext a
    have hrd : ∀ j, (mesh_flash_read s.flash s.flash_data (i * 65536) 65536).1 j =
        if j < 65536 then f (i * 65536 + j) else s.flash_data j := by
      intro j
      unfold mesh_flash_read sf_read
      rw [if_pos (by simpa only [FLASH_SIZE] using hrange), hfl, hb0]
      have h4 : ¬ (loc ≤ i * 65536 + j ∧ i * 65536 + j < loc + 0) := by omega
      simp only [written, if_neg h4]
    unfold sf_update
    rw [if_pos (by simpa only [FLASH_SIZE] using hrange)]
    simp only [written, hspec.2, hrd]
    by_cases ha : i * 65536 ≤ a ∧ a < i * 65536 + 65536
    · rw [if_pos ha]
      by_cases hr : loc ≤ a ∧ a < loc + N
      · have hr' : loc - i * 65536 + 0 ≤ a - i * 65536 ∧ a - i * 65536 < loc - i * 65536 + N := by
          omega
        rw [if_pos hr, if_pos hr']
        congr 1; omega
      · have hr' : ¬ (loc - i * 65536 + 0 ≤ a - i * 65536 ∧
            a - i * 65536 < loc - i * 65536 + N) := by omega
        have h3 : a - i * 65536 < 65536 := by omega
        rw [if_neg hr, if_neg hr', if_pos h3]
        congr 1; omega
    · have hr : ¬ (loc ≤ a ∧ a < loc + N) := by omega
      have h4 : ¬ (loc ≤ a ∧ a < loc + 0) := by omega
      rw [if_neg ha, if_neg hr, hfl, hb0]
      simp only [written, if_neg h4]
  · -- a later page
    have hlt : loc / 65536 < i := by omega
    obtain ⟨hle, hor⟩ := hgt hlt
    obtain ⟨N, hN1, hN2, hN3⟩ : ∃ N, N ≤ 65536 ∧ s.bytes_copied + N ≤ len ∧
        (N = 65536 ∨ s.bytes_copied + N = len) := by
      by_cases h : s.bytes_copied + 65536 ≤ len
      · exact ⟨65536, le_refl _, h, Or.inl rfl⟩
      · exact ⟨len - s.bytes_copied, by omega, by omega, Or.inr (by omega)⟩
    have hspec := copy_rest_spec data len i N (by simp only [FLASH_PAGE_SIZE]; omega)
      (by simpa only [FLASH_PAGE_SIZE] using hN1)
      len (mesh_flash_read s.flash s.flash_data (i * 65536) 65536).1 0 s.bytes_copied
      (by omega) (by omega) (by omega) (by simpa only [FLASH_PAGE_SIZE] using hN3)
    simp only [WriteInv, write_page, FLASH_PAGE_SIZE, FLASH_SIZE, hu, if_neg hsp]
    rw [hspec.1]
    refine ⟨?_, by omega, by omega, fun _ => ⟨by omega, by omega⟩⟩
    funext a
    by_cases hrange : i * 65536 + 65536 ≤ 16777216
    · have hrd : ∀ j, (mesh_flash_read s.flash s.flash_data (i * 65536) 65536).1 j =
          if j < 65536 then s.flash (i * 65536 + j) else s.flash_data j := by
        intro j
        unfold mesh_flash_read sf_read
        rw [if_pos (by simpa only [FLASH_SIZE] using hrange)]
      unfold sf_update
      rw [if_pos (by simpa only [FLASH_SIZE] using hrange)]
      simp only [hspec.2, hrd]
      rw [hfl]
      simp only [written]
      by_cases ha : i * 65536 ≤ a ∧ a < i * 65536 + 65536
      · rw [if_pos ha]
        by_cases hk : 0 ≤ a - i * 65536 ∧ a - i * 65536 < N
        · have hr : loc ≤ a ∧ a < loc + (s.bytes_copied + (N - 0)) := by omega
          rw [if_pos hk, if_pos hr]
          congr 1; omega
        · have h3 : a - i * 65536 < 65536 := by omega
          rw [if_neg hk, if_pos h3]
          have e : i * 65536 + (a - i * 65536) = a := by omega
          rw [e]
          by_cases hr : loc ≤ a ∧ a < loc + s.bytes_copied
          · have hr' : loc ≤ a ∧ a < loc + (s.bytes_copied + (N - 0)) := by omega
            rw [if_pos hr, if_pos hr']
          · have hr' : ¬ (loc ≤ a ∧ a < loc + (s.bytes_copied + (N - 0))) := by omega
            rw [if_neg hr, if_neg hr']
      · rw [if_neg ha]
        by_cases hr : loc ≤ a ∧ a < loc + s.bytes_copied
        · have hr' : loc ≤ a ∧ a < loc + (s.bytes_copied + (N - 0)) := by omega
          rw [if_pos hr, if_pos hr']
        · have hr' : ¬ (loc ≤ a ∧ a < loc + (s.bytes_copied + (N - 0))) := by omega
          rw [if_neg hr, if_neg hr']
    · have hN0 : N = 0 := by omega
      unfold sf_update
      rw [if_neg (by simpa only [FLASH_SIZE] using hrange), hN0, hfl]
      rfl

theorem write_fold_inv (f : Flash) (data : Buf) (loc len : Nat)
    (hlen : 1 ≤ len) (hin : loc + len ≤ FLASH_SIZE) :
    ∀ k, k ≤ (loc + len) / FLASH_PAGE_SIZE + 1 - loc / FLASH_PAGE_SIZE →
      WriteInv f data loc len
        ((List.range' (loc / FLASH_PAGE_SIZE) k).foldl
          (write_page data loc len (loc / FLASH_PAGE_SIZE)) ⟨f, fun _ => 0, 0, []⟩)
        (loc / FLASH_PAGE_SIZE + k) := by
  intro k
  induction k with
  | zero =>
    intro _
    refine ⟨?_, by simp, fun _ => rfl, fun h => absurd h (by simp)⟩
    funext a
    have h : ¬ (loc ≤ a ∧ a < loc + 0) := by omega
    simp only [List.range'_zero, List.foldl_nil, written, if_neg h]
  | succ k ih =>
    intro hk
    rw [List.range'_concat, List.foldl_append]
    simp only [List.foldl_cons, List.foldl_nil, one_mul]
    exact write_page_inv f data loc len _ _ hlen hin (by omega) (by omega) (ih (by omega))

theorem mesh_flash_write_flash (f : Flash) (data : Buf) (loc len : Nat)
    (hlen : 1 ≤ len) (hin : loc + len ≤ FLASH_SIZE) :
    (mesh_flash_write f data loc len).flash = written f data loc len := by
  have hu : u32 (loc + len) = loc + len := by
    unfold u32; apply Nat.mod_eq_of_lt; simp only [FLASH_SIZE] at hin; omega
  have hinv := write_fold_inv f data loc len hlen hin
    ((loc + len) / FLASH_PAGE_SIZE + 1 - loc / FLASH_PAGE_SIZE) (le_refl _)
  have hnot : ¬ len < 1 := by omega
  simp only [mesh_flash_write, if_neg hnot, hu]
  obtain ⟨hfl, hble, _, hgt⟩ := hinv
  rw [hfl]
  simp only [FLASH_PAGE_SIZE, FLASH_SIZE] at hgt hin hble ⊢
  have hlt : loc / 65536 < loc / 65536 + ((loc + len) / 65536 + 1 - loc / 65536) := by
    omega
  obtain ⟨hle, hor⟩ := hgt hlt
  have : ((List.range' (loc / 65536) ((loc + len) / 65536 + 1 - loc / 65536)).foldl
      (write_page data loc len (loc / 65536)) ⟨f, fun _ => 0, 0, []⟩).bytes_copied = len := by
    rcases hor with h | h
    · exact h
    · omega
  rw [this]

theorem write_page_log (data : Buf) (loc len sp : Nat) (s : WriteState) (i : Nat) :
    (write_page data loc len sp s i).log = s.log ++ page_calls i := by
  unfold write_page page_calls mesh_flash_read sf_read sf_update
  by_cases h : u32 (i * FLASH_PAGE_SIZE) + FLASH_PAGE_SIZE ≤ FLASH_SIZE
  · simp only [if_pos h]
  · simp only [if_neg h]

theorem write_fold_log (data : Buf) (loc len sp : Nat) :
    ∀ (pages : List Nat) (s : WriteState),
      (pages.foldl (write_page data loc len sp) s).log = s.log ++ pages.flatMap page_calls := by
  intro pages
  induction pages with
  | nil => intro s; simp
  | cons i rest ih =>
    intro s
    rw [List.foldl_cons, ih, write_page_log, List.flatMap_cons, List.append_assoc]

/-- The `sf` commands issued by a write of at least one byte: the read and the
update of every page index from `starting_page` to `ending_page`, in order,
whatever status any of them returns. -/
theorem mesh_flash_write_log (f : Flash) (data : Buf) (loc len : Nat) (hlen : 1 ≤ len) :
    (mesh_flash_write f data loc len).log =
      (List.range' (loc / FLASH_PAGE_SIZE)
        (u32 (loc + len) / FLASH_PAGE_SIZE + 1 - loc / FLASH_PAGE_SIZE)).flatMap page_calls := by
  have hnot : ¬ len < 1 := by omega
  simp only [mesh_flash_write, if_neg hnot, write_fold_log, List.nil_append]

/-- C1: round trip of `mesh_flash_write` / `mesh_flash_read`.  For every flash
content, offset and non-empty data of length `len` with `offset + len` inside
the flash, a `mesh_flash_read(offset, len)` after
`mesh_flash_write(data, offset, len)` succeeds and yields exactly the bytes of
`data`, whichever page boundaries the range spans. -/
theorem mesh_flash_write_read_roundtrip (f : Flash) (data buf : Buf) (offset len : Nat)
    (hlen : 1 ≤ len) (hin : offset + len ≤ FLASH_SIZE) :
    (mesh_flash_read (mesh_flash_write f data offset len).flash buf offset len).2 = 0 ∧
    ∀ j, j < len →
      (mesh_flash_read (mesh_flash_write f data offset len).flash buf offset len).1 j = data j := by
  rw [mesh_flash_write_flash f data offset len hlen hin]
  unfold mesh_flash_read sf_read
  rw [if_pos hin]
  refine ⟨rfl, fun j hj => ?_⟩
  have h : offset ≤ offset + j ∧ offset + j < offset + len := by omega
  simp only [if_pos hj, written, if_pos h, Nat.add_sub_cancel_left]

/-- Witness of C1: three bytes written across the boundary between pages 0
and 1 of an erased flash are read back. -/
theorem mesh_flash_write_read_roundtrip_witness :
    (mesh_flash_read (mesh_flash_write (fun _ => 255) (fun j => j + 1) 65535 3).flash
        (fun _ => 0) 65535 3).2 = 0 ∧
    ∀ j, j < 3 →
      (mesh_flash_read (mesh_flash_write (fun _ => 255) (fun j => j + 1) 65535 3).flash
        (fun _ => 0) 65535 3).1 j = j + 1 :=
  mesh_flash_write_read_roundtrip (fun _ => 255) (fun j => j + 1) (fun _ => 0) 65535 3
    (by decide) (by decide)

/-- C2: non-interference of `mesh_flash_write`.  For every flash content,
offset and data of length `len` with `offset + len` inside the flash, every
flash byte at an address outside `[offset, offset + len)` has the same value
after the write as before, also in the pages that the write rewrites. -/
theorem mesh_flash_write_frame (f : Flash) (data : Buf) (offset len a : Nat)
    (hin : offset + len ≤ FLASH_SIZE) (ha : a < offset ∨ offset + len ≤ a) :
    (mesh_flash_write f data offset len).flash a = f a := by
  by_cases hlen : 1 ≤ len
  · rw [mesh_flash_write_flash f data offset len hlen hin]
    have h : ¬ (offset ≤ a ∧ a < offset + len) := by omega
    simp only [written, if_neg h]
  · have h : len < 1 := by omega
    simp only [mesh_flash_write, if_pos h]

/-- Witness of C2: a three byte write across a page boundary leaves the byte
just before it, in a rewritten page, as it was. -/
theorem mesh_flash_write_frame_witness :
    (mesh_flash_write (fun a => a % 7) (fun j => j + 1) 65535 3).flash 65534 = 65534 % 7 :=
  mesh_flash_write_frame (fun a => a % 7) (fun j => j + 1) 65535 3 65534
    (by decide) (by decide)

/-- C3, counterexample: a one byte write at the last address of the flash
issues an `sf update` of page 256 that returns the failure status 1, and
`mesh_flash_write` still returns 0. -/
theorem mesh_flash_write_failure_unreported :
    (⟨SfOp.update, 256 * FLASH_PAGE_SIZE, FLASH_PAGE_SIZE, 1⟩ : SfCall) ∈
        (mesh_flash_write (fun _ => 0) (fun _ => 7) (FLASH_SIZE - 1) 1).log ∧
    (mesh_flash_write (fun _ => 0) (fun _ => 7) (FLASH_SIZE - 1) 1).ret = 0 := by
  decide

/-- C3, amended: `mesh_flash_write` returns 0 for every input, whether or not
an `sf update` fails, and a failing update does not end the page loop: a write
of at least one byte issues the read and the update of every page index from
`starting_page` to `ending_page`, with whatever status each returns. -/
theorem mesh_flash_write_ignores_status (f : Flash) (data : Buf) (loc len : Nat) :
    (mesh_flash_write f data loc len).ret = 0 ∧
    (mesh_flash_write f data loc len).log =
      if len < 1 then []
      else (List.range' (loc / FLASH_PAGE_SIZE)
        (u32 (loc + len) / FLASH_PAGE_SIZE + 1 - loc / FLASH_PAGE_SIZE)).flatMap page_calls := by
  by_cases h : len < 1
  · simp only [mesh_flash_write, if_pos h, and_self]
  · rw [if_neg h, mesh_flash_write_log f data loc len (by omega)]
    simp only [mesh_flash_write, if_neg h, and_true]

/-! ## Theorems: table scans -/

theorem slot_offset_succ (k : Nat) : slot_offset (k + 1) = slot_offset k + ROW_SIZE := by
  unfold slot_offset; ring

theorem slot_row_flag (f : Flash) (k : Nat) : (slot_row f k).install_flag = f (slot_offset k) := by
  rfl

theorem read_row_in_range (f : Flash) (row : games_tbl_row) (k : Nat)
    (h : slot_offset (k + 1) ≤ FLASH_SIZE) : read_row f row (slot_offset k) = slot_row f k := by
  unfold read_row slot_row mesh_flash_read sf_read
  rw [slot_offset_succ] at h
  rw [if_pos h]
  rfl

theorem read_row_flag_out (f : Flash) (row : games_tbl_row) (offset : Nat)
    (h : ¬ offset + ROW_SIZE ≤ FLASH_SIZE) :
    (read_row f row offset).install_flag = row.install_flag := by
  unfold read_row mesh_flash_read sf_read
  rw [if_neg h]
  rfl

theorem read_row_flag_in (f : Flash) (row : games_tbl_row) (offset : Nat)
    (h : offset + ROW_SIZE ≤ FLASH_SIZE) :
    (read_row f row offset).install_flag = f offset := by
  unfold read_row mesh_flash_read sf_read
  rw [if_pos h]
  rfl

theorem u32_slot_offset (k : Nat) (h : slot_offset (k + 1) ≤ FLASH_SIZE) :
    u32 (slot_offset k + ROW_SIZE) = slot_offset (k + 1) := by
  rw [slot_offset_succ] at h ⊢
  unfold u32
  apply Nat.mod_eq_of_lt
  simp only [FLASH_SIZE] at h
  omega

/-- A table loop over a table with `n` records and a readable END record
reads END within `n + 1` passes, and does what the loop body does on the
rows of the slots `k, ..., n - 1` in turn. -/
theorem table_loop_walk {σ ρ : Type} (f : Flash)
    (body : games_tbl_row → Nat → σ → LoopStep σ ρ) (done : σ → Nat → ρ) (n : Nat)
    (hT : TableEnd f n)
    (hbody : ∀ row o s s1 o1, body row o s = LoopStep.next s1 o1 → o1 = u32 (o + ROW_SIZE)) :
    ∀ (fuel k : Nat) (row : games_tbl_row) (s : σ), k ≤ n → n - k < fuel →
      table_loop f body done fuel row (slot_offset k) s =
        some (walk body done ((List.range' k (n - k)).map (slot_row f)) k s) := by
  obtain ⟨hsz, hne, hend⟩ := hT
  intro fuel
  induction fuel with
  | zero => intro k row s _ h; omega
  | succ fuel ih =>
    intro k row s hk hfuel
    have hmono : slot_offset (k + 1) ≤ slot_offset (n + 1) := by
      unfold slot_offset ROW_SIZE; omega
    have hin : slot_offset (k + 1) ≤ FLASH_SIZE := le_trans hmono hsz
    unfold table_loop
    simp only [read_row_in_range f row k hin, slot_row_flag]
    by_cases hkn : k < n
    · have hd : n - k = (n - k - 1) + 1 := by omega
      rw [if_pos (hne k hkn), hd, List.range'_succ, List.map_cons, walk]
      cases hb : body (slot_row f k) (slot_offset k) s with
      | next s1 o1 =>
        have ho := hbody _ _ _ _ _ hb
        rw [u32_slot_offset k hin] at ho
        simp only []
        rw [ho, ih (k + 1) (slot_row f k) s1 (by omega) (by omega)]
        have e : n - (k + 1) = n - k - 1 := by omega
        rw [e]
      | exit r => simp only []
    · have hkn2 : k = n := by omega
      subst hkn2
      have hnot : ¬ (f (slot_offset k) ≠ MESH_TABLE_END) := by simp [hend]
      rw [if_neg hnot, Nat.sub_self, List.range'_zero, List.map_nil, walk]

/-- A table loop that has read END within some bound does the same within
every larger bound. -/
theorem table_loop_mono {σ ρ : Type} (f : Flash)
    (body : games_tbl_row → Nat → σ → LoopStep σ ρ) (done : σ → Nat → ρ) :
    ∀ (fuel m : Nat) (row : games_tbl_row) (offset : Nat) (s : σ) (r : ρ),
      table_loop f body done fuel row offset s = some r →
      table_loop f body done (fuel + m) row offset s = some r := by
  intro fuel
  induction fuel with
  | zero => intro m row offset s r h; simp [table_loop] at h
  | succ fuel ih =>
    intro m row offset s r h
    have e : fuel + 1 + m = (fuel + m) + 1 := by omega
    rw [e]
    unfold table_loop at h ⊢
    by_cases hf : (read_row f row offset).install_flag ≠ MESH_TABLE_END
    · simp only [if_pos hf] at h ⊢
      cases hb : body (read_row f row offset) offset s with
      | next s1 o1 =>
        rw [hb] at h
        simp only [] at h ⊢
        exact ih m _ _ _ _ h
      | exit r1 =>
        rw [hb] at h
        simpa using h
    · simp only [if_neg hf] at h ⊢
      exact h

/-- The scan of a table: with a readable END record in slot `n`, a table loop
started at the table base with a bound above `n` runs the body over the
records before END. -/
theorem table_loop_rows {σ ρ : Type} (f : Flash)
    (body : games_tbl_row → Nat → σ → LoopStep σ ρ) (done : σ → Nat → ρ) (n fuel : Nat)
    (hT : TableEnd f n) (hfuel : n < fuel)
    (hbody : ∀ row o s s1 o1, body row o s = LoopStep.next s1 o1 → o1 = u32 (o + ROW_SIZE))
    (s : σ) :
    table_loop f body done fuel row_uninit MESH_INSTALL_GAME_OFFSET s =
      some (walk body done (table_rows f n) 0 s) := by
  have h := table_loop_walk f body done n hT hbody fuel 0 row_uninit s (Nat.zero_le _)
    (by omega)
  have e : slot_offset 0 = MESH_INSTALL_GAME_OFFSET := by unfold slot_offset; omega
  rw [e, Nat.sub_zero] at h
  rw [h, table_rows, List.range_eq_range']

/-! ## Theorems: the policy checks -/

theorem walk_game_installed (user : User) (game_name : CStr) :
    ∀ (rows : List games_tbl_row) (k : Nat),
      walk (σ := Unit) (ρ := Int)
        (fun row offset _ =>
          if game_name = full_name_from_short_name row ∧ user.name = row.user_name ∧
              row.install_flag = MESH_TABLE_INSTALLED then
            LoopStep.exit 1
          else LoopStep.next () (u32 (offset + ROW_SIZE)))
        (fun _ _ => 0) rows k () =
      if ∃ row ∈ rows, row.user_name = user.name ∧ full_name_from_short_name row = game_name ∧
        row.install_flag = MESH_TABLE_INSTALLED then 1 else 0 := by
  intro rows
  induction rows with
  | nil => intro k; simp [walk]
  | cons row rest ih =>
    intro k
    unfold walk
    by_cases h : game_name = full_name_from_short_name row ∧ user.name = row.user_name ∧
        row.install_flag = MESH_TABLE_INSTALLED
    · have hex : ∃ r ∈ row :: rest, r.user_name = user.name ∧
          full_name_from_short_name r = game_name ∧ r.install_flag = MESH_TABLE_INSTALLED :=
        ⟨row, List.mem_cons_self _ _, h.2.1.symm, h.1.symm, h.2.2⟩
      simp only [if_pos h, if_pos hex]
    · simp only [if_neg h]
      rw [ih (k + 1)]
      have hiff : (∃ r ∈ row :: rest, r.user_name = user.name ∧
          full_name_from_short_name r = game_name ∧ r.install_flag = MESH_TABLE_INSTALLED) ↔
          (∃ r ∈ rest, r.user_name = user.name ∧
          full_name_from_short_name r = game_name ∧ r.install_flag = MESH_TABLE_INSTALLED) := by
        constructor
        · rintro ⟨r, hr, h1, h2, h3⟩
          rcases List.mem_cons.mp hr with rfl | hr
          · exact absurd ⟨h2.symm, h1.symm, h3⟩ h
          · exact ⟨r, hr, h1, h2, h3⟩
        · rintro ⟨r, hr, hh⟩
          exact ⟨r, List.mem_cons_of_mem _ hr, hh⟩
      simp only [hiff]

/-- What `mesh_game_installed` computes on a table with `n` records. -/
theorem mesh_game_installed_eq (f : Flash) (user : User) (game_name : CStr) (n fuel : Nat)
    (hT : TableEnd f n) (hfuel : n < fuel) :
    mesh_game_installed f user game_name fuel =
      some (if ∃ row ∈ table_rows f n, row.user_name = user.name ∧
        full_name_from_short_name row = game_name ∧
        row.install_flag = MESH_TABLE_INSTALLED then 1 else 0) := by
  unfold mesh_game_installed
  rw [table_loop_rows f _ _ n fuel hT hfuel ?_ (), walk_game_installed]
  intro row o s s1 o1 h
  by_cases hc : game_name = full_name_from_short_name row ∧ user.name = row.user_name ∧
      row.install_flag = MESH_TABLE_INSTALLED
  · simp only [if_pos hc] at h
    cases h
  · simp only [if_neg hc] at h
    cases h
    rfl

/-- C8, counterexample: in a table whose only record is `chess` 1.0 of
`alice`, INSTALLED, a record of that user with the short name of `chess-v1.2`
and status INSTALLED exists, and `mesh_game_installed("chess-v1.2")` is 0. -/
theorem mesh_game_installed_not_by_short_name :
    TableEnd (table_flash [chess_1_0]) 1 ∧
    (∃ row ∈ table_rows (table_flash [chess_1_0]) 1,
      row.user_name = alice.name ∧
      row.game_name = short_name_before_dash (ascii "chess-v1.2") ∧
      row.install_flag = MESH_TABLE_INSTALLED) ∧
    mesh_game_installed (table_flash [chess_1_0]) alice (ascii "chess-v1.2") 2 = some 0 := by
  decide

/-- C8, amended: `mesh_game_installed(name)` is 1 iff some record before END
has `user_name` equal to the current user, has the full name
`game_name-vMAJOR.MINOR` (as `full_name_from_short_name` prints it) equal to
the requested name, and has status INSTALLED; it is 0 otherwise. -/
theorem mesh_game_installed_iff (f : Flash) (user : User) (game_name : CStr) (n fuel : Nat)
    (hT : TableEnd f n) (hfuel : n < fuel) :
    (mesh_game_installed f user game_name fuel = some 1 ∨
      mesh_game_installed f user game_name fuel = some 0) ∧
    (mesh_game_installed f user game_name fuel = some 1 ↔
      ∃ row ∈ table_rows f n, row.user_name = user.name ∧
        full_name_from_short_name row = game_name ∧
        row.install_flag = MESH_TABLE_INSTALLED) := by
  rw [mesh_game_installed_eq f user game_name n fuel hT hfuel]
  by_cases h : ∃ row ∈ table_rows f n, row.user_name = user.name ∧
      full_name_from_short_name row = game_name ∧ row.install_flag = MESH_TABLE_INSTALLED
  · rw [if_pos h]
    exact ⟨Or.inl rfl, fun _ => h, fun _ => rfl⟩
  · rw [if_neg h]
    refine ⟨Or.inr rfl, ?_, fun h1 => absurd h1 h⟩
    intro h1
    exact absurd (Option.some.inj h1) (by decide)

/-- Witness of C8, amended: the table with the single record `chess` 1.0 of
`alice`. -/
theorem mesh_game_installed_iff_witness :
    (mesh_game_installed (table_flash [chess_1_0]) alice (ascii "chess-v1.0") 2 = some 1 ∨
      mesh_game_installed (table_flash [chess_1_0]) alice (ascii "chess-v1.0") 2 = some 0) ∧
    (mesh_game_installed (table_flash [chess_1_0]) alice (ascii "chess-v1.0") 2 = some 1 ↔
      ∃ row ∈ table_rows (table_flash [chess_1_0]) 1, row.user_name = alice.name ∧
        full_name_from_short_name row = ascii "chess-v1.0" ∧
        row.install_flag = MESH_TABLE_INSTALLED) :=
  mesh_game_installed_iff (table_flash [chess_1_0]) alice (ascii "chess-v1.0") 1 2
    (by decide) (by decide)

theorem check_downgrade_fold (user : User) (game_name : CStr) (major minor : Nat) :
    ∀ (rows : List games_tbl_row) (k : Nat) (rv : Int), (rv = 0 ∨ rv = 1 ∨ rv = 2) →
      walk (σ := Int) (ρ := Int)
        (fun row offset return_value =>
          LoopStep.next (check_downgrade_body user game_name major minor row return_value)
            (u32 (offset + ROW_SIZE)))
        (fun return_value _ => return_value) rows k rv =
      if rv = 1 ∨ ∃ row ∈ rows, record_matches user (short_game_name_of game_name) row ∧
          (major < row.major_version ∨
            (major = row.major_version ∧ minor < row.minor_version)) then 1
      else if rv = 2 ∨ ∃ row ∈ rows, record_matches user (short_game_name_of game_name) row ∧
          major = row.major_version ∧ minor = row.minor_version ∧
          row.install_flag = MESH_TABLE_INSTALLED then 2
      else 0 := by
  intro rows
  induction rows with
  | nil =>
    intro k rv hrv
    rcases hrv with h | h | h <;> subst h <;> simp [walk]
  | cons row rest ih =>
    intro k rv hrv
    unfold walk
    simp only []
    have hbody : check_downgrade_body user game_name major minor row rv =
        if record_matches user (short_game_name_of game_name) row ∧
          (major < row.major_version ∨
            (major = row.major_version ∧ minor < row.minor_version)) then 1
        else if record_matches user (short_game_name_of game_name) row ∧
          major = row.major_version ∧ minor = row.minor_version ∧
          row.install_flag = MESH_TABLE_INSTALLED then (if rv = 1 then rv else 2)
        else rv := by
      unfold check_downgrade_body record_matches
      by_cases hu : user.name = row.user_name
      · by_cases hg : short_game_name_of game_name = row.game_name
        · have hm : row.user_name = user.name ∧ row.game_name = short_game_name_of game_name :=
            ⟨hu.symm, hg.symm⟩
          rw [if_neg (not_not.mpr hu), if_neg (not_not.mpr hg)]
          by_cases h1 : major < row.major_version
          · rw [if_pos h1, if_pos ⟨hm, Or.inl h1⟩]
          · rw [if_neg h1]
            by_cases h2 : major = row.major_version ∧ minor < row.minor_version
            · rw [if_pos h2, if_pos ⟨hm, Or.inr h2⟩]
            · have hnD : ¬ ((row.user_name = user.name ∧
                  row.game_name = short_game_name_of game_name) ∧
                  (major < row.major_version ∨
                    (major = row.major_version ∧ minor < row.minor_version))) := by
                rintro ⟨_, h | h⟩
                · exact h1 h
                · exact h2 h
              rw [if_neg h2, if_neg hnD]
              by_cases h3 : major = row.major_version ∧ minor = row.minor_version ∧
                  row.install_flag = MESH_TABLE_INSTALLED
              · have hE : (row.user_name = user.name ∧
                    row.game_name = short_game_name_of game_name) ∧
                    major = row.major_version ∧ minor = row.minor_version ∧
                    row.install_flag = MESH_TABLE_INSTALLED := ⟨hm, h3⟩
                rw [if_pos h3, if_pos hE]
              · have hnE : ¬ ((row.user_name = user.name ∧
                    row.game_name = short_game_name_of game_name) ∧
                    major = row.major_version ∧ minor = row.minor_version ∧
                    row.install_flag = MESH_TABLE_INSTALLED) := fun h => h3 h.2
                rw [if_neg h3, if_neg hnE]
        · have hnD : ¬ ((row.user_name = user.name ∧
              row.game_name = short_game_name_of game_name) ∧
              (major < row.major_version ∨
                (major = row.major_version ∧ minor < row.minor_version))) :=
            fun h => hg h.1.2.symm
          have hnE : ¬ ((row.user_name = user.name ∧
              row.game_name = short_game_name_of game_name) ∧
              major = row.major_version ∧ minor = row.minor_version ∧
              row.install_flag = MESH_TABLE_INSTALLED) := fun h => hg h.1.2.symm
          rw [if_neg (not_not.mpr hu), if_pos hg, if_neg hnD, if_neg hnE]
      · have hnD : ¬ ((row.user_name = user.name ∧
            row.game_name = short_game_name_of game_name) ∧
            (major < row.major_version ∨
              (major = row.major_version ∧ minor < row.minor_version))) :=
          fun h => hu h.1.1.symm
        have hnE : ¬ ((row.user_name = user.name ∧
            row.game_name = short_game_name_of game_name) ∧
            major = row.major_version ∧ minor = row.minor_version ∧
            row.install_flag = MESH_TABLE_INSTALLED) := fun h => hu h.1.1.symm
        rw [if_pos hu, if_neg hnD, if_neg hnE]
    rw [hbody]
    by_cases hD : record_matches user (short_game_name_of game_name) row ∧
        (major < row.major_version ∨ (major = row.major_version ∧ minor < row.minor_version))
    · rw [if_pos hD, ih (k + 1) 1 (Or.inr (Or.inl rfl))]
      have hex : rv = 1 ∨ ∃ r ∈ row :: rest,
          record_matches user (short_game_name_of game_name) r ∧
          (major < r.major_version ∨ (major = r.major_version ∧ minor < r.minor_version)) :=
        Or.inr ⟨row, List.mem_cons_self _ _, hD⟩
      simp only [true_or, if_true, if_pos hex]
    · rw [if_neg hD]
      have hDiff : (∃ r ∈ row :: rest, record_matches user (short_game_name_of game_name) r ∧
            (major < r.major_version ∨ (major = r.major_version ∧ minor < r.minor_version))) ↔
          (∃ r ∈ rest, record_matches user (short_game_name_of game_name) r ∧
            (major < r.major_version ∨ (major = r.major_version ∧ minor < r.minor_version))) := by
        constructor
        · rintro ⟨r, hr, hh⟩
          rcases List.mem_cons.mp hr with rfl | hr
          · exact absurd hh hD
          · exact ⟨r, hr, hh⟩
        · rintro ⟨r, hr, hh⟩
          exact ⟨r, List.mem_cons_of_mem _ hr, hh⟩
      by_cases hE : record_matches user (short_game_name_of game_name) row ∧
          major = row.major_version ∧ minor = row.minor_version ∧
          row.install_flag = MESH_TABLE_INSTALLED
      · rw [if_pos hE]
        have hexE : ∃ r ∈ row :: rest, record_matches user (short_game_name_of game_name) r ∧
            major = r.major_version ∧ minor = r.minor_version ∧
            r.install_flag = MESH_TABLE_INSTALLED := ⟨row, List.mem_cons_self _ _, hE⟩
        by_cases h1 : rv = 1
        · rw [if_pos h1, ih (k + 1) rv hrv]
          simp only [h1, true_or, if_true]
        · rw [if_neg h1, ih (k + 1) 2 (Or.inr (Or.inr rfl))]
          have h21 : ¬ ((2 : Int) = 1) := by decide
          by_cases hDr : ∃ r ∈ rest, record_matches user (short_game_name_of game_name) r ∧
              (major < r.major_version ∨ (major = r.major_version ∧ minor < r.minor_version))
          · rw [if_pos (Or.inr hDr), if_pos (Or.inr (hDiff.mpr hDr))]
          · have hl : ¬ ((2 : Int) = 1 ∨ ∃ r ∈ rest,
                record_matches user (short_game_name_of game_name) r ∧
                (major < r.major_version ∨
                  (major = r.major_version ∧ minor < r.minor_version))) := by
              rintro (h | h)
              · exact h21 h
              · exact hDr h
            have hr : ¬ (rv = 1 ∨ ∃ r ∈ row :: rest,
                record_matches user (short_game_name_of game_name) r ∧
                (major < r.major_version ∨
                  (major = r.major_version ∧ minor < r.minor_version))) := by
              rintro (h | h)
              · exact h1 h
              · exact hDr (hDiff.mp h)
            rw [if_neg hl, if_pos (Or.inl rfl), if_neg hr, if_pos (Or.inr hexE)]
      · rw [if_neg hE, ih (k + 1) rv hrv]
        have hEiff : (∃ r ∈ row :: rest, record_matches user (short_game_name_of game_name) r ∧
              major = r.major_version ∧ minor = r.minor_version ∧
              r.install_flag = MESH_TABLE_INSTALLED) ↔
            (∃ r ∈ rest, record_matches user (short_game_name_of game_name) r ∧
              major = r.major_version ∧ minor = r.minor_version ∧
              r.install_flag = MESH_TABLE_INSTALLED) := by
          constructor
          · rintro ⟨r, hr, hh⟩
            rcases List.mem_cons.mp hr with rfl | hr
            · exact absurd hh hE
            · exact ⟨r, hr, hh⟩
          · rintro ⟨r, hr, hh⟩
            exact ⟨r, List.mem_cons_of_mem _ hr, hh⟩
        simp only [hDiff, hEiff]

/-- What `mesh_check_downgrade` computes on a table with `n` records: the
reference classification for the short name that the function itself derives
from the game name. -/
theorem mesh_check_downgrade_eq (f : Flash) (user : User) (game_name : CStr)
    (major minor n fuel : Nat) (hT : TableEnd f n) (hfuel : n < fuel) :
    mesh_check_downgrade f user game_name major minor fuel =
      some (classify_install (table_rows f n) user (short_game_name_of game_name)
        major minor) := by
  unfold mesh_check_downgrade
  rw [table_loop_rows f _ _ n fuel hT hfuel ?_ 0, check_downgrade_fold _ _ _ _ _ _ _ (Or.inl rfl)]
  · have h01 : ¬ ((0 : Int) = 1) := by decide
    have h02 : ¬ ((0 : Int) = 2) := by decide
    unfold classify_install
    simp only [h01, h02, false_or]
  · intro row o s s1 o1 h
    cases h
    rfl

theorem takeWhile_take_comm (p : Nat → Bool) :
    ∀ (l : List Nat) (m : Nat), (l.take m).takeWhile p = (l.takeWhile p).take m := by
  intro l
  induction l with
  | nil => intro m; simp
  | cons a rest ih =>
    intro m
    cases m with
    | zero => simp
    | succ m =>
      rw [List.take_succ_cons, List.takeWhile_cons, List.takeWhile_cons]
      cases hp : p a with
      | true => simp only [if_true, List.take_succ_cons, ih]
      | false => simp

/-- For a game name that does not begin with `-` and whose part before the
first `-` has at most `MAX_GAME_LENGTH` bytes, the short name that
`mesh_check_downgrade` compares is that part. -/
theorem short_game_name_of_eq (game_name : CStr) (hhead : game_name.head? ≠ some 45)
    (hlen : (short_name_before_dash game_name).length ≤ MAX_GAME_LENGTH) :
    short_game_name_of game_name = short_name_before_dash game_name := by
  unfold short_game_name_of strtok_buffer
  have h1 : (List.take MAX_GAME_LENGTH game_name).takeWhile (fun c => decide (c = 45)) = [] := by
    cases game_name with
    | nil => simp
    | cons a rest =>
      have ha : a ≠ 45 := fun h => hhead (by simp [h])
      simp [MAX_GAME_LENGTH, List.takeWhile_cons, ha]
  have h2 : (List.take MAX_GAME_LENGTH game_name).dropWhile (fun c => decide (c = 45)) =
      List.take MAX_GAME_LENGTH game_name := by
    cases game_name with
    | nil => simp
    | cons a rest =>
      have ha : a ≠ 45 := fun h => hhead (by simp [h])
      simp [MAX_GAME_LENGTH, List.dropWhile_cons, ha]
  rw [h1, h2, List.nil_append, takeWhile_take_comm]
  exact List.take_of_length_le hlen

theorem short_game_name_of_take (game_name : CStr) (hhead : game_name.head? ≠ some 45) :
    short_game_name_of game_name =
      (short_name_before_dash game_name).take MAX_GAME_LENGTH := by
  unfold short_game_name_of strtok_buffer
  have h1 : (List.take MAX_GAME_LENGTH game_name).takeWhile (fun c => decide (c = 45)) = [] := by
    cases game_name with
    | nil => simp
    | cons a rest =>
      have ha : a ≠ 45 := fun h => hhead (by simp [h])
      simp [MAX_GAME_LENGTH, List.takeWhile_cons, ha]
  have h2 : (List.take MAX_GAME_LENGTH game_name).dropWhile (fun c => decide (c = 45)) =
      List.take MAX_GAME_LENGTH game_name := by
    cases game_name with
    | nil => simp
    | cons a rest =>
      have ha : a ≠ 45 := fun h => hhead (by simp [h])
      simp [MAX_GAME_LENGTH, List.dropWhile_cons, ha]
  rw [h1, h2, List.nil_append, takeWhile_take_comm]
  rfl

theorem short_game_name_of_dash (game_name : CStr) (hhead : game_name.head? = some 45) :
    (45 : Nat) ∈ short_game_name_of game_name ∧ short_name_before_dash game_name = [] := by
  cases game_name with
  | nil => simp at hhead
  | cons a rest =>
    have ha : a = 45 := by simpa using hhead
    subst ha
    constructor
    · simp [short_game_name_of, strtok_buffer, MAX_GAME_LENGTH, List.takeWhile_cons]
    · simp [short_name_before_dash, List.takeWhile_cons]

/-- For a stored name (not empty, without `-`, shorter than `MAX_GAME_LENGTH`
bytes) the comparison of `mesh_check_downgrade` and the comparison with the
part of the game name before its first `-` agree, for every game name. -/
theorem short_name_match (game_name s : CStr) (hne : s ≠ []) (hd : 45 ∉ s)
    (hlen : s.length < MAX_GAME_LENGTH) :
    short_game_name_of game_name = s ↔ short_name_before_dash game_name = s := by
  by_cases hhead : game_name.head? = some 45
  · obtain ⟨h1, h2⟩ := short_game_name_of_dash game_name hhead
    constructor
    · intro h; rw [h] at h1; exact absurd h1 hd
    · intro h; rw [h2] at h; exact absurd h.symm hne
  · rw [short_game_name_of_take game_name hhead]
    constructor
    · intro h
      have hl : ((short_name_before_dash game_name).take MAX_GAME_LENGTH).length
          < MAX_GAME_LENGTH := by rw [h]; exact hlen
      rw [List.length_take] at hl
      have hl2 : (short_name_before_dash game_name).length ≤ MAX_GAME_LENGTH := by omega
      rw [List.take_of_length_le hl2] at h
      exact h
    · intro h
      rw [h]
      exact List.take_of_length_le (Nat.le_of_lt hlen)

theorem classify_install_congr (rows : List games_tbl_row) (user : User) (a b : CStr)
    (major minor : Nat)
    (h : ∀ row ∈ rows, record_matches user a row ↔ record_matches user b row) :
    classify_install rows user a major minor = classify_install rows user b major minor := by
  unfold classify_install
  have e1 : (∃ row ∈ rows, record_matches user a row ∧
      (major < row.major_version ∨
        (major = row.major_version ∧ minor < row.minor_version))) ↔
      (∃ row ∈ rows, record_matches user b row ∧
        (major < row.major_version ∨
          (major = row.major_version ∧ minor < row.minor_version))) := by
    constructor
    · rintro ⟨row, hm, hr, hp⟩; exact ⟨row, hm, (h row hm).mp hr, hp⟩
    · rintro ⟨row, hm, hr, hp⟩; exact ⟨row, hm, (h row hm).mpr hr, hp⟩
  have e2 : (∃ row ∈ rows, record_matches user a row ∧ major = row.major_version ∧
      minor = row.minor_version ∧ row.install_flag = MESH_TABLE_INSTALLED) ↔
      (∃ row ∈ rows, record_matches user b row ∧ major = row.major_version ∧
        minor = row.minor_version ∧ row.install_flag = MESH_TABLE_INSTALLED) := by
    constructor
    · rintro ⟨row, hm, hr, hp⟩; exact ⟨row, hm, (h row hm).mp hr, hp⟩
    · rintro ⟨row, hm, hr, hp⟩; exact ⟨row, hm, (h row hm).mpr hr, hp⟩
  simp only [e1, e2]

/-- C7: `mesh_check_downgrade` equals the reference definition
`classify_install`.  For every user, game name and version, on every
well-formed table whose records carry game names as `mesh_install` stores
them (not empty, without `-`, shorter than `MAX_GAME_LENGTH` bytes), the
result is the reference classification over the records before END, taken
with the part of the game name before `-` as the short name: 1 iff some
record of the user and the game, INSTALLED or UNINSTALLED, has a strictly
higher version, otherwise 2 iff some such record has the same version and is
INSTALLED, otherwise 0, whatever the order of the records. -/
theorem mesh_check_downgrade_reference (f : Flash) (user : User) (game_name : CStr)
    (major minor n fuel : Nat) (hT : TableEnd f n) (hfuel : n < fuel)
    (hnames : StoredNamesOk (table_rows f n)) :
    mesh_check_downgrade f user game_name major minor fuel =
      some (classify_install (table_rows f n) user (short_name_before_dash game_name)
        major minor) := by
  rw [mesh_check_downgrade_eq f user game_name major minor n fuel hT hfuel]
  congr 1
  apply classify_install_congr
  intro row hrow
  obtain ⟨hne, hd, hlen⟩ := hnames row hrow
  unfold record_matches
  constructor
  · rintro ⟨hu, hg⟩
    exact ⟨hu, ((short_name_match game_name row.game_name hne hd hlen).mp hg.symm).symm⟩
  · rintro ⟨hu, hg⟩
    exact ⟨hu, ((short_name_match game_name row.game_name hne hd hlen).mpr hg.symm).symm⟩

set_option maxRecDepth 100000 in
/-- Witness of C7: the table that holds `chess` 1.0 of `alice`, against the
game names `chess-v0.9` (a lower version: 1) and `-chess-v0.9` (no record has
the empty short name: 0). -/
theorem mesh_check_downgrade_reference_witness :
    (mesh_check_downgrade (table_flash [chess_1_0]) alice (ascii "chess-v0.9") 0 9 2 =
      some (classify_install (table_rows (table_flash [chess_1_0]) 1) alice
        (short_name_before_dash (ascii "chess-v0.9")) 0 9) ∧
      classify_install (table_rows (table_flash [chess_1_0]) 1) alice
        (short_name_before_dash (ascii "chess-v0.9")) 0 9 = 1) ∧
    (mesh_check_downgrade (table_flash [chess_1_0]) alice (ascii "-chess-v0.9") 0 9 2 =
      some (classify_install (table_rows (table_flash [chess_1_0]) 1) alice
        (short_name_before_dash (ascii "-chess-v0.9")) 0 9) ∧
      classify_install (table_rows (table_flash [chess_1_0]) 1) alice
        (short_name_before_dash (ascii "-chess-v0.9")) 0 9 = 0) :=
  ⟨⟨mesh_check_downgrade_reference (table_flash [chess_1_0]) alice (ascii "chess-v0.9") 0 9 1
      2 (by decide) (by decide) (by unfold StoredNamesOk; decide), by decide⟩,
    ⟨mesh_check_downgrade_reference (table_flash [chess_1_0]) alice (ascii "-chess-v0.9") 0 9
      1 2 (by decide) (by decide) (by unfold StoredNamesOk; decide), by decide⟩⟩

/-! ## Theorems: uninstall -/

theorem getD_map_range (g : Nat → Nat) (m i : Nat) (h : i < m) :
    ((List.range m).map g).getD i 0 = g i := by
  rw [List.getD_eq_getElem?_getD, List.getElem?_map, List.getElem?_range h]
  rfl

theorem slot_row_data (f : Flash) (k j : Nat) (h : j < ROW_SIZE) :
    (slot_row f k).data j = f (slot_offset k + j) := by
  unfold games_tbl_row.data slot_row
  exact getD_map_range _ _ _ h

/-- Writing back a row read from slot `k` with its flag set to `v` changes the
status byte of the slot and nothing else. -/
theorem write_flag_eq_update (f : Flash) (k v : Nat) (h : slot_offset (k + 1) ≤ FLASH_SIZE) :
    (mesh_flash_write f ((slot_row f k).set_install_flag v).data (slot_offset k)
      ROW_SIZE).flash = Function.update f (slot_offset k) v := by
  rw [slot_offset_succ] at h
  rw [mesh_flash_write_flash f _ _ _ (by unfold ROW_SIZE; omega) h]
  funext a
  unfold written
  by_cases ha : slot_offset k ≤ a ∧ a < slot_offset k + ROW_SIZE
  · rw [if_pos ha]
    by_cases h0 : a = slot_offset k
    · subst h0
      simp only [Function.update_same, Nat.sub_self]
      rfl
    · rw [Function.update_noteq h0]
      have hpos : 0 < a - slot_offset k := by omega
      have hlt : a - slot_offset k < ROW_SIZE := by omega
      have hd : ((slot_row f k).set_install_flag v).data (a - slot_offset k) =
          (slot_row f k).data (a - slot_offset k) := by
        unfold games_tbl_row.data games_tbl_row.set_install_flag
        simp only [List.getD_eq_getElem?_getD]
        rw [List.getElem?_set_ne (by omega)]
      rw [hd, slot_row_data f k _ hlt]
      congr 1
      omega
  · rw [if_neg ha]
    have h0 : a ≠ slot_offset k := by
      intro h0; subst h0; unfold ROW_SIZE at ha; omega
    rw [Function.update_noteq h0]

theorem walk_uninstall (f : Flash) (user : User) (game_name : CStr) :
    ∀ (d k : Nat), slot_offset (k + d) ≤ FLASH_SIZE →
      walk (σ := Unit) (ρ := Flash)
        (fun row offset _ =>
          if row.user_name = user.name ∧ full_name_from_short_name row = game_name ∧
              row.install_flag = MESH_TABLE_INSTALLED then
            LoopStep.exit
              (mesh_flash_write f (row.set_install_flag MESH_TABLE_UNINSTALLED).data offset
                ROW_SIZE).flash
          else LoopStep.next () (u32 (offset + ROW_SIZE)))
        (fun _ _ => f) ((List.range' k d).map (slot_row f)) k () =
      tombstoned f ((List.range' k d).find?
        (fun j => decide (uninstall_match user game_name (slot_row f j)))) := by
  intro d
  induction d with
  | zero => intro k _; rfl
  | succ d ih =>
    intro k hk
    rw [List.range'_succ, List.map_cons, walk, List.find?_cons]
    by_cases hm : uninstall_match user game_name (slot_row f k)
    · have hm' := hm
      unfold uninstall_match at hm'
      have hin : slot_offset (k + 1) ≤ FLASH_SIZE := by
        unfold slot_offset ROW_SIZE at hk ⊢; omega
      simp only [if_pos hm', decide_eq_true hm, tombstoned]
      exact write_flag_eq_update f k _ hin
    · have hm' := hm
      unfold uninstall_match at hm'
      simp only [if_neg hm', decide_eq_false hm]
      have e : k + (d + 1) = k + 1 + d := by omega
      rw [e] at hk
      exact ih (k + 1) hk

/-- What the loop of `mesh_uninstall` leaves in flash, on a table with `n`
records. -/
theorem uninstall_write_eq (f : Flash) (user : User) (game_name : CStr) (n fuel : Nat)
    (hT : TableEnd f n) (hfuel : n < fuel) :
    uninstall_write f user game_name fuel =
      some (tombstoned f (uninstall_target f user game_name n)) := by
  unfold uninstall_write
  rw [table_loop_rows f _ _ n fuel hT hfuel ?_ ()]
  · have h := walk_uninstall f user game_name n 0
      (by have := hT.1; unfold slot_offset ROW_SIZE at this ⊢; omega)
    rw [← List.range_eq_range'] at h
    rw [table_rows, h, uninstall_target]
  · intro row o s s1 o1 h
    by_cases hc : row.user_name = user.name ∧ full_name_from_short_name row = game_name ∧
        row.install_flag = MESH_TABLE_INSTALLED
    · simp only [if_pos hc] at h
      cases h
    · simp only [if_neg hc] at h
      cases h
      rfl

/-- What `mesh_uninstall` does on a table with `n` records: it returns 0, and
the flash afterwards is the flash before with the status byte of the first
matching record, if there is one, set to UNINSTALLED. -/
theorem mesh_uninstall_eq (f : Flash) (user : User) (args : List CStr) (n fuel : Nat)
    (hT : TableEnd f n) (hfuel : n < fuel) :
    mesh_uninstall f user args fuel =
      some (tombstoned f (uninstall_target f user (args.getD 1 []) n), 0) := by
  unfold mesh_uninstall
  rw [mesh_game_installed_eq f user _ n fuel hT hfuel,
    uninstall_write_eq f user _ n fuel hT hfuel]
  by_cases h : ∃ row ∈ table_rows f n, row.user_name = user.name ∧
      full_name_from_short_name row = args.getD 1 [] ∧
      row.install_flag = MESH_TABLE_INSTALLED
  · have h10 : ¬ ((1 : Int) = 0) := by decide
    simp only [if_pos h, if_neg h10]
  · simp only [if_neg h, if_true]
    have hnone : uninstall_target f user (args.getD 1 []) n = none := by
      unfold uninstall_target
      rw [List.find?_eq_none]
      intro k hk hd
      apply h
      refine ⟨slot_row f k, ?_, of_decide_eq_true hd⟩
      unfold table_rows
      exact List.mem_map_of_mem _ hk
    rw [hnone]
    rfl

theorem uninstall_target_lt (f : Flash) (user : User) (game_name : CStr) (n k : Nat)
    (h : uninstall_target f user game_name n = some k) : k < n := by
  unfold uninstall_target at h
  exact List.mem_range.mp (List.mem_of_find?_eq_some h)

theorem slot_offset_inj (j k : Nat) (h : slot_offset j = slot_offset k) : j = k := by
  unfold slot_offset ROW_SIZE at h; omega

/-- The row of slot `k` after the status byte of the slot is set to `v`. -/
theorem slot_row_update (f : Flash) (k v : Nat) :
    slot_row (Function.update f (slot_offset k) v) k = (slot_row f k).set_install_flag v := by
  unfold slot_row games_tbl_row.set_install_flag
  congr 1
  have hr : List.range ROW_SIZE = 0 :: List.range' 1 (ROW_SIZE - 1) := by
    rw [List.range_eq_range']
    rfl
  rw [hr, List.map_cons, List.map_cons, List.set_cons_zero, Nat.add_zero, Function.update_same]
  congr 1
  apply List.map_congr_left
  intro j hj
  rw [List.mem_range'_1] at hj
  exact Function.update_noteq (by omega) _ _

theorem set_install_flag_flag (row : games_tbl_row) (v : Nat) (h : 0 < row.bytes.length) :
    (row.set_install_flag v).install_flag = v := by
  unfold games_tbl_row.set_install_flag games_tbl_row.install_flag
  simp only [List.getD_eq_getElem?_getD]
  rw [List.getElem?_set_self h]
  rfl

theorem set_install_flag_game_name (row : games_tbl_row) (v : Nat) :
    (row.set_install_flag v).game_name = row.game_name := by
  unfold games_tbl_row.set_install_flag games_tbl_row.game_name
  simp only []
  rw [List.drop_set_of_lt _ _ (by omega)]

theorem set_install_flag_user_name (row : games_tbl_row) (v : Nat) :
    (row.set_install_flag v).user_name = row.user_name := by
  unfold games_tbl_row.set_install_flag games_tbl_row.user_name
  simp only []
  rw [List.drop_set_of_lt _ _ (by omega)]

theorem set_install_flag_major (row : games_tbl_row) (v : Nat) :
    (row.set_install_flag v).major_version = row.major_version := by
  unfold games_tbl_row.set_install_flag games_tbl_row.major_version
  simp only [List.getD_eq_getElem?_getD]
  rw [List.getElem?_set_ne (by omega), List.getElem?_set_ne (by omega),
    List.getElem?_set_ne (by omega), List.getElem?_set_ne (by omega)]

theorem set_install_flag_minor (row : games_tbl_row) (v : Nat) :
    (row.set_install_flag v).minor_version = row.minor_version := by
  unfold games_tbl_row.set_install_flag games_tbl_row.minor_version
  simp only [List.getD_eq_getElem?_getD]
  rw [List.getElem?_set_ne (by omega), List.getElem?_set_ne (by omega),
    List.getElem?_set_ne (by omega), List.getElem?_set_ne (by omega)]

/-- Setting the status byte of a record before END to a value other than END
keeps the table well formed with the same number of records. -/
theorem TableEnd_update (f : Flash) (n k v : Nat) (hT : TableEnd f n) (hk : k < n)
    (hv : v ≠ MESH_TABLE_END) : TableEnd (Function.update f (slot_offset k) v) n := by
  obtain ⟨hsz, hne, hend⟩ := hT
  refine ⟨hsz, fun j hj => ?_, ?_⟩
  · by_cases hjk : j = k
    · subst hjk
      rw [Function.update_same]
      exact hv
    · rw [Function.update_noteq (fun h => hjk (slot_offset_inj _ _ h))]
      exact hne j hj
  · rw [Function.update_noteq (fun h => by have := slot_offset_inj _ _ h; omega)]
    exact hend

theorem walk_find_end :
    ∀ (rows : List games_tbl_row) (k : Nat),
      walk (σ := Unit) (ρ := Nat)
        (fun _ offset _ => LoopStep.next () (u32 (offset + ROW_SIZE)))
        (fun _ offset => offset) rows k () = slot_offset (k + rows.length) := by
  intro rows
  induction rows with
  | nil => intro k; rfl
  | cons row rest ih =>
    intro k
    rw [walk]
    simp only [ih, List.length_cons]
    congr 1
    omega

/-- The end-of-table loop of `mesh_install` stops at the END record. -/
theorem find_table_end_eq (f : Flash) (n fuel : Nat) (hT : TableEnd f n) (hfuel : n < fuel) :
    find_table_end f fuel = some (slot_offset n) := by
  unfold find_table_end
  rw [table_loop_rows f _ _ n fuel hT hfuel ?_ (), walk_find_end]
  · simp [table_rows]
  · intro row o s s1 o1 h
    cases h
    rfl

theorem install_row_length (junk : games_tbl_row) (short : CStr) (user : User)
    (major minor : CStr) : (install_row junk short user major minor).bytes.length = ROW_SIZE := by
  unfold install_row pad_to le_bytes
  simp only [List.length_append, List.length_cons, List.length_nil, List.length_set,
    List.length_replicate, List.length_take, MAX_GAME_LENGTH, MAX_USERNAME_LENGTH, ROW_SIZE]
  omega

theorem install_row_flag (junk : games_tbl_row) (short : CStr) (user : User)
    (major minor : CStr) :
    (install_row junk short user major minor).install_flag = MESH_TABLE_INSTALLED := by
  rfl

theorem map_getD_range (l : List Nat) :
    (List.range l.length).map (fun j => l.getD j 0) = l := by
  apply List.ext_getElem
  · simp
  · intro i h1 h2
    simp [List.getD_eq_getElem?_getD, List.getElem?_eq_getElem h2]

/-- The flash after the table write of `mesh_install` at slot `n`. -/
theorem install_write_eq (f : Flash) (row : games_tbl_row) (n : Nat)
    (hsz : slot_offset (n + 1) ≤ FLASH_SIZE) :
    install_write f row (slot_offset n) =
      fun a => if a = slot_offset (n + 1) then MESH_TABLE_END
        else if slot_offset n ≤ a ∧ a < slot_offset (n + 1) then row.data (a - slot_offset n)
        else f a := by
  unfold install_write
  have hu := u32_slot_offset n hsz
  have h1 : slot_offset n + ROW_SIZE ≤ FLASH_SIZE := by rw [← slot_offset_succ]; exact hsz
  have h2 : slot_offset (n + 1) + 1 ≤ FLASH_SIZE := by
    unfold slot_offset MESH_INSTALL_GAME_OFFSET ROW_SIZE FLASH_SIZE at hsz ⊢; omega
  simp only [hu]
  rw [mesh_flash_write_flash _ _ _ _ (le_refl 1) h2,
    mesh_flash_write_flash f _ _ _ (by unfold ROW_SIZE; omega) h1]
  funext a
  unfold written
  rw [slot_offset_succ]
  by_cases ha : a = slot_offset n + ROW_SIZE
  · have hc : slot_offset n + ROW_SIZE ≤ a ∧ a < slot_offset n + ROW_SIZE + 1 := by omega
    rw [if_pos hc, if_pos ha]
  · have hc : ¬ (slot_offset n + ROW_SIZE ≤ a ∧ a < slot_offset n + ROW_SIZE + 1) := by omega
    rw [if_neg hc, if_neg ha]

/-- C5: append.  On every well-formed table whose END record is in slot `n`,
a validated `mesh_install` (validation returned 0, and the game name splits
into short name, major and minor version) returns 0, writes the new INSTALLED
record into slot `n` and an END status byte at slot `n + 1`
(`offset + sizeof(struct games_tbl_row)`), and leaves every flash byte below
slot `n` and beyond that END byte unchanged, so that every record in the
slots `0 .. n - 1` is unchanged byte for byte and no record before END is
overwritten. -/
theorem mesh_install_append (fs : FS) (f : Flash) (user : User) (junk : games_tbl_row)
    (args : List CStr) (n fuel : Nat) (short major minor : CStr)
    (hT : TableEnd f n) (hfuel : n < fuel)
    (hval : mesh_install_validate_args fs f user args fuel = some 0)
    (hname : split_game_name (args.getD 1 []) = some (short, major, minor)) :
    ∃ f1, mesh_install fs f user junk args fuel = some (f1, 0) ∧
      slot_row f1 n = install_row junk short user major minor ∧
      (slot_row f1 n).install_flag = MESH_TABLE_INSTALLED ∧
      f1 (slot_offset (n + 1)) = MESH_TABLE_END ∧
      (∀ a, a < slot_offset n ∨ slot_offset (n + 1) < a → f1 a = f a) ∧
      (∀ k, k < n → slot_row f1 k = slot_row f k) := by
  have hlen := install_row_length junk short user major minor
  have hw := install_write_eq f (install_row junk short user major minor) n hT.1
  have hinst : mesh_install fs f user junk args fuel =
      some (install_write f (install_row junk short user major minor) (slot_offset n), 0) := by
    unfold mesh_install
    rw [hval, hname, find_table_end_eq f n fuel hT hfuel]
    simp
  have hrow : slot_row (install_write f (install_row junk short user major minor)
      (slot_offset n)) n = install_row junk short user major minor := by
    rw [hw]
    unfold slot_row
    have e : (List.range ROW_SIZE).map (fun j =>
        (fun a => if a = slot_offset (n + 1) then MESH_TABLE_END
          else if slot_offset n ≤ a ∧ a < slot_offset (n + 1) then
            (install_row junk short user major minor).data (a - slot_offset n)
          else f a) (slot_offset n + j)) =
        (List.range ROW_SIZE).map
          (fun j => (install_row junk short user major minor).bytes.getD j 0) := by
      apply List.map_congr_left
      intro j hj
      rw [List.mem_range] at hj
      rw [slot_offset_succ]
      have h1 : ¬ (slot_offset n + j = slot_offset n + ROW_SIZE) := by omega
      have h2 : slot_offset n ≤ slot_offset n + j ∧
          slot_offset n + j < slot_offset n + ROW_SIZE := by omega
      simp only [if_neg h1, if_pos h2, Nat.add_sub_cancel_left]
      rfl
    rw [e, ← hlen, map_getD_range]
  refine ⟨_, hinst, hrow, ?_, ?_, ?_, ?_⟩
  · rw [hrow]; exact install_row_flag _ _ _ _ _
  · rw [hw]; simp only [if_true]
  · intro a ha
    rw [hw, slot_offset_succ] at *
    have h1 : ¬ (a = slot_offset n + ROW_SIZE) := by omega
    have h2 : ¬ (slot_offset n ≤ a ∧ a < slot_offset n + ROW_SIZE) := by omega
    simp only [if_neg h1, if_neg h2]
  · intro k hk
    unfold slot_row
    congr 1
    apply List.map_congr_left
    intro j hj
    rw [List.mem_range] at hj
    rw [hw, slot_offset_succ]
    have hlt : slot_offset k + j < slot_offset n := by
      simp only [slot_offset, ROW_SIZE] at hj ⊢; omega
    have h1 : ¬ (slot_offset k + j = slot_offset n + ROW_SIZE) := by omega
    have h2 : ¬ (slot_offset n ≤ slot_offset k + j ∧
        slot_offset k + j < slot_offset n + ROW_SIZE) := by omega
    simp only [if_neg h1, if_neg h2]

set_option maxRecDepth 100000 in
/-- Witness of C5: `alice` installs `chess-v1.0` on an empty table. -/
theorem mesh_install_append_witness :
    ∃ f1, mesh_install chess_fs (table_flash []) alice row_uninit
        [ascii "install", ascii "chess-v1.0"] 1 = some (f1, 0) ∧
      slot_row f1 0 = install_row row_uninit (ascii "chess") alice (ascii "1") (ascii "0") ∧
      (slot_row f1 0).install_flag = MESH_TABLE_INSTALLED ∧
      f1 (slot_offset (0 + 1)) = MESH_TABLE_END ∧
      (∀ a, a < slot_offset 0 ∨ slot_offset (0 + 1) < a → f1 a = table_flash [] a) ∧
      (∀ k, k < 0 → slot_row f1 k = slot_row (table_flash []) k) :=
  mesh_install_append chess_fs (table_flash []) alice row_uninit
    [ascii "install", ascii "chess-v1.0"] 0 1 (ascii "chess") (ascii "1") (ascii "0")
    (by decide) (by decide) (by decide) (by decide)

/-! ## Theorems: validation -/

theorem header_some_exists (fs : FS) (game_name : CStr) (game : Game)
    (h : mesh_get_game_header fs game_name = some game) : mesh_game_exists fs game_name = 1 := by
  unfold mesh_get_game_header at h
  unfold mesh_game_exists
  cases hfs : fs game_name with
  | none => rw [hfs] at h; cases h
  | some content => rfl

theorem check_user_zero (game : Game) (user : User)
    (hnot : ∀ i, i < game.num_users → game.user_at i ≠ user.name) :
    mesh_check_user game user = 0 := by
  unfold mesh_check_user
  have h : (List.range game.num_users).any (fun i => decide (game.user_at i = user.name)) =
      false := by
    rw [List.any_eq_false]
    intro i hi
    rw [List.mem_range] at hi
    simpa using hnot i hi
  rw [h]
  rfl

theorem name_length_ok (game_name : CStr) (hlen : game_name.length ≤ MAX_GAME_LENGTH + 1) :
    (List.range game_name.length).any (fun count => decide (MAX_GAME_LENGTH < count)) =
      false := by
  rw [List.any_eq_false]
  intro count hc
  rw [List.mem_range] at hc
  have : ¬ MAX_GAME_LENGTH < count := by omega
  simpa using this

theorem max_records_fits (n : Nat) (h : n ≤ MAX_RECORDS) : slot_offset (n + 1) ≤ FLASH_SIZE := by
  unfold MAX_RECORDS at h
  unfold slot_offset MESH_INSTALL_GAME_OFFSET ROW_SIZE FLASH_SIZE
  omega

theorem install_row_data_zero (junk : games_tbl_row) (short : CStr) (user : User)
    (major minor : CStr) :
    (install_row junk short user major minor).data 0 = MESH_TABLE_INSTALLED := by
  rfl

/-- The flash after the initialisation that `mesh_init_table` performs when
the sentinel is absent. -/
theorem mesh_init_table_flash (f0 : Flash) (hinit : (mesh_init_table f0).2 = 0) :
    (mesh_init_table f0).1 =
      written (written f0 (fun j => (le_bytes MESH_SENTINEL_VALUE).getD j 0)
        MESH_SENTINEL_LOCATION MESH_SENTINEL_LENGTH)
        (fun j => (le_bytes MESH_TABLE_END).getD j 0) MESH_INSTALL_GAME_OFFSET 1 := by
  unfold mesh_init_table at hinit ⊢
  by_cases h : read_sentinel f0 ≠ MESH_SENTINEL_VALUE
  · rw [if_pos h]
    simp only []
    rw [mesh_flash_write_flash _ _ _ _ (le_refl 1) (by decide),
      mesh_flash_write_flash _ _ _ _ (by decide) (by decide)]
  · rw [if_neg h] at hinit
    have h10 : ¬ ((1 : Int) = 0) := by decide
    exact absurd hinit h10

theorem init_table_inv (f0 : Flash) (hinit : (mesh_init_table f0).2 = 0) :
    TableInv (mesh_init_table f0).1 0 := by
  rw [mesh_init_table_flash f0 hinit]
  refine ⟨⟨by decide, fun k hk => absurd hk (Nat.not_lt_zero k), ?_⟩,
    fun k hk => absurd hk (Nat.not_lt_zero k)⟩
  rfl

theorem append_inv (f : Flash) (n fuel : Nat) (junk : games_tbl_row) (short : CStr)
    (user : User) (major minor : CStr)
    (hI : TableInv f n) (hcap : n + 1 ≤ MAX_RECORDS) (hfuel : n < fuel) :
    ∃ f1, apply_op fuel f (TableOp.append junk short user major minor) = some f1 ∧
      TableInv f1 (n + 1) := by
  obtain ⟨hT, hflags⟩ := hI
  have hw := install_write_eq f (install_row junk short user major minor) n hT.1
  refine ⟨install_write f (install_row junk short user major minor) (slot_offset n), ?_, ?_⟩
  · unfold apply_op
    rw [find_table_end_eq f n fuel hT hfuel]
    rfl
  · rw [hw]
    have hslot : ∀ k, k < n + 1 →
        (fun a => if a = slot_offset (n + 1) then MESH_TABLE_END
          else if slot_offset n ≤ a ∧ a < slot_offset (n + 1) then
            (install_row junk short user major minor).data (a - slot_offset n)
          else f a) (slot_offset k) =
        if k = n then MESH_TABLE_INSTALLED else f (slot_offset k) := by
      intro k hk
      have h1 : ¬ (slot_offset k = slot_offset (n + 1)) := by
        intro h; have := slot_offset_inj _ _ h; omega
      simp only [if_neg h1]
      by_cases hkn : k = n
      · subst hkn
        have h2 : slot_offset k ≤ slot_offset k ∧ slot_offset k < slot_offset (k + 1) := by
          rw [slot_offset_succ]; unfold ROW_SIZE; omega
        rw [if_pos h2, if_pos rfl, Nat.sub_self]
        exact install_row_data_zero _ _ _ _ _
      · have h2 : ¬ (slot_offset n ≤ slot_offset k ∧ slot_offset k < slot_offset (n + 1)) := by
          unfold slot_offset ROW_SIZE; omega
        rw [if_neg h2, if_neg hkn]
    refine ⟨⟨max_records_fits (n + 1) hcap, fun k hk => ?_, ?_⟩, fun k hk => ?_⟩
    · rw [hslot k hk]
      by_cases hkn : k = n
      · rw [if_pos hkn]; decide
      · rw [if_neg hkn]; exact hT.2.1 k (by omega)
    · simp only [if_true]
    · rw [hslot k hk]
      by_cases hkn : k = n
      · rw [if_pos hkn]; exact Or.inl rfl
      · rw [if_neg hkn]; exact hflags k (by omega)

theorem tombstone_inv (f : Flash) (n fuel : Nat) (user : User) (game_name : CStr)
    (hI : TableInv f n) (hfuel : n < fuel) :
    ∃ f1, apply_op fuel f (TableOp.tombstone user game_name) = some f1 ∧ TableInv f1 n := by
  obtain ⟨hT, hflags⟩ := hI
  refine ⟨_, uninstall_write_eq f user game_name n fuel hT hfuel, ?_⟩
  cases h : uninstall_target f user game_name n with
  | none => exact ⟨hT, hflags⟩
  | some k =>
    have hk := uninstall_target_lt f user game_name n k h
    refine ⟨TableEnd_update f n k _ hT hk (by decide), fun j hj => ?_⟩
    simp only [tombstoned]
    by_cases hjk : j = k
    · subst hjk
      rw [Function.update_same]
      exact Or.inr rfl
    · rw [Function.update_noteq (fun h => hjk (slot_offset_inj _ _ h))]
      exact hflags j hj

theorem apply_ops_inv (fuel : Nat) :
    ∀ (ops : List TableOp) (f : Flash) (n : Nat), TableInv f n →
      n + count_appends ops ≤ MAX_RECORDS → n + count_appends ops < fuel →
      ∃ f1, apply_ops fuel f ops = some f1 ∧ TableInv f1 (n + count_appends ops) := by
  intro ops
  induction ops with
  | nil => intro f n hI _ _; exact ⟨f, rfl, hI⟩
  | cons op rest ih =>
    intro f n hI hcap hfuel
    cases op with
    | append junk short user major minor =>
      simp only [count_appends] at hcap hfuel ⊢
      obtain ⟨f1, h1, hI1⟩ := append_inv f n fuel junk short user major minor hI
        (by omega) (by omega)
      obtain ⟨f2, h2, hI2⟩ := ih f1 (n + 1) hI1 (by omega) (by omega)
      refine ⟨f2, ?_, ?_⟩
      · rw [apply_ops, h1]; exact h2
      · have e : n + (count_appends rest + 1) = n + 1 + count_appends rest := by omega
        rw [e]; exact hI2
    | tombstone user game_name =>
      simp only [count_appends] at hcap hfuel ⊢
      obtain ⟨f1, h1, hI1⟩ := tombstone_inv f n fuel user game_name hI (by omega)
      obtain ⟨f2, h2, hI2⟩ := ih f1 n hI1 hcap hfuel
      refine ⟨f2, ?_, hI2⟩
      rw [apply_ops, h1]; exact h2

/-- C4, amended: starting from a flash on which `mesh_init_table` has just
initialised an empty table, after any finite sequence of appends
(`mesh_install`) and tombstones (`mesh_uninstall`) with at most `MAX_RECORDS`
(279618) appends, every write succeeds, the scan from offset 0x44 terminates
at the slot `n` equal to the number of appends, the records `0 .. n - 1` all
have status INSTALLED or UNINSTALLED, and record `n` has status END. -/
theorem table_invariant (f0 : Flash) (ops : List TableOp) (fuel : Nat)
    (hinit : (mesh_init_table f0).2 = 0)
    (hcap : count_appends ops ≤ MAX_RECORDS) (hfuel : count_appends ops < fuel) :
    ∃ f, apply_ops fuel (mesh_init_table f0).1 ops = some f ∧
      find_table_end f fuel = some (slot_offset (count_appends ops)) ∧
      (∀ k, k < count_appends ops →
        (slot_row f k).install_flag = MESH_TABLE_INSTALLED ∨
        (slot_row f k).install_flag = MESH_TABLE_UNINSTALLED) ∧
      (slot_row f (count_appends ops)).install_flag = MESH_TABLE_END := by
  obtain ⟨f, hf, hI⟩ := apply_ops_inv fuel ops (mesh_init_table f0).1 0
    (init_table_inv f0 hinit) (by omega) (by omega)
  rw [Nat.zero_add] at hI
  refine ⟨f, hf, find_table_end_eq f _ fuel hI.1 hfuel, fun k hk => ?_, ?_⟩
  · rw [slot_row_flag]; exact hI.2 k hk
  · rw [slot_row_flag]; exact hI.1.2.2

set_option maxRecDepth 100000 in
/-- Witness of C4, amended: an install and an uninstall on a freshly
initialised flash. -/
theorem table_invariant_witness :
    ∃ f, apply_ops 2 (mesh_init_table (fun _ => 0)).1
        [append_chess, TableOp.tombstone alice (ascii "chess-v1.0")] = some f ∧
      find_table_end f 2 = some (slot_offset
        (count_appends [append_chess, TableOp.tombstone alice (ascii "chess-v1.0")])) ∧
      (∀ k, k < count_appends [append_chess, TableOp.tombstone alice (ascii "chess-v1.0")] →
        (slot_row f k).install_flag = MESH_TABLE_INSTALLED ∨
        (slot_row f k).install_flag = MESH_TABLE_UNINSTALLED) ∧
      (slot_row f (count_appends
        [append_chess, TableOp.tombstone alice (ascii "chess-v1.0")])).install_flag =
          MESH_TABLE_END :=
  table_invariant (fun _ => 0) [append_chess, TableOp.tombstone alice (ascii "chess-v1.0")] 2
    (by decide) (by decide) (by decide)

/-- A table loop whose body never leaves the loop does not end on a flash in
which no row that can be read starts with an END byte. -/
theorem table_loop_never {σ ρ : Type} (f : Flash)
    (body : games_tbl_row → Nat → σ → LoopStep σ ρ) (done : σ → Nat → ρ)
    (hnext : ∀ row o s, ∃ s1 o1, body row o s = LoopStep.next s1 o1)
    (hno : ∀ a, a + ROW_SIZE ≤ FLASH_SIZE → f a ≠ MESH_TABLE_END) :
    ∀ (fuel : Nat) (row : games_tbl_row) (offset : Nat) (s : σ),
      row.install_flag ≠ MESH_TABLE_END → table_loop f body done fuel row offset s = none := by
  intro fuel
  induction fuel with
  | zero => intro row offset s _; rfl
  | succ fuel ih =>
    intro row offset s hrow
    have hflag : (read_row f row offset).install_flag ≠ MESH_TABLE_END := by
      by_cases hin : offset + ROW_SIZE ≤ FLASH_SIZE
      · rw [read_row_flag_in f row offset hin]; exact hno offset hin
      · rw [read_row_flag_out f row offset hin]; exact hrow
    obtain ⟨s1, o1, hb⟩ := hnext (read_row f row offset) offset s
    unfold table_loop
    simp only [if_pos hflag, hb]
    exact ih _ _ _ hflag

theorem getD_ne_of_forall (l : List Nat) (v : Nat) (hv : v ≠ 0) (h : ∀ x ∈ l, x ≠ v) (j : Nat) :
    l.getD j 0 ≠ v := by
  rw [List.getD_eq_getElem?_getD]
  by_cases hj : j < l.length
  · rw [List.getElem?_eq_getElem hj]
    exact h _ (List.getElem_mem hj)
  · rw [List.getElem?_eq_none (by omega)]
    exact fun h0 => hv h0.symm

set_option maxRecDepth 100000 in
theorem chess_row_no_end (j : Nat) :
    (install_row row_uninit (ascii "chess") alice (ascii "1") (ascii "0")).data j ≠
      MESH_TABLE_END := by
  unfold games_tbl_row.data
  exact getD_ne_of_forall _ _ (by decide) (by decide) j

theorem only_end_init : OnlyEndAt (mesh_init_table (fun _ => 0)).1 0 := by
  rw [mesh_init_table_flash _ (by decide)]
  refine ⟨rfl, fun a ha => ?_⟩
  unfold written at ha
  simp only [MESH_INSTALL_GAME_OFFSET, MESH_SENTINEL_LOCATION, MESH_SENTINEL_LENGTH] at ha
  unfold slot_offset MESH_INSTALL_GAME_OFFSET
  by_cases h1 : 68 ≤ a ∧ a < 68 + 1
  · omega
  · rw [if_neg h1] at ha
    by_cases h2 : 64 ≤ a ∧ a < 64 + 4
    · rw [if_pos h2] at ha
      exfalso
      obtain ⟨h3, h4⟩ := h2
      interval_cases a <;> exact absurd ha (by decide)
    · rw [if_neg h2] at ha
      exact absurd ha (by decide)

theorem only_end_table (f : Flash) (k : Nat) (h : OnlyEndAt f k) (hk : k ≤ MAX_RECORDS) :
    TableEnd f k :=
  ⟨max_records_fits k hk,
    fun j hj hend => by have := slot_offset_inj _ _ (h.2 _ hend); omega, h.1⟩

theorem only_end_append (f : Flash) (k fuel : Nat) (h : OnlyEndAt f k) (hk : k ≤ MAX_RECORDS)
    (hfuel : k < fuel) :
    ∃ f1, apply_op fuel f append_chess = some f1 ∧ OnlyEndAt f1 (k + 1) := by
  have hT := only_end_table f k h hk
  have hw := install_write_eq f
    (install_row row_uninit (ascii "chess") alice (ascii "1") (ascii "0")) k hT.1
  refine ⟨install_write f
    (install_row row_uninit (ascii "chess") alice (ascii "1") (ascii "0")) (slot_offset k),
    ?_, ?_⟩
  · unfold apply_op append_chess
    simp only [find_table_end_eq f k fuel hT hfuel]
    rfl
  · rw [hw]
    refine ⟨by simp only [if_true], fun a ha => ?_⟩
    by_cases h1 : a = slot_offset (k + 1)
    · exact h1
    · simp only [if_neg h1] at ha
      by_cases h2 : slot_offset k ≤ a ∧ a < slot_offset (k + 1)
      · rw [if_pos h2] at ha
        exact absurd ha (chess_row_no_end _)
      · rw [if_neg h2] at ha
        have := h.2 a ha
        rw [slot_offset_succ] at h2
        unfold ROW_SIZE at h2
        omega

theorem only_end_replicate (fuel : Nat) :
    ∀ (m : Nat) (f : Flash) (k : Nat), OnlyEndAt f k → k + m ≤ MAX_RECORDS + 1 →
      k + m ≤ fuel →
      ∃ f1, apply_ops fuel f (List.replicate m append_chess) = some f1 ∧
        OnlyEndAt f1 (k + m) := by
  intro m
  induction m with
  | zero => intro f k h _ _; exact ⟨f, rfl, h⟩
  | succ m ih =>
    intro f k h hcap hfuel
    obtain ⟨f1, h1, hO1⟩ := only_end_append f k fuel h (by omega) (by omega)
    obtain ⟨f2, h2, hO2⟩ := ih f1 (k + 1) hO1 (by omega) (by omega)
    refine ⟨f2, ?_, ?_⟩
    · rw [List.replicate_succ, apply_ops, h1]; exact h2
    · have e : k + (m + 1) = k + 1 + m := by omega
      rw [e]; exact hO2

/-- C4, counterexample: on the flash that `mesh_init_table` initialises from
an all-zero flash, 279619 appends of the record `chess` 1.0 of `alice` all
succeed, and afterwards the scan from offset 0x44 does not terminate: the END
byte lies at offset 16777208, where a row of 60 bytes no longer fits into the
flash, so that no read returns it. -/
theorem table_full_scan_never_ends :
    (mesh_init_table (fun _ => 0)).2 = 0 ∧
    ∃ f, apply_ops 279619 (mesh_init_table (fun _ => 0)).1
        (List.replicate 279619 append_chess) = some f ∧
      ∀ fuel, find_table_end f fuel = none := by
  refine ⟨by decide, ?_⟩
  obtain ⟨f, hf, hO⟩ := only_end_replicate 279619 279619 _ 0 only_end_init
    (by unfold MAX_RECORDS; omega) (by omega)
  refine ⟨f, hf, fun fuel => ?_⟩
  unfold find_table_end
  apply table_loop_never
  · intro row o s
    exact ⟨_, _, rfl⟩
  · intro a ha hend
    have := hO.2 a hend
    rw [this] at ha
    revert ha
    decide
  · decide

/-! ## Theorems: rejected installs, results of uninstall and of the user check -/

theorem mesh_valid_install_range (fs : FS) (f : Flash) (user : User) (game_name : CStr)
    (fuel : Nat) (e : Int) (h : mesh_valid_install fs f user game_name fuel = some e) :
    e = 0 ∨ e = 1 ∨ e = 2 ∨ e = 3 ∨ e = 4 := by
  unfold mesh_valid_install at h
  split at h
  · cases h; exact Or.inr (Or.inl rfl)
  · split at h
    · cases h
    · split at h
      · cases h; exact Or.inr (Or.inr (Or.inl rfl))
      · split at h
        · cases h
        · split at h
          · cases h; exact Or.inr (Or.inr (Or.inr (Or.inr rfl)))
          · split at h
            · cases h
            · split at h
              · cases h; exact Or.inr (Or.inr (Or.inr (Or.inl rfl)))
              · cases h; exact Or.inl rfl

/-- C11: a rejected install mutates nothing.  For every flash content and
every install request for which `mesh_install_validate_args` returns a
non-zero code, `mesh_install` returns that code and the flash after the call
is the flash before it; the code is one of 1 (missing argument), 2 (name too
long), 3 (not found), 4 (unauthorized), 5 (downgrade), 6 (already
installed). -/
theorem mesh_install_rejected (fs : FS) (f : Flash) (user : User) (junk : games_tbl_row)
    (args : List CStr) (fuel : Nat) (v : Int)
    (hval : mesh_install_validate_args fs f user args fuel = some v) (hv : v ≠ 0) :
    mesh_install fs f user junk args fuel = some (f, v) ∧
    (v = 1 ∨ v = 2 ∨ v = 3 ∨ v = 4 ∨ v = 5 ∨ v = 6) := by
  constructor
  · unfold mesh_install
    rw [hval]
    simp only []
    rw [if_pos hv]
  · unfold mesh_install_validate_args at hval
    simp only [] at hval
    split at hval
    · cases hval; exact Or.inl rfl
    · split at hval
      · cases hval; exact Or.inr (Or.inl rfl)
      · split at hval
        · cases hval
        · rename_i errno herr
          have hr := mesh_valid_install_range fs f user _ fuel errno herr
          have h01 : ¬ ((1 : Int) = 0) := by decide
          have h02 : ¬ ((2 : Int) = 0) := by decide
          have h03 : ¬ ((3 : Int) = 0) := by decide
          have h04 : ¬ ((4 : Int) = 0) := by decide
          have h12 : ¬ ((2 : Int) = 1) := by decide
          have h13 : ¬ ((3 : Int) = 1) := by decide
          have h14 : ¬ ((4 : Int) = 1) := by decide
          have h23 : ¬ ((3 : Int) = 2) := by decide
          have h24 : ¬ ((4 : Int) = 2) := by decide
          have h34 : ¬ ((4 : Int) = 3) := by decide
          rcases hr with h | h | h | h | h
          · subst h
            rw [if_pos rfl] at hval
            split at hval
            · cases hval; exact Or.inr (Or.inr (Or.inl rfl))
            · cases hval; exact absurd rfl hv
          · subst h
            rw [if_neg h01, if_pos rfl] at hval
            cases hval; exact Or.inr (Or.inr (Or.inl rfl))
          · subst h
            rw [if_neg h02, if_neg h12, if_pos rfl] at hval
            cases hval; exact Or.inr (Or.inr (Or.inr (Or.inl rfl)))
          · subst h
            rw [if_neg h03, if_neg h13, if_neg h23, if_pos rfl] at hval
            cases hval; exact Or.inr (Or.inr (Or.inr (Or.inr (Or.inl rfl))))
          · subst h
            rw [if_neg h04, if_neg h14, if_neg h24, if_neg h34, if_pos rfl] at hval
            cases hval; exact Or.inr (Or.inr (Or.inr (Or.inr (Or.inr rfl))))

set_option maxRecDepth 100000 in
/-- Witness of C11: `carol`, who is not authorized for `chess-v1.0`, is
rejected with code 4. -/
theorem mesh_install_rejected_witness :
    mesh_install chess_fs (table_flash []) carol row_uninit
      (ascii "install" :: ascii "chess-v1.0" :: []) 1 = some (table_flash [], 4) ∧
    ((4 : Int) = 1 ∨ (4 : Int) = 2 ∨ (4 : Int) = 3 ∨ (4 : Int) = 4 ∨ (4 : Int) = 5 ∨
      (4 : Int) = 6) :=
  mesh_install_rejected chess_fs (table_flash []) carol row_uninit
    (ascii "install" :: ascii "chess-v1.0" :: []) 1 4 (by decide) (by decide)

/-- C16: `mesh_check_user` is 1 or 0, and it is 1 iff the name of the current
user is equal, as a whole string, to the string at one of the first
`num_users` entries `game->users[i]` of the header. -/
theorem mesh_check_user_iff (game : Game) (user : User) :
    (mesh_check_user game user = 1 ∨ mesh_check_user game user = 0) ∧
    (mesh_check_user game user = 1 ↔
      ∃ i, i < game.num_users ∧ game.user_at i = user.name) := by
  unfold mesh_check_user
  by_cases h : (List.range game.num_users).any
      (fun i => decide (game.user_at i = user.name)) = true
  · rw [if_pos h]
    refine ⟨Or.inl rfl, fun _ => ?_, fun _ => rfl⟩
    rw [List.any_eq_true] at h
    obtain ⟨i, hi, hd⟩ := h
    exact ⟨i, List.mem_range.mp hi, of_decide_eq_true hd⟩
  · rw [if_neg h]
    refine ⟨Or.inr rfl, fun h1 => absurd h1 (by decide), fun hex => ?_⟩
    exfalso
    apply h
    rw [List.any_eq_true]
    obtain ⟨i, hi, he⟩ := hex
    exact ⟨i, List.mem_range.mpr hi, decide_eq_true he⟩

/-- What `mesh_is_first_table_write` returns: 1 iff the 4 bytes at
`MESH_SENTINEL_LOCATION` are not the sentinel value, 0 iff they are. -/
theorem mesh_is_first_table_write_eq (f : Flash) :
    (mesh_is_first_table_write f = 1 ↔ read_sentinel f ≠ MESH_SENTINEL_VALUE) ∧
    (mesh_is_first_table_write f = 0 ↔ read_sentinel f = MESH_SENTINEL_VALUE) := by
  unfold mesh_is_first_table_write
  by_cases h : read_sentinel f ≠ MESH_SENTINEL_VALUE
  · rw [if_pos h]
    exact ⟨⟨fun _ => h, fun _ => rfl⟩, ⟨fun h1 => absurd h1 (by decide), fun h1 => absurd h1 h⟩⟩
  · rw [if_neg h]
    exact ⟨⟨fun h1 => absurd h1 (by decide), fun h1 => absurd h1 h⟩,
      ⟨fun _ => not_not.mp h, fun _ => rfl⟩⟩

set_option maxRecDepth 100000 in
/-- C19, counterexample: on a flash that holds the sentinel at 0x40,
`mesh_is_first_table_write` returns 0, not 1, and on an erased flash (all
bytes 0xFF), where the sentinel is not written, it returns 1, not 0. -/
theorem mesh_is_first_table_write_inverted :
    read_sentinel (table_flash []) = MESH_SENTINEL_VALUE ∧
    mesh_is_first_table_write (table_flash []) = 0 ∧
    read_sentinel (fun _ => 255) ≠ MESH_SENTINEL_VALUE ∧
    mesh_is_first_table_write (fun _ => 255) = 1 := by
  decide

/-! ## Theorems: listing -/

theorem walk_list (user : User) :
    ∀ (rows : List games_tbl_row) (k : Nat) (out : List CStr),
      walk (σ := List CStr) (ρ := List CStr)
        (fun row offset out =>
          LoopStep.next
            (if row.user_name = user.name ∧ row.install_flag = MESH_TABLE_INSTALLED then
              out ++ [full_name_from_short_name row] else out)
            (u32 (offset + ROW_SIZE)))
        (fun out _ => out) rows k out = out ++ listing user rows := by
  intro rows
  induction rows with
  | nil => intro k out; simp [walk, listing]
  | cons row rest ih =>
    intro k out
    rw [walk]
    simp only []
    rw [ih (k + 1)]
    unfold listing
    by_cases h : row.user_name = user.name ∧ row.install_flag = MESH_TABLE_INSTALLED
    · have hl : listed user row := h
      rw [if_pos h, List.filter_cons_of_pos (by simpa using hl), List.map_cons,
        List.append_assoc, List.singleton_append]
    · have hl : ¬ listed user row := h
      rw [if_neg h, List.filter_cons_of_neg (by simpa using hl)]

/-- What `mesh_list` prints on a table with `n` records: one line for every
record before END that has the current user as `user_name` and status
INSTALLED, in table order, and nothing for any other record; the line is the
full name as `printf("%s-v%d.%d")` prints it. -/
theorem mesh_list_eq (f : Flash) (user : User) (n fuel : Nat) (hT : TableEnd f n)
    (hfuel : n < fuel) : mesh_list f user fuel = some (listing user (table_rows f n)) := by
  unfold mesh_list
  rw [table_loop_rows f _ _ n fuel hT hfuel ?_ [], walk_list, List.nil_append]
  intro row o s s1 o1 h
  cases h
  rfl

set_option maxRecDepth 100000 in
/-- C14, the code at the failing input: `alice` installs the package
`g-v4294967295.0` on an empty table; the record holds the major version
4294967295, and `mesh_list` prints the line `g-v-1.0`, not
`g-v4294967295.0`. -/
theorem mesh_list_prints_negative_version :
    (mesh_install big_fs (table_flash []) alice row_uninit
        (ascii "install" :: big_name :: []) 1).map
      (fun r => (r.2, (slot_row r.1 0).major_version, mesh_list r.1 alice 2)) =
      some (0, 4294967295, some [ascii "g-v-1.0"]) := by
  decide

/-! ## Theorems: initialisation -/

theorem read_sentinel_eq (f : Flash) :
    read_sentinel f = le_value (f 64) (f 65) (f 66) (f 67) := by
  rfl

theorem init_flash_bytes (f : Flash) (a : Nat) :
    written (written f (fun j => (le_bytes MESH_SENTINEL_VALUE).getD j 0)
        MESH_SENTINEL_LOCATION MESH_SENTINEL_LENGTH)
      (fun j => (le_bytes MESH_TABLE_END).getD j 0) MESH_INSTALL_GAME_OFFSET 1 a =
    if a = 64 then 0x78 else if a = 65 then 0x56 else if a = 66 then 0x34
    else if a = 67 then 0x12 else if a = 68 then 0xff else f a := by
  unfold written
  simp only [MESH_INSTALL_GAME_OFFSET, MESH_SENTINEL_LOCATION, MESH_SENTINEL_LENGTH]
  by_cases h4 : a = 68
  · subst h4; rfl
  · have hn : ¬ (68 ≤ a ∧ a < 68 + 1) := by omega
    rw [if_neg hn]
    by_cases h0 : a = 64
    · subst h0; rfl
    · by_cases h1 : a = 65
      · subst h1; rfl
      · by_cases h2 : a = 66
        · subst h2; rfl
        · by_cases h3 : a = 67
          · subst h3; rfl
          · have hm : ¬ (64 ≤ a ∧ a < 64 + 4) := by omega
            rw [if_neg hm, if_neg h0, if_neg h1, if_neg h2, if_neg h3, if_neg h4]

/-- After `mesh_init_table` the sentinel is in flash, whatever the flash was
before. -/
theorem read_sentinel_after_init (f : Flash) :
    read_sentinel (mesh_init_table f).1 = MESH_SENTINEL_VALUE := by
  by_cases h : read_sentinel f ≠ MESH_SENTINEL_VALUE
  · have h0 : (mesh_init_table f).2 = 0 := by
      unfold mesh_init_table; rw [if_pos h]
    rw [mesh_init_table_flash f h0, read_sentinel_eq]
    simp only [init_flash_bytes]
    norm_num [le_value, MESH_SENTINEL_VALUE]
  · have h1 : (mesh_init_table f).1 = f := by
      unfold mesh_init_table; rw [if_neg h]
    rw [h1]
    exact not_not.mp h

/-- C17: `mesh_init_table` is idempotent.  For every flash content the flash
after a second call equals the flash after the first call, the second call
returns 1, and the only `sf` command that the second call issues is the read
of the sentinel: it writes nothing. -/
theorem mesh_init_table_idempotent (f : Flash) :
    (mesh_init_table (mesh_init_table f).1).1 = (mesh_init_table f).1 ∧
    (mesh_init_table (mesh_init_table f).1).2 = 1 ∧
    mesh_init_table_log (mesh_init_table f).1 =
      [⟨SfOp.read, MESH_SENTINEL_LOCATION, MESH_SENTINEL_LENGTH, 0⟩] := by
  have hs := read_sentinel_after_init f
  have hnot : ¬ (read_sentinel (mesh_init_table f).1 ≠ MESH_SENTINEL_VALUE) := not_not.mpr hs
  refine ⟨?_, ?_, ?_⟩
  · unfold mesh_init_table at hnot ⊢
    rw [if_neg hnot]
  · unfold mesh_init_table at hnot ⊢
    rw [if_neg hnot]
  · unfold mesh_init_table_log
    rw [if_neg hnot]
    rfl

/-- C18: first-time initialisation.  For every flash content whose 4 bytes at
offset 0x40 are not the sentinel value, `mesh_init_table` returns 0;
afterwards the 4 bytes at 0x40 read as 0x12345678 (bytes 78 56 34 12), the
status byte at the table base 0x44 is END, the table is a well-formed table
with no record, which the end-of-table scan and `mesh_list` scan as empty, and
every flash byte outside 0x40..0x44 is unchanged. -/
theorem mesh_init_table_first_time (f : Flash) (user : User) (fuel : Nat)
    (h : read_sentinel f ≠ MESH_SENTINEL_VALUE) :
    (mesh_init_table f).2 = 0 ∧
    read_sentinel (mesh_init_table f).1 = MESH_SENTINEL_VALUE ∧
    (List.range 4).map (fun j => (mesh_init_table f).1 (MESH_SENTINEL_LOCATION + j)) =
      [0x78, 0x56, 0x34, 0x12] ∧
    (mesh_init_table f).1 MESH_INSTALL_GAME_OFFSET = MESH_TABLE_END ∧
    TableEnd (mesh_init_table f).1 0 ∧
    find_table_end (mesh_init_table f).1 (fuel + 1) = some MESH_INSTALL_GAME_OFFSET ∧
    mesh_list (mesh_init_table f).1 user (fuel + 1) = some [] ∧
    (∀ a, a < MESH_SENTINEL_LOCATION ∨ MESH_INSTALL_GAME_OFFSET < a →
      (mesh_init_table f).1 a = f a) := by
  have h0 : (mesh_init_table f).2 = 0 := by
    unfold mesh_init_table; rw [if_pos h]
  have hT := (init_table_inv f h0).1
  refine ⟨h0, read_sentinel_after_init f, ?_, hT.2.2, hT, ?_, ?_, ?_⟩
  · rw [mesh_init_table_flash f h0]
    simp only [init_flash_bytes]
    rfl
  · exact find_table_end_eq _ 0 (fuel + 1) hT (by omega)
  · rw [mesh_list_eq _ user 0 (fuel + 1) hT (by omega)]
    rfl
  · intro a ha
    rw [mesh_init_table_flash f h0, init_flash_bytes]
    simp only [MESH_SENTINEL_LOCATION, MESH_INSTALL_GAME_OFFSET] at ha
    have h1 : ¬ a = 64 := by omega
    have h2 : ¬ a = 65 := by omega
    have h3 : ¬ a = 66 := by omega
    have h4 : ¬ a = 67 := by omega
    have h5 : ¬ a = 68 := by omega
    rw [if_neg h1, if_neg h2, if_neg h3, if_neg h4, if_neg h5]

/-- Witness of C18: an erased flash (all bytes 0xFF). -/
theorem mesh_init_table_first_time_witness :
    (mesh_init_table (fun _ => 255)).2 = 0 ∧
    read_sentinel (mesh_init_table (fun _ => 255)).1 = MESH_SENTINEL_VALUE ∧
    (List.range 4).map
        (fun j => (mesh_init_table (fun _ => 255)).1 (MESH_SENTINEL_LOCATION + j)) =
      [0x78, 0x56, 0x34, 0x12] ∧
    (mesh_init_table (fun _ => 255)).1 MESH_INSTALL_GAME_OFFSET = MESH_TABLE_END ∧
    TableEnd (mesh_init_table (fun _ => 255)).1 0 ∧
    find_table_end (mesh_init_table (fun _ => 255)).1 (0 + 1) =
      some MESH_INSTALL_GAME_OFFSET ∧
    mesh_list (mesh_init_table (fun _ => 255)).1 alice (0 + 1) = some [] ∧
    (∀ a, a < MESH_SENTINEL_LOCATION ∨ MESH_INSTALL_GAME_OFFSET < a →
      (mesh_init_table (fun _ => 255)).1 a = (fun _ => 255) a) :=
  mesh_init_table_first_time (fun _ => 255) alice 0 (by decide)

/-! ## Theorems: strings -/

theorem takeWhile_append_stop (p : Nat → Bool) (l : List Nat) (b : Nat) (rest : List Nat)
    (hl : ∀ x ∈ l, p x = true) (hb : p b = false) : (l ++ b :: rest).takeWhile p = l := by
  induction l with
  | nil => simp [List.takeWhile_cons, hb]
  | cons a l ih =>
    rw [List.cons_append, List.takeWhile_cons, hl a (List.mem_cons_self _ _)]
    simp only [if_true]
    rw [ih (fun x hx => hl x (List.mem_cons_of_mem _ hx))]

theorem dropWhile_append_stop (p : Nat → Bool) (l : List Nat) (b : Nat) (rest : List Nat)
    (hl : ∀ x ∈ l, p x = true) (hb : p b = false) :
    (l ++ b :: rest).dropWhile p = b :: rest := by
  induction l with
  | nil => simp [List.dropWhile_cons, hb]
  | cons a l ih =>
    rw [List.cons_append, List.dropWhile_cons, hl a (List.mem_cons_self _ _)]
    simp only [if_true]
    exact ih (fun x hx => hl x (List.mem_cons_of_mem _ hx))

theorem takeWhile_all (p : Nat → Bool) (l : List Nat) (hl : ∀ x ∈ l, p x = true) :
    l.takeWhile p = l := by
  induction l with
  | nil => rfl
  | cons a l ih =>
    rw [List.takeWhile_cons, hl a (List.mem_cons_self _ _)]
    simp only [if_true]
    rw [ih (fun x hx => hl x (List.mem_cons_of_mem _ hx))]

theorem dropWhile_all (p : Nat → Bool) (l : List Nat) (hl : ∀ x ∈ l, p x = true) :
    l.dropWhile p = [] := by
  induction l with
  | nil => rfl
  | cons a l ih =>
    rw [List.dropWhile_cons, hl a (List.mem_cons_self _ _)]
    simp only [if_true]
    exact ih (fun x hx => hl x (List.mem_cons_of_mem _ hx))

theorem dropWhile_head_stop (p : Nat → Bool) (a : Nat) (l : List Nat) (ha : p a = false) :
    (a :: l).dropWhile p = a :: l := by
  rw [List.dropWhile_cons, ha]
  rfl

/-- One `strtok` call on a position that starts with a token followed by a
delimiter: the token is returned and the position moves past the delimiter. -/
theorem strtok_token (tok : CStr) (d : Nat) (rest : CStr) (delims : List Nat)
    (hne : tok ≠ []) (htok : ∀ c ∈ tok, c ∉ delims) (hd : d ∈ delims) :
    strtok_from (tok ++ d :: rest) delims = (some tok, rest) := by
  unfold strtok_from
  obtain ⟨a, tl, rfl⟩ := List.exists_cons_of_ne_nil hne
  have ha : decide (a ∈ delims) = false := decide_eq_false (htok a (List.mem_cons_self _ _))
  have hdrop : ((a :: tl) ++ d :: rest).dropWhile (fun c => decide (c ∈ delims)) =
      (a :: tl) ++ d :: rest := dropWhile_head_stop _ a _ ha
  have hall : ∀ x ∈ a :: tl, (fun c => !decide (c ∈ delims)) x = true := by
    intro x hx
    simp only [decide_eq_false (htok x hx), Bool.not_false]
  have hstop : (fun c => !decide (c ∈ delims)) d = false := by
    simp only [decide_eq_true hd, Bool.not_true]
  simp only [hdrop]
  rw [if_neg (by simp), takeWhile_append_stop _ _ _ _ hall hstop,
    dropWhile_append_stop _ _ _ _ hall hstop]
  rfl

/-- One `strtok` call on a position that holds a token and no delimiter after
it: the token is the rest of the string. -/
theorem strtok_last (tok : CStr) (delims : List Nat) (hne : tok ≠ [])
    (htok : ∀ c ∈ tok, c ∉ delims) : strtok_from tok delims = (some tok, []) := by
  unfold strtok_from
  obtain ⟨a, tl, rfl⟩ := List.exists_cons_of_ne_nil hne
  have ha : decide (a ∈ delims) = false := decide_eq_false (htok a (List.mem_cons_self _ _))
  have hdrop : (a :: tl).dropWhile (fun c => decide (c ∈ delims)) = a :: tl :=
    dropWhile_head_stop _ a _ ha
  have hall : ∀ x ∈ a :: tl, (fun c => !decide (c ∈ delims)) x = true := by
    intro x hx
    simp only [decide_eq_false (htok x hx), Bool.not_false]
  simp only [hdrop]
  rw [if_neg (by simp), takeWhile_all _ _ hall, dropWhile_all _ _ hall]
  rfl

theorem package_name_eq (g M m : CStr) :
    package_name g M m = g ++ 45 :: (118 :: M ++ 46 :: m) := by
  unfold package_name
  simp

/-- The three `strtok` calls of `mesh_install` on a package name `g-vM.m`
yield `g`, `M` and `m`. -/
theorem split_package_name (g M m : CStr) (hg : NameOk g) (hM : ∀ c ∈ M, c ≠ 46 ∧ c ≠ 45)
    (hm : m ≠ []) : split_game_name (package_name g M m) = some (g, M, m) := by
  unfold split_game_name
  rw [package_name_eq]
  have h1 : strtok_from (g ++ 45 :: (118 :: M ++ 46 :: m)) [45] =
      (some g, 118 :: M ++ 46 :: m) :=
    strtok_token g 45 _ [45] hg.1 (fun c hc => by simpa using (hg.2.1 c hc).1) (by simp)
  have h2 : strtok_from (118 :: M ++ 46 :: m) [46] = (some (118 :: M), m) := by
    have := strtok_token (118 :: M) 46 m [46] (by simp)
      (fun c hc => by
        rcases List.mem_cons.mp hc with h | h
        · subst h; decide
        · simpa using (hM c h).1) (by simp)
    simpa using this
  have h3 : strtok_from m [] = (some m, []) := strtok_last m [] hm (fun c _ => by simp)
  simp only [h1, h2, h3]
  rfl

/-- The short name that `mesh_check_downgrade` compares for a package name
`g-vM.m` is `g`. -/
theorem short_game_name_of_package (g M m : CStr) (hg : NameOk g) :
    short_game_name_of (package_name g M m) = g := by
  have hsb : short_name_before_dash (package_name g M m) = g := by
    unfold short_name_before_dash
    rw [package_name_eq]
    exact takeWhile_append_stop _ g 45 _
      (fun x hx => by simp [(hg.2.1 x hx).1]) (by simp)
  rw [short_game_name_of_eq _ ?_ (by rw [hsb]; exact hg.2.2), hsb]
  rw [package_name_eq]
  obtain ⟨a, tl, rfl⟩ := List.exists_cons_of_ne_nil hg.1
  have ha := (hg.2.1 a (List.mem_cons_self _ _)).1
  simpa using ha

/-! ## Theorems: the fields of an installed row -/

theorem cstr_append_zero (g rest : List Nat) (hg : ∀ c ∈ g, c ≠ 0) :
    cstr (g ++ 0 :: rest) = g := by
  unfold cstr
  exact takeWhile_append_stop _ g 0 rest (fun x hx => by simpa using hg x hx) (by simp)

theorem replicate_zero_set (k i : Nat) :
    (List.replicate k 0).set i 0 = List.replicate k 0 := by
  apply List.ext_getElem
  · simp
  · intro j h1 h2
    simp [List.getElem_set]

theorem le_value_le_bytes (v : Nat) (hv : v < 2 ^ 32) :
    le_value (v % 256) (v / 256 % 256) (v / 65536 % 256) (v / 16777216 % 256) = v := by
  unfold le_value
  omega

theorem strtoul_loop_lt (cs : List Nat) :
    ∀ result, result < 2 ^ 32 → strtoul_loop cs result < 2 ^ 32 := by
  induction cs with
  | nil => intro result h; exact h
  | cons c cs ih =>
    intro result h
    unfold strtoul_loop
    by_cases hc : 48 ≤ c ∧ c ≤ 57
    · rw [if_pos hc]
      exact ih _ (by unfold u32; exact Nat.mod_lt _ (by norm_num))
    · rw [if_neg hc]; exact h

theorem simple_strtoul_lt (cp : CStr) : simple_strtoul cp < 2 ^ 32 :=
  strtoul_loop_lt cp 0 (by norm_num)

/-- The bytes of an installed row, split at the field boundaries. -/
theorem install_row_bytes (junk : games_tbl_row) (g : CStr) (user : User) (M m : CStr)
    (hg : g.length ≤ MAX_GAME_LENGTH) (hu : user.name.length ≤ MAX_USERNAME_LENGTH) :
    (install_row junk g user M m).bytes =
      MESH_TABLE_INSTALLED ::
        ((g ++ 0 :: List.replicate (MAX_GAME_LENGTH - g.length) 0) ++
          ([junk.bytes.getD 33 0, junk.bytes.getD 34 0, junk.bytes.getD 35 0] ++
            (le_bytes (simple_strtoul M) ++
              (le_bytes (simple_strtoul m) ++
                (user.name ++ 0 :: List.replicate (MAX_USERNAME_LENGTH - user.name.length)
                  0))))) := by
  unfold install_row pad_to
  have h1 : g.take MAX_GAME_LENGTH = g := List.take_of_length_le hg
  have h2 : user.name.take (MAX_USERNAME_LENGTH + 1) = user.name :=
    List.take_of_length_le (by omega)
  have h3 : List.replicate (MAX_GAME_LENGTH - g.length) 0 ++ [0] =
      0 :: List.replicate (MAX_GAME_LENGTH - g.length) 0 := by
    rw [← List.replicate_succ, List.replicate_succ']
  have h4 : (user.name ++ List.replicate (MAX_USERNAME_LENGTH + 1 - user.name.length) 0).set
      MAX_USERNAME_LENGTH 0 =
      user.name ++ 0 :: List.replicate (MAX_USERNAME_LENGTH - user.name.length) 0 := by
    have e : MAX_USERNAME_LENGTH + 1 - user.name.length =
        (MAX_USERNAME_LENGTH - user.name.length) + 1 := by omega
    rw [List.set_append_right _ _ (by omega), replicate_zero_set, e, List.replicate_succ]
  simp only [h1, h2, h4]
  simp only [List.append_assoc, List.singleton_append, List.cons_append, List.nil_append, h3]

theorem install_row_game_name (junk : games_tbl_row) (g : CStr) (user : User) (M m : CStr)
    (hg : NameOk g) (hu : UserOk user) : (install_row junk g user M m).game_name = g := by
  unfold games_tbl_row.game_name
  rw [install_row_bytes junk g user M m hg.2.2 hu.2, List.drop_succ_cons, List.drop_zero,
    List.take_append_of_le_length (by
      simp only [List.length_append, List.length_cons, List.length_replicate]
      have := hg.2.2
      omega),
    List.take_of_length_le (by
      simp only [List.length_append, List.length_cons, List.length_replicate]
      have := hg.2.2
      omega)]
  exact cstr_append_zero g _ (fun c hc => (hg.2.1 c hc).2)

theorem install_row_drop36 (junk : games_tbl_row) (g : CStr) (user : User) (M m : CStr)
    (hg : NameOk g) (hu : UserOk user) :
    (install_row junk g user M m).bytes.drop 36 =
      le_bytes (simple_strtoul M) ++ (le_bytes (simple_strtoul m) ++
        (user.name ++ 0 :: List.replicate (MAX_USERNAME_LENGTH - user.name.length) 0)) := by
  rw [install_row_bytes junk g user M m hg.2.2 hu.2]
  have hlen : (MESH_TABLE_INSTALLED ::
      ((g ++ 0 :: List.replicate (MAX_GAME_LENGTH - g.length) 0) ++
        [junk.bytes.getD 33 0, junk.bytes.getD 34 0, junk.bytes.getD 35 0])).length = 36 := by
    simp only [List.length_append, List.length_cons, List.length_replicate, List.length_nil]
    have := hg.2.2
    unfold MAX_GAME_LENGTH at *
    omega
  have e : MESH_TABLE_INSTALLED ::
      ((g ++ 0 :: List.replicate (MAX_GAME_LENGTH - g.length) 0) ++
        ([junk.bytes.getD 33 0, junk.bytes.getD 34 0, junk.bytes.getD 35 0] ++
          (le_bytes (simple_strtoul M) ++
            (le_bytes (simple_strtoul m) ++
              (user.name ++ 0 :: List.replicate (MAX_USERNAME_LENGTH - user.name.length)
                0))))) =
      (MESH_TABLE_INSTALLED ::
        ((g ++ 0 :: List.replicate (MAX_GAME_LENGTH - g.length) 0) ++
          [junk.bytes.getD 33 0, junk.bytes.getD 34 0, junk.bytes.getD 35 0])) ++
      (le_bytes (simple_strtoul M) ++ (le_bytes (simple_strtoul m) ++
        (user.name ++ 0 :: List.replicate (MAX_USERNAME_LENGTH - user.name.length) 0))) := by
    simp only [List.append_assoc, List.cons_append]
  rw [e, List.drop_left' hlen]

theorem getD_of_drop (l : List Nat) (n i : Nat) : l.getD (n + i) 0 = (l.drop n).getD i 0 := by
  simp only [List.getD_eq_getElem?_getD, List.getElem?_drop]

theorem install_row_major (junk : games_tbl_row) (g : CStr) (user : User) (M m : CStr)
    (hg : NameOk g) (hu : UserOk user) :
    (install_row junk g user M m).major_version = simple_strtoul M := by
  unfold games_tbl_row.major_version
  rw [getD_of_drop _ 36 0, getD_of_drop _ 36 1, getD_of_drop _ 36 2, getD_of_drop _ 36 3,
    install_row_drop36 junk g user M m hg hu]
  exact le_value_le_bytes _ (simple_strtoul_lt M)

theorem install_row_minor (junk : games_tbl_row) (g : CStr) (user : User) (M m : CStr)
    (hg : NameOk g) (hu : UserOk user) :
    (install_row junk g user M m).minor_version = simple_strtoul m := by
  unfold games_tbl_row.minor_version
  rw [getD_of_drop _ 36 4, getD_of_drop _ 36 5, getD_of_drop _ 36 6, getD_of_drop _ 36 7,
    install_row_drop36 junk g user M m hg hu]
  exact le_value_le_bytes _ (simple_strtoul_lt m)

theorem install_row_user_name (junk : games_tbl_row) (g : CStr) (user : User) (M m : CStr)
    (hg : NameOk g) (hu : UserOk user) :
    (install_row junk g user M m).user_name = user.name := by
  unfold games_tbl_row.user_name
  have e : (install_row junk g user M m).bytes.drop 44 =
      ((install_row junk g user M m).bytes.drop 36).drop 8 := by
    rw [List.drop_drop]
  rw [e, install_row_drop36 junk g user M m hg hu]
  have e2 : (le_bytes (simple_strtoul M) ++ (le_bytes (simple_strtoul m) ++
      (user.name ++ 0 :: List.replicate (MAX_USERNAME_LENGTH - user.name.length) 0))).drop 8 =
      user.name ++ 0 :: List.replicate (MAX_USERNAME_LENGTH - user.name.length) 0 := by
    rfl
  rw [e2, List.take_of_length_le (by
    simp only [List.length_append, List.length_cons, List.length_replicate]
    have := hu.2
    omega)]
  exact cstr_append_zero _ _ hu.1

/-- The full name that `full_name_from_short_name` prints for an installed row
is the package name, when `M` and `m` are the decimal numbers that `%d`
prints for their values. -/
theorem install_row_full_name (junk : games_tbl_row) (g : CStr) (user : User) (M m : CStr)
    (hg : NameOk g) (hu : UserOk user) (hM : fmt_d (simple_strtoul M) = M)
    (hm : fmt_d (simple_strtoul m) = m) :
    full_name_from_short_name (install_row junk g user M m) = package_name g M m := by
  unfold full_name_from_short_name package_name
  rw [install_row_game_name junk g user M m hg hu, install_row_major junk g user M m hg hu,
    install_row_minor junk g user M m hg hu, hM, hm]

/-! ## Theorems: the rows of a table after an install or an uninstall -/

theorem slot_row_update_other (f : Flash) (j k v : Nat) (h : j ≠ k) :
    slot_row (Function.update f (slot_offset k) v) j = slot_row f j := by
  unfold slot_row
  congr 1
  apply List.map_congr_left
  intro i hi
  rw [List.mem_range] at hi
  apply Function.update_noteq
  unfold slot_offset MESH_INSTALL_GAME_OFFSET ROW_SIZE at *
  omega

/-- The rows of the table after the write of `mesh_install`: the rows before,
followed by the new one. -/
theorem install_write_rows (f : Flash) (row : games_tbl_row) (n : Nat) (hT : TableEnd f n)
    (hn : n + 1 ≤ MAX_RECORDS) (hlen : row.bytes.length = ROW_SIZE)
    (hflag : row.install_flag ≠ MESH_TABLE_END) :
    TableEnd (install_write f row (slot_offset n)) (n + 1) ∧
    table_rows (install_write f row (slot_offset n)) (n + 1) = table_rows f n ++ [row] := by
  have hw := install_write_eq f row n hT.1
  have hold : ∀ k, k < n →
      slot_row (install_write f row (slot_offset n)) k = slot_row f k := by
    intro k hk
    unfold slot_row
    congr 1
    apply List.map_congr_left
    intro j hj
    rw [List.mem_range] at hj
    rw [hw, slot_offset_succ]
    have hlt : slot_offset k + j < slot_offset n := by
      simp only [slot_offset, ROW_SIZE] at hj ⊢; omega
    have h1 : ¬ (slot_offset k + j = slot_offset n + ROW_SIZE) := by omega
    have h2 : ¬ (slot_offset n ≤ slot_offset k + j ∧
        slot_offset k + j < slot_offset n + ROW_SIZE) := by omega
    simp only [if_neg h1, if_neg h2]
  have hnew : slot_row (install_write f row (slot_offset n)) n = row := by
    rw [hw]
    unfold slot_row
    have e : (List.range ROW_SIZE).map (fun j =>
        (fun a => if a = slot_offset (n + 1) then MESH_TABLE_END
          else if slot_offset n ≤ a ∧ a < slot_offset (n + 1) then
            row.data (a - slot_offset n)
          else f a) (slot_offset n + j)) =
        (List.range ROW_SIZE).map (fun j => row.bytes.getD j 0) := by
      apply List.map_congr_left
      intro j hj
      rw [List.mem_range] at hj
      rw [slot_offset_succ]
      have h1 : ¬ (slot_offset n + j = slot_offset n + ROW_SIZE) := by omega
      have h2 : slot_offset n ≤ slot_offset n + j ∧
          slot_offset n + j < slot_offset n + ROW_SIZE := by omega
      simp only [if_neg h1, if_pos h2, Nat.add_sub_cancel_left]
      rfl
    rw [e, ← hlen, map_getD_range]
  refine ⟨⟨max_records_fits (n + 1) hn, fun k hk => ?_, ?_⟩, ?_⟩
  · have hk1 := slot_row_flag (install_write f row (slot_offset n)) k
    rw [← hk1]
    by_cases hkn : k = n
    · subst hkn; rw [hnew]; exact hflag
    · rw [hold k (by omega), slot_row_flag]; exact hT.2.1 k (by omega)
  · rw [hw]; simp only [if_true]
  · unfold table_rows
    rw [List.range_succ, List.map_append, List.map_singleton, hnew]
    congr 1
    apply List.map_congr_left
    intro k hk
    exact hold k (List.mem_range.mp hk)

theorem tombstoned_rows_range (f : Flash) (user : User) (game_name : CStr) :
    ∀ (d k : Nat),
      (List.range' k d).map (slot_row (tombstoned f
        ((List.range' k d).find?
          (fun j => decide (uninstall_match user game_name (slot_row f j)))))) =
      tombstone_rows user game_name ((List.range' k d).map (slot_row f)) := by
  intro d
  induction d with
  | zero => intro k; rfl
  | succ d ih =>
    intro k
    rw [List.range'_succ]
    by_cases hm : uninstall_match user game_name (slot_row f k)
    · rw [List.find?_cons_of_pos _ (by simpa using hm)]
      simp only [List.map_cons, tombstone_rows, if_pos hm, tombstoned]
      rw [slot_row_update]
      congr 1
      apply List.map_congr_left
      intro j hj
      rw [List.mem_range'_1] at hj
      exact slot_row_update_other f j k _ (by omega)
    · rw [List.find?_cons_of_neg _ (by simpa using hm)]
      simp only [List.map_cons, tombstone_rows, if_neg hm]
      rw [ih (k + 1)]
      congr 1
      cases ht : (List.range' (k + 1) d).find?
          (fun j => decide (uninstall_match user game_name (slot_row f j))) with
      | none => rfl
      | some j =>
        have hj := List.mem_of_find?_eq_some ht
        rw [List.mem_range'_1] at hj
        exact slot_row_update_other f k j _ (by omega)

/-- The rows of the table after the loop of `mesh_uninstall`. -/
theorem tombstoned_rows (f : Flash) (user : User) (game_name : CStr) (n : Nat) :
    table_rows (tombstoned f (uninstall_target f user game_name n)) n =
      tombstone_rows user game_name (table_rows f n) := by
  unfold table_rows uninstall_target
  rw [List.range_eq_range']
  exact tombstoned_rows_range f user game_name n 0

theorem TableEnd_tombstoned (f : Flash) (user : User) (game_name : CStr) (n : Nat)
    (hT : TableEnd f n) : TableEnd (tombstoned f (uninstall_target f user game_name n)) n := by
  cases h : uninstall_target f user game_name n with
  | none => exact hT
  | some k =>
    exact TableEnd_update f n k _ hT (uninstall_target_lt f user game_name n k h) (by decide)

/-- The result of `mesh_valid_install` in terms of the records before END. -/
theorem mesh_valid_install_eq (fs : FS) (f : Flash) (user : User) (game_name : CStr)
    (game : Game) (n fuel : Nat) (hT : TableEnd f n) (hfuel : n < fuel)
    (hh : mesh_get_game_header fs game_name = some game) :
    mesh_valid_install fs f user game_name fuel =
      some (if mesh_check_user game user = 0 then 2
        else if ∃ row ∈ table_rows f n, uninstall_match user game_name row then 4
        else if classify_install (table_rows f n) user (short_game_name_of game_name)
            game.major_version game.minor_version ≠ 0 then 3
        else 0) := by
  unfold mesh_valid_install
  have hex := header_some_exists fs game_name game hh
  have h10 : ¬ ((1 : Int) = 0) := by decide
  rw [hex, if_neg h10, hh]
  dsimp only
  rw [mesh_game_installed_eq f user game_name n fuel hT hfuel,
    mesh_check_downgrade_eq f user game_name _ _ n fuel hT hfuel]
  simp only [uninstall_match]
  by_cases hu : mesh_check_user game user = 0
  · simp only [if_pos hu]
  · simp only [if_neg hu]
    by_cases hi : ∃ row ∈ table_rows f n, row.user_name = user.name ∧
        full_name_from_short_name row = game_name ∧ row.install_flag = MESH_TABLE_INSTALLED
    · simp only [if_pos hi]
      rfl
    · simp only [if_neg hi]
      by_cases hc : classify_install (table_rows f n) user (short_game_name_of game_name)
          game.major_version game.minor_version = 0
      · simp [hc]
      · simp [hc]

/-- A record that prints as the package name `g-vM.m` has the game name `g`. -/
theorem full_name_eq_package (row : games_tbl_row) (g M m : CStr)
    (hg : ∀ c ∈ g, c ≠ 45) (hM : ∀ c ∈ M, c ≠ 45) (hm : ∀ c ∈ m, c ≠ 45)
    (h : full_name_from_short_name row = package_name g M m) : row.game_name = g := by
  rw [package_name_eq] at h
  unfold full_name_from_short_name at h
  simp only [List.append_assoc, List.cons_append, List.nil_append] at h
  rw [List.append_eq_append_iff] at h
  rcases h with ⟨a, ha, hb⟩ | ⟨c, hc, hd⟩
  · cases a with
    | nil => simpa using ha.symm
    | cons x a =>
      simp only [List.cons_append, List.cons.injEq] at hb
      have : (45 : Nat) ∈ g := by rw [ha, ← hb.1]; simp
      exact absurd rfl (hg 45 this)
  · cases c with
    | nil => simpa using hc
    | cons x c =>
      simp only [List.cons_append, List.cons.injEq] at hd
      have h45 : (45 : Nat) ∈ 118 :: (M ++ 46 :: m) := by
        rw [hd.2]; simp
      simp only [List.mem_cons, List.mem_append] at h45
      rcases h45 with h | h | h | h
      · exact absurd h (by decide)
      · exact absurd rfl (hM 45 h)
      · exact absurd h (by decide)
      · exact absurd rfl (hm 45 h)

/-! ## Theorems: the install policy on a table with no prior record of the game -/

theorem package_name_inj (g MA mA MB mB : CStr) (hA : ∀ c ∈ MA, c ≠ 46)
    (hB : ∀ c ∈ MB, c ≠ 46) (h : package_name g MA mA = package_name g MB mB) :
    MA = MB ∧ mA = mB := by
  rw [package_name_eq, package_name_eq] at h
  have h1 := List.append_cancel_left h
  simp only [List.cons_append, List.cons.injEq, true_and] at h1
  rw [List.append_eq_append_iff] at h1
  rcases h1 with ⟨a, ha, hb⟩ | ⟨c, hc, hd⟩
  · cases a with
    | nil =>
      simp only [List.append_nil, List.nil_append, List.cons.injEq, true_and] at ha hb
      exact ⟨ha.symm, hb⟩
    | cons x a =>
      simp only [List.cons_append, List.cons.injEq] at hb
      have : (46 : Nat) ∈ MB := by rw [ha, ← hb.1]; simp
      exact absurd rfl (hB 46 this)
  · cases c with
    | nil =>
      simp only [List.append_nil, List.nil_append, List.cons.injEq, true_and] at hc hd
      exact ⟨hc, hd.symm⟩
    | cons x c =>
      simp only [List.cons_append, List.cons.injEq] at hd
      have : (46 : Nat) ∈ MA := by rw [hc, ← hd.1]; simp
      exact absurd rfl (hA 46 this)

theorem exists_mem_append_right {α : Type} (R S : List α) (p : α → Prop)
    (hR : ∀ x ∈ R, ¬ p x) : (∃ x ∈ R ++ S, p x) ↔ ∃ x ∈ S, p x := by
  constructor
  · rintro ⟨x, hx, hp⟩
    rw [List.mem_append] at hx
    rcases hx with hx | hx
    · exact absurd hp (hR x hx)
    · exact ⟨x, hx, hp⟩
  · rintro ⟨x, hx, hp⟩
    exact ⟨x, List.mem_append_right R hx, hp⟩

theorem classify_install_append (R S : List games_tbl_row) (user : User) (g : CStr)
    (a b : Nat) (hR : ∀ row ∈ R, ¬ record_matches user g row) :
    classify_install (R ++ S) user g a b = classify_install S user g a b := by
  unfold classify_install
  have e1 := exists_mem_append_right R S
    (fun row => record_matches user g row ∧
      (a < row.major_version ∨ (a = row.major_version ∧ b < row.minor_version)))
    (fun row h hp => hR row h hp.1)
  have e2 := exists_mem_append_right R S
    (fun row => record_matches user g row ∧ a = row.major_version ∧
      b = row.minor_version ∧ row.install_flag = MESH_TABLE_INSTALLED)
    (fun row h hp => hR row h hp.1)
  simp only [e1, e2]

theorem uninstall_match_record (user : User) (g M m : CStr) (row : games_tbl_row)
    (hg : NameOk g) (hM : ∀ c ∈ M, c ≠ 46 ∧ c ≠ 45) (hm : ∀ c ∈ m, c ≠ 45)
    (h : uninstall_match user (package_name g M m) row) : record_matches user g row :=
  ⟨h.1, full_name_eq_package row g M m (fun c hc => (hg.2.1 c hc).1)
    (fun c hc => (hM c hc).2) hm h.2.1⟩

theorem tombstone_rows_append (user : User) (game_name : CStr) (S : List games_tbl_row) :
    ∀ R : List games_tbl_row, (∀ row ∈ R, ¬ uninstall_match user game_name row) →
      tombstone_rows user game_name (R ++ S) = R ++ tombstone_rows user game_name S := by
  intro R
  induction R with
  | nil => intro _; rfl
  | cons row R ih =>
    intro h
    have h1 : ¬ uninstall_match user game_name row := h row (List.mem_cons_self _ _)
    simp only [List.cons_append, tombstone_rows, if_neg h1]
    exact congrArg (List.cons row) (ih (fun r hr => h r (List.mem_cons_of_mem _ hr)))

theorem listing_append (user : User) (R S : List games_tbl_row) :
    listing user (R ++ S) = listing user R ++ listing user S := by
  unfold listing
  rw [List.filter_append, List.map_append]

/-- The result of `mesh_install` for a well-formed package, in terms of the
records before END. -/
theorem mesh_install_package (fs : FS) (f : Flash) (user : User) (junk : games_tbl_row)
    (cmd g M m : CStr) (n fuel : Nat) (hT : TableEnd f n) (hfuel : n < fuel)
    (hg : NameOk g) (hP : PackageOk fs user g M m) :
    mesh_install fs f user junk [cmd, package_name g M m] fuel =
      some (if ∃ row ∈ table_rows f n, uninstall_match user (package_name g M m) row then
          (f, 6)
        else if classify_install (table_rows f n) user g (simple_strtoul M)
            (simple_strtoul m) ≠ 0 then (f, 5)
        else (install_write f (install_row junk g user M m) (slot_offset n), 0)) := by
  obtain ⟨game, hh, hMa, hMi, hcu⟩ := hP.header
  have hv := mesh_valid_install_eq fs f user _ game n fuel hT hfuel hh
  have h10 : ¬ ((1 : Int) = 0) := by decide
  rw [short_game_name_of_package g M m hg, hMa, hMi, hcu, if_neg h10] at hv
  have hex := header_some_exists fs _ game hh
  have hgd : [cmd, package_name g M m].getD 1 [] = package_name g M m := rfl
  have hval : mesh_install_validate_args fs f user [cmd, package_name g M m] fuel =
      some (if ∃ row ∈ table_rows f n, uninstall_match user (package_name g M m) row then 6
        else if classify_install (table_rows f n) user g (simple_strtoul M)
            (simple_strtoul m) ≠ 0 then 5
        else 0) := by
    unfold mesh_install_validate_args
    have h2 : ¬ ([cmd, package_name g M m].length < 2) := by simp
    rw [if_neg h2]
    dsimp only
    rw [hgd, name_length_ok _ hP.name_len, hv, hex]
    by_cases h1 : ∃ row ∈ table_rows f n, uninstall_match user (package_name g M m) row
    · simp [h1]
    · by_cases h3 : classify_install (table_rows f n) user g (simple_strtoul M)
          (simple_strtoul m) = 0
      · simp [h1, h3]
      · simp [h1, h3]
  unfold mesh_install
  rw [hval, hgd, split_package_name g M m hg hP.major_chars hP.minor_chars.1,
    find_table_end_eq f n fuel hT hfuel]
  by_cases h1 : ∃ row ∈ table_rows f n, uninstall_match user (package_name g M m) row
  · simp [h1]
  · by_cases h3 : classify_install (table_rows f n) user g (simple_strtoul M)
        (simple_strtoul m) = 0
    · simp [h1, h3]
    · simp [h1, h3]

/-- `mesh_install` of a well-formed package on a table whose rows are `R ++ S`,
where `R` holds no record of the user and the game. -/
theorem mesh_install_on (fs : FS) (f : Flash) (user : User) (junk : games_tbl_row)
    (cmd g M m : CStr) (n fuel : Nat) (R S : List games_tbl_row) (hT : TableEnd f n)
    (hfuel : n < fuel) (hg : NameOk g) (hP : PackageOk fs user g M m)
    (hrows : table_rows f n = R ++ S) (hR : ∀ row ∈ R, ¬ record_matches user g row) :
    mesh_install fs f user junk [cmd, package_name g M m] fuel =
      some (if ∃ row ∈ S, uninstall_match user (package_name g M m) row then (f, 6)
        else if classify_install S user g (simple_strtoul M) (simple_strtoul m) ≠ 0 then
          (f, 5)
        else (install_write f (install_row junk g user M m) (slot_offset n), 0)) := by
  rw [mesh_install_package fs f user junk cmd g M m n fuel hT hfuel hg hP, hrows,
    classify_install_append R S user g _ _ hR]
  have e := exists_mem_append_right R S (uninstall_match user (package_name g M m))
    (fun row h hp => hR row h
      (uninstall_match_record user g M m row hg hP.major_chars hP.minor_chars.2 hp))
  simp only [e]

/-- `mesh_uninstall` of a package on a table whose rows are `R ++ S`, where `R`
holds no record of the user and the game. -/
theorem mesh_uninstall_on (f : Flash) (user : User) (cmd g M m : CStr) (n fuel : Nat)
    (R S : List games_tbl_row) (hT : TableEnd f n) (hfuel : n < fuel) (hg : NameOk g)
    (hM : ∀ c ∈ M, c ≠ 46 ∧ c ≠ 45) (hm : ∀ c ∈ m, c ≠ 45)
    (hrows : table_rows f n = R ++ S) (hR : ∀ row ∈ R, ¬ record_matches user g row) :
    ∃ f2, mesh_uninstall f user [cmd, package_name g M m] fuel = some (f2, 0) ∧
      TableEnd f2 n ∧
      table_rows f2 n = R ++ tombstone_rows user (package_name g M m) S := by
  refine ⟨_, mesh_uninstall_eq f user _ n fuel hT hfuel, ?_, ?_⟩
  · exact TableEnd_tombstoned f user _ n hT
  · have hgd : [cmd, package_name g M m].getD 1 [] = package_name g M m := rfl
    rw [hgd, tombstoned_rows, hrows]
    exact tombstone_rows_append user _ S R
      (fun row h hp => hR row h (uninstall_match_record user g M m row hg hM hm hp))

theorem mesh_list_on (f : Flash) (user : User) (n fuel : Nat) (R S : List games_tbl_row)
    (hT : TableEnd f n) (hfuel : n < fuel) (hrows : table_rows f n = R ++ S) :
    mesh_list f user fuel = some (listing user R ++ listing user S) := by
  rw [mesh_list_eq f user n fuel hT hfuel, hrows, listing_append]

theorem set_install_flag_full_name (row : games_tbl_row) (v : Nat) :
    full_name_from_short_name (row.set_install_flag v) = full_name_from_short_name row := by
  unfold full_name_from_short_name
  rw [set_install_flag_game_name, set_install_flag_major, set_install_flag_minor]

theorem classify_install_higher (S : List games_tbl_row) (user : User) (g : CStr) (a b : Nat)
    (row : games_tbl_row) (hmem : row ∈ S) (hrm : record_matches user g row)
    (hlt : a < row.major_version ∨ (a = row.major_version ∧ b < row.minor_version)) :
    classify_install S user g a b = 1 := by
  unfold classify_install
  rw [if_pos ⟨row, hmem, hrm, hlt⟩]

/-- An install of a version below that of a record of the user and the game is
rejected as Downgrade, unless an INSTALLED record of the user prints as the
package name. -/
theorem mesh_install_lower_rejected (fs : FS) (f : Flash) (user : User)
    (junk : games_tbl_row) (cmd g M m : CStr) (k fuel : Nat) (hg : NameOk g)
    (hP : PackageOk fs user g M m) (hT : TableEnd f k) (hfuel : k < fuel)
    (hrec : ∃ row ∈ table_rows f k, record_matches user g row ∧
      (simple_strtoul M < row.major_version ∨
        (simple_strtoul M = row.major_version ∧ simple_strtoul m < row.minor_version)))
    (hno : ¬ ∃ row ∈ table_rows f k, uninstall_match user (package_name g M m) row) :
    mesh_install fs f user junk [cmd, package_name g M m] fuel = some (f, 5) := by
  obtain ⟨row, hmem, hrm, hlt⟩ := hrec
  rw [mesh_install_package fs f user junk cmd g M m k fuel hT hfuel hg hP, if_neg hno,
    classify_install_higher _ user g _ _ row hmem hrm hlt]
  rfl

/-- The install, uninstall and reinstall of a version `A` of a game, and the
attempts to install a lower version `B`, on a table with no prior record of
the user and the game. -/
theorem install_scenario (fs : FS) (f : Flash) (user : User) (junk : games_tbl_row)
    (cmd cmdu g MA mA MB mB : CStr) (n fuel : Nat) (hg : NameOk g) (hU : UserOk user)
    (hA : PackageOk fs user g MA mA) (hB : PackageOk fs user g MB mB)
    (hlt : simple_strtoul MB < simple_strtoul MA ∨
      (simple_strtoul MB = simple_strtoul MA ∧ simple_strtoul mB < simple_strtoul mA))
    (hT : TableEnd f n) (hcap : n + 2 ≤ MAX_RECORDS) (hfuel : n + 2 < fuel)
    (hprior : ∀ row ∈ table_rows f n, ¬ record_matches user g row) :
    ∃ f1 f2 f3,
      mesh_install fs f user junk [cmd, package_name g MA mA] fuel = some (f1, 0) ∧
      mesh_list f1 user fuel =
        some (listing user (table_rows f n) ++ [package_name g MA mA]) ∧
      mesh_install fs f1 user junk [cmd, package_name g MA mA] fuel = some (f1, 6) ∧
      mesh_install fs f1 user junk [cmd, package_name g MB mB] fuel = some (f1, 5) ∧
      mesh_uninstall f1 user [cmdu, package_name g MA mA] fuel = some (f2, 0) ∧
      mesh_list f2 user fuel = some (listing user (table_rows f n)) ∧
      mesh_install fs f2 user junk [cmd, package_name g MB mB] fuel = some (f2, 5) ∧
      mesh_install fs f2 user junk [cmd, package_name g MA mA] fuel = some (f3, 0) ∧
      mesh_install fs f3 user junk [cmd, package_name g MB mB] fuel = some (f3, 5) ∧
      mesh_install fs f3 user junk [cmd, package_name g MA mA] fuel = some (f3, 6) ∧
      TableEnd f3 (n + 2) ∧
      table_rows f3 (n + 2) = table_rows f n ++
        [(install_row junk g user MA mA).set_install_flag MESH_TABLE_UNINSTALLED,
          install_row junk g user MA mA] := by
  have hlen := install_row_length junk g user MA mA
  have hu := install_row_user_name junk g user MA mA hg hU
  have hgn := install_row_game_name junk g user MA mA hg hU
  have hma := install_row_major junk g user MA mA hg hU
  have hmi := install_row_minor junk g user MA mA hg hU
  have hfl := install_row_flag junk g user MA mA
  have hfull := install_row_full_name junk g user MA mA hg hU hA.major_print hA.minor_print
  have hrm : record_matches user g (install_row junk g user MA mA) := ⟨hu, hgn⟩
  have hlt1 : simple_strtoul MB < (install_row junk g user MA mA).major_version ∨
      (simple_strtoul MB = (install_row junk g user MA mA).major_version ∧
        simple_strtoul mB < (install_row junk g user MA mA).minor_version) := by
    rw [hma, hmi]; exact hlt
  have hfl0 : ((install_row junk g user MA mA).set_install_flag
      MESH_TABLE_UNINSTALLED).install_flag = MESH_TABLE_UNINSTALLED :=
    set_install_flag_flag _ _ (by rw [hlen]; decide)
  have hrm0 : record_matches user g
      ((install_row junk g user MA mA).set_install_flag MESH_TABLE_UNINSTALLED) :=
    ⟨(set_install_flag_user_name _ _).trans hu, (set_install_flag_game_name _ _).trans hgn⟩
  have hlt0 : simple_strtoul MB < ((install_row junk g user MA mA).set_install_flag
        MESH_TABLE_UNINSTALLED).major_version ∨
      (simple_strtoul MB = ((install_row junk g user MA mA).set_install_flag
          MESH_TABLE_UNINSTALLED).major_version ∧
        simple_strtoul mB < ((install_row junk g user MA mA).set_install_flag
          MESH_TABLE_UNINSTALLED).minor_version) := by
    rw [set_install_flag_major, set_install_flag_minor]; exact hlt1
  have hne : package_name g MA mA ≠ package_name g MB mB := by
    intro h
    obtain ⟨h1, h2⟩ := package_name_inj g MA mA MB mB (fun c hc => (hA.major_chars c hc).1)
      (fun c hc => (hB.major_chars c hc).1) h
    rw [h1, h2] at hlt
    omega
  have hmatchA : uninstall_match user (package_name g MA mA)
      (install_row junk g user MA mA) := ⟨hu, hfull, hfl⟩
  have hnoB : ¬ uninstall_match user (package_name g MB mB)
      (install_row junk g user MA mA) := by
    intro h; exact hne (hfull.symm.trans h.2.1)
  have hno0 : ∀ name, ¬ uninstall_match user name
      ((install_row junk g user MA mA).set_install_flag MESH_TABLE_UNINSTALLED) := by
    intro name h
    have h1 := h.2.2
    rw [hfl0] at h1
    exact absurd h1 (by decide)
  -- the first install
  have hrows0 : table_rows f n = table_rows f n ++ [] := (List.append_nil _).symm
  have hi1 := mesh_install_on fs f user junk cmd g MA mA n fuel (table_rows f n) [] hT
    (by omega) hg hA hrows0 hprior
  have hc0 : classify_install [] user g (simple_strtoul MA) (simple_strtoul mA) = 0 := by
    unfold classify_install; simp
  have hex0 : ¬ ∃ row ∈ ([] : List games_tbl_row),
      uninstall_match user (package_name g MA mA) row := by simp
  rw [if_neg hex0, hc0] at hi1
  obtain ⟨hT1, hrows1⟩ := install_write_rows f (install_row junk g user MA mA) n hT
    (by omega) hlen (by rw [hfl]; decide)
  -- on the table with the record installed
  have hl1 := mesh_list_on _ user (n + 1) fuel (table_rows f n) _ hT1 (by omega) hrows1
  have hlist1 : listing user [install_row junk g user MA mA] = [package_name g MA mA] := by
    unfold listing
    have : listed user (install_row junk g user MA mA) := ⟨hu, hfl⟩
    simp [this, hfull]
  rw [hlist1] at hl1
  have hi2 := mesh_install_on fs _ user junk cmd g MA mA (n + 1) fuel (table_rows f n) _ hT1
    (by omega) hg hA hrows1 hprior
  rw [if_pos ⟨_, List.mem_singleton_self _, hmatchA⟩] at hi2
  have hi3 := mesh_install_on fs _ user junk cmd g MB mB (n + 1) fuel (table_rows f n) _ hT1
    (by omega) hg hB hrows1 hprior
  have hex3 : ¬ ∃ row ∈ [install_row junk g user MA mA],
      uninstall_match user (package_name g MB mB) row := by
    rintro ⟨row, hmem, hm⟩
    rw [List.mem_singleton] at hmem
    subst hmem
    exact hnoB hm
  rw [if_neg hex3, classify_install_higher _ user g _ _ _ (List.mem_singleton_self _) hrm
    hlt1] at hi3
  -- the uninstall
  obtain ⟨f2, hun, hT2, hrows2⟩ := mesh_uninstall_on _ user cmdu g MA mA (n + 1) fuel
    (table_rows f n) _ hT1 (by omega) hg hA.major_chars hA.minor_chars.2 hrows1 hprior
  have htomb : tombstone_rows user (package_name g MA mA) [install_row junk g user MA mA] =
      [(install_row junk g user MA mA).set_install_flag MESH_TABLE_UNINSTALLED] := by
    simp only [tombstone_rows, if_pos hmatchA]
  rw [htomb] at hrows2
  have hl2 := mesh_list_on f2 user (n + 1) fuel (table_rows f n) _ hT2 (by omega) hrows2
  have hlist2 : listing user
      [(install_row junk g user MA mA).set_install_flag MESH_TABLE_UNINSTALLED] = [] := by
    unfold listing
    have : ¬ listed user
        ((install_row junk g user MA mA).set_install_flag MESH_TABLE_UNINSTALLED) := by
      intro h
      have h1 := h.2
      rw [hfl0] at h1
      exact absurd h1 (by decide)
    simp [this]
  rw [hlist2, List.append_nil] at hl2
  have hi4 := mesh_install_on fs f2 user junk cmd g MB mB (n + 1) fuel (table_rows f n) _ hT2
    (by omega) hg hB hrows2 hprior
  have hex4 : ¬ ∃ row ∈
      [(install_row junk g user MA mA).set_install_flag MESH_TABLE_UNINSTALLED],
      uninstall_match user (package_name g MB mB) row := by
    rintro ⟨row, hmem, hm⟩
    rw [List.mem_singleton] at hmem
    subst hmem
    exact hno0 _ hm
  rw [if_neg hex4, classify_install_higher _ user g _ _ _ (List.mem_singleton_self _) hrm0
    hlt0] at hi4
  -- the second install
  have hi5 := mesh_install_on fs f2 user junk cmd g MA mA (n + 1) fuel (table_rows f n) _ hT2
    (by omega) hg hA hrows2 hprior
  have hex5 : ¬ ∃ row ∈
      [(install_row junk g user MA mA).set_install_flag MESH_TABLE_UNINSTALLED],
      uninstall_match user (package_name g MA mA) row := by
    rintro ⟨row, hmem, hm⟩
    rw [List.mem_singleton] at hmem
    subst hmem
    exact hno0 _ hm
  have hc5 : classify_install
      [(install_row junk g user MA mA).set_install_flag MESH_TABLE_UNINSTALLED] user g
      (simple_strtoul MA) (simple_strtoul mA) = 0 := by
    unfold classify_install
    have e1 : ¬ ∃ row ∈
        [(install_row junk g user MA mA).set_install_flag MESH_TABLE_UNINSTALLED],
        record_matches user g row ∧ (simple_strtoul MA < row.major_version ∨
          (simple_strtoul MA = row.major_version ∧
            simple_strtoul mA < row.minor_version)) := by
      rintro ⟨row, hmem, -, h⟩
      rw [List.mem_singleton] at hmem
      subst hmem
      rw [set_install_flag_major, set_install_flag_minor, hma, hmi] at h
      omega
    have e2 : ¬ ∃ row ∈
        [(install_row junk g user MA mA).set_install_flag MESH_TABLE_UNINSTALLED],
        record_matches user g row ∧ simple_strtoul MA = row.major_version ∧
          simple_strtoul mA = row.minor_version ∧
          row.install_flag = MESH_TABLE_INSTALLED := by
      rintro ⟨row, hmem, -, -, -, h⟩
      rw [List.mem_singleton] at hmem
      subst hmem
      rw [hfl0] at h
      exact absurd h (by decide)
    rw [if_neg e1, if_neg e2]
  rw [if_neg hex5, hc5] at hi5
  obtain ⟨hT3, hrows3⟩ := install_write_rows f2 (install_row junk g user MA mA) (n + 1) hT2
    (by omega) hlen (by rw [hfl]; decide)
  rw [hrows2, List.append_assoc] at hrows3
  have hi6 := mesh_install_on fs _ user junk cmd g MB mB (n + 2) fuel (table_rows f n) _ hT3
    (by omega) hg hB hrows3 hprior
  have hex6 : ¬ ∃ row ∈
      [(install_row junk g user MA mA).set_install_flag MESH_TABLE_UNINSTALLED] ++
        [install_row junk g user MA mA],
      uninstall_match user (package_name g MB mB) row := by
    rintro ⟨row, hmem, hm⟩
    simp only [List.singleton_append, List.mem_cons, List.mem_singleton, List.not_mem_nil,
      or_false] at hmem
    rcases hmem with hmem | hmem
    · subst hmem; exact hno0 _ hm
    · subst hmem; exact hnoB hm
  rw [if_neg hex6, classify_install_higher _ user g _ _ _
    (List.mem_append_right _ (List.mem_singleton_self _)) hrm hlt1] at hi6
  have hi7 := mesh_install_on fs _ user junk cmd g MA mA (n + 2) fuel (table_rows f n) _ hT3
    (by omega) hg hA hrows3 hprior
  rw [if_pos ⟨_, List.mem_append_right _ (List.mem_singleton_self _), hmatchA⟩] at hi7
  have h10 : ¬ ((0 : Int) ≠ 0) := by decide
  have h11 : (1 : Int) ≠ 0 := by decide
  simp only [if_neg h10, if_pos h11] at hi1 hi3 hi4 hi5 hi6
  exact ⟨_, f2, _, hi1, hl1, hi2, hi3, hun, hl2, hi4, hi5, hi6, hi7, hT3, hrows3⟩

/-! ## Theorems: the install, uninstall and reinstall scenarios -/

set_option maxRecDepth 100000 in
/-- C12, counterexample: the game `a-b`, whose packages `a-b-v1.0` and
`a-b-v0.9` carry the version of their file name in the header and name `alice`,
on an empty table.  The install of 1.0 returns 0; a second install of 1.0
while the first is still installed returns 0 as well, not 6
(AlreadyInstalled); after the uninstall and the reinstall of 1.0, the install
of 0.9 returns 0, not 5 (Downgrade). -/
theorem mesh_install_policy_dash_name :
    (mesh_get_game_header dash_fs (ascii "a-b-v1.0")).map
      (fun game => (game.major_version, game.minor_version, mesh_check_user game alice)) =
      some (1, 0, 1) ∧
    (mesh_get_game_header dash_fs (ascii "a-b-v0.9")).map
      (fun game => (game.major_version, game.minor_version, mesh_check_user game alice)) =
      some (0, 9, 1) ∧
    TableEnd (table_flash []) 0 ∧
    ((mesh_install dash_fs (table_flash []) alice row_uninit
        (ascii "install" :: ascii "a-b-v1.0" :: []) 5).bind fun r1 =>
      (mesh_install dash_fs r1.1 alice row_uninit
        (ascii "install" :: ascii "a-b-v1.0" :: []) 5).bind fun r1b =>
      (mesh_uninstall r1.1 alice (ascii "uninstall" :: ascii "a-b-v1.0" :: []) 5).bind fun r2 =>
      (mesh_install dash_fs r2.1 alice row_uninit
        (ascii "install" :: ascii "a-b-v1.0" :: []) 5).bind fun r3 =>
      (mesh_install dash_fs r3.1 alice row_uninit
        (ascii "install" :: ascii "a-b-v0.9" :: []) 5).map fun r4 =>
      (r1.2, r1b.2, r2.2, r3.2, r4.2)) = some (0, 0, 0, 0, 0) := by
  decide

/-- C12, amended: for a game `g` whose name is not empty, holds no `-` and is
short enough for the package name `g-v1.0` to fit in 32 bytes, a user with a
name of at most 15 bytes who is named in the headers of `g-v1.0` and `g-v0.9`
(each header with the version of its file name), and a well-formed table with
room for two more records and no record of that user and game: the install of
1.0 returns 0; an install of 1.0 while it is installed is rejected with 6
(AlreadyInstalled); after the uninstall, the install of 1.0 returns 0 again;
then the install of 0.9 is rejected with 5 (Downgrade) and the install of 1.0
with 6, the flash staying as it is; and on every well-formed table that holds
a record of the user and the game at version 1.0 and no INSTALLED record of
the user that prints as `g-v0.9`, the install of 0.9 is rejected with 5. -/
theorem mesh_install_policy (fs : FS) (f : Flash) (user : User) (junk : games_tbl_row)
    (cmd cmdu g : CStr) (n fuel : Nat) (hg : NameOk g) (hU : UserOk user)
    (hlen : (package_name g (ascii "1") (ascii "0")).length ≤ MAX_GAME_LENGTH + 1)
    (h10 : ∃ game, mesh_get_game_header fs (package_name g (ascii "1") (ascii "0")) =
        some game ∧
      game.major_version = 1 ∧ game.minor_version = 0 ∧ mesh_check_user game user = 1)
    (h09 : ∃ game, mesh_get_game_header fs (package_name g (ascii "0") (ascii "9")) =
        some game ∧
      game.major_version = 0 ∧ game.minor_version = 9 ∧ mesh_check_user game user = 1)
    (hT : TableEnd f n) (hcap : n + 2 ≤ MAX_RECORDS) (hfuel : n + 2 < fuel)
    (hprior : ∀ row ∈ table_rows f n, ¬ record_matches user g row) :
    ∃ f1 f2 f3,
      mesh_install fs f user junk [cmd, package_name g (ascii "1") (ascii "0")] fuel =
        some (f1, 0) ∧
      mesh_install fs f1 user junk [cmd, package_name g (ascii "1") (ascii "0")] fuel =
        some (f1, 6) ∧
      mesh_uninstall f1 user [cmdu, package_name g (ascii "1") (ascii "0")] fuel =
        some (f2, 0) ∧
      mesh_install fs f2 user junk [cmd, package_name g (ascii "1") (ascii "0")] fuel =
        some (f3, 0) ∧
      mesh_install fs f3 user junk [cmd, package_name g (ascii "0") (ascii "9")] fuel =
        some (f3, 5) ∧
      mesh_install fs f3 user junk [cmd, package_name g (ascii "1") (ascii "0")] fuel =
        some (f3, 6) ∧
      ∀ (f4 : Flash) (k fuel4 : Nat), TableEnd f4 k → k < fuel4 →
        (∃ row ∈ table_rows f4 k, record_matches user g row ∧
          row.major_version = 1 ∧ row.minor_version = 0) →
        (¬ ∃ row ∈ table_rows f4 k,
          uninstall_match user (package_name g (ascii "0") (ascii "9")) row) →
        mesh_install fs f4 user junk [cmd, package_name g (ascii "0") (ascii "9")] fuel4 =
          some (f4, 5) := by
  have hlen9 : (package_name g (ascii "0") (ascii "9")).length ≤ MAX_GAME_LENGTH + 1 := by
    have e : (package_name g (ascii "0") (ascii "9")).length =
        (package_name g (ascii "1") (ascii "0")).length := by
      simp [package_name, ascii]
    rw [e]; exact hlen
  have hA : PackageOk fs user g (ascii "1") (ascii "0") :=
    ⟨h10, hlen, by decide, by decide, by decide, by decide⟩
  have hB : PackageOk fs user g (ascii "0") (ascii "9") :=
    ⟨h09, hlen9, by decide, by decide, by decide, by decide⟩
  obtain ⟨f1, f2, f3, h1, -, h2, -, h3, -, -, h4, h5, h6, -, -⟩ :=
    install_scenario fs f user junk cmd cmdu g (ascii "1") (ascii "0") (ascii "0") (ascii "9")
      n fuel hg hU hA hB (by decide) hT hcap hfuel hprior
  refine ⟨f1, f2, f3, h1, h2, h3, h4, h5, h6, ?_⟩
  intro f4 k fuel4 hT4 hfuel4 hrec hno
  obtain ⟨row, hmem, hrm, hma, hmi⟩ := hrec
  exact mesh_install_lower_rejected fs f4 user junk cmd g (ascii "0") (ascii "9") k fuel4 hg
    hB hT4 hfuel4 ⟨row, hmem, hrm, Or.inl (by rw [hma]; decide)⟩ hno

set_option maxRecDepth 100000 in
/-- Witness of C12: the game `chess` and the user `alice` on an empty table. -/
theorem mesh_install_policy_witness :
    ∃ f1 f2 f3,
      mesh_install versions_fs (table_flash []) alice row_uninit
        [ascii "install", package_name (ascii "chess") (ascii "1") (ascii "0")] 3 =
        some (f1, 0) ∧
      mesh_install versions_fs f1 alice row_uninit
        [ascii "install", package_name (ascii "chess") (ascii "1") (ascii "0")] 3 =
        some (f1, 6) ∧
      mesh_uninstall f1 alice
        [ascii "uninstall", package_name (ascii "chess") (ascii "1") (ascii "0")] 3 =
        some (f2, 0) ∧
      mesh_install versions_fs f2 alice row_uninit
        [ascii "install", package_name (ascii "chess") (ascii "1") (ascii "0")] 3 =
        some (f3, 0) ∧
      mesh_install versions_fs f3 alice row_uninit
        [ascii "install", package_name (ascii "chess") (ascii "0") (ascii "9")] 3 =
        some (f3, 5) ∧
      mesh_install versions_fs f3 alice row_uninit
        [ascii "install", package_name (ascii "chess") (ascii "1") (ascii "0")] 3 =
        some (f3, 6) ∧
      ∀ (f4 : Flash) (k fuel4 : Nat), TableEnd f4 k → k < fuel4 →
        (∃ row ∈ table_rows f4 k, record_matches alice (ascii "chess") row ∧
          row.major_version = 1 ∧ row.minor_version = 0) →
        (¬ ∃ row ∈ table_rows f4 k,
          uninstall_match alice (package_name (ascii "chess") (ascii "0") (ascii "9")) row) →
        mesh_install versions_fs f4 alice row_uninit
          [ascii "install", package_name (ascii "chess") (ascii "0") (ascii "9")] fuel4 =
          some (f4, 5) :=
  mesh_install_policy versions_fs (table_flash []) alice row_uninit (ascii "install")
    (ascii "uninstall") (ascii "chess") 0 3 (by unfold NameOk; decide) (by unfold UserOk; decide) (by decide)
    ⟨parsed_header versions_fs (ascii "chess-v1.0"), rfl, by decide, by decide, by decide⟩
    ⟨parsed_header versions_fs (ascii "chess-v0.9"), rfl, by decide, by decide, by decide⟩
    (by decide) (by decide) (by decide) (by decide)

/-- C13: on an empty table, with `alice` named in the headers of `chess-v1.2`
and `chess-v1.1` (each header with the version of its file name), the install
of `chess-v1.2` returns 0 and `mesh_list` then prints exactly `chess-v1.2`;
after the uninstall of `chess-v1.2`, `mesh_list` prints nothing; the install
of `chess-v1.1` that follows is rejected with 5 (Downgrade) and leaves the
flash as it is. -/
theorem mesh_scenario_chess (fs : FS) (f : Flash) (junk : games_tbl_row) (cmd cmdu : CStr)
    (fuel : Nat) (hT : TableEnd f 0) (hfuel : 2 < fuel)
    (h12 : ∃ game, mesh_get_game_header fs (ascii "chess-v1.2") = some game ∧
      game.major_version = 1 ∧ game.minor_version = 2 ∧ mesh_check_user game alice = 1)
    (h11 : ∃ game, mesh_get_game_header fs (ascii "chess-v1.1") = some game ∧
      game.major_version = 1 ∧ game.minor_version = 1 ∧ mesh_check_user game alice = 1) :
    ∃ f1 f2,
      mesh_install fs f alice junk [cmd, ascii "chess-v1.2"] fuel = some (f1, 0) ∧
      mesh_list f1 alice fuel = some [ascii "chess-v1.2"] ∧
      mesh_uninstall f1 alice [cmdu, ascii "chess-v1.2"] fuel = some (f2, 0) ∧
      mesh_list f2 alice fuel = some [] ∧
      mesh_install fs f2 alice junk [cmd, ascii "chess-v1.1"] fuel = some (f2, 5) := by
  have e12 : package_name (ascii "chess") (ascii "1") (ascii "2") = ascii "chess-v1.2" := by
    decide
  have e11 : package_name (ascii "chess") (ascii "1") (ascii "1") = ascii "chess-v1.1" := by
    decide
  have hA : PackageOk fs alice (ascii "chess") (ascii "1") (ascii "2") :=
    ⟨by rw [e12]; exact h12, by decide, by decide, by decide, by decide, by decide⟩
  have hB : PackageOk fs alice (ascii "chess") (ascii "1") (ascii "1") :=
    ⟨by rw [e11]; exact h11, by decide, by decide, by decide, by decide, by decide⟩
  obtain ⟨f1, f2, f3, h1, h2, -, -, h3, h4, h5, -⟩ :=
    install_scenario fs f alice junk cmd cmdu (ascii "chess") (ascii "1") (ascii "2") (ascii "1")
      (ascii "1") 0 fuel (by unfold NameOk; decide) (by unfold UserOk; decide) hA hB
      (by decide) hT (by decide) hfuel (by intro row h; cases h)
  rw [e12] at h1 h2 h3
  rw [e11] at h5
  have hl : listing alice (table_rows f 0) = [] := rfl
  rw [hl] at h2 h4
  exact ⟨f1, f2, h1, h2, h3, h4, h5⟩

set_option maxRecDepth 100000 in
/-- Witness of C13: the table that `mesh_init_table` writes on an erased
flash, and a games partition with `chess-v1.2` and `chess-v1.1`. -/
theorem mesh_scenario_chess_witness :
    ∃ f1 f2,
      mesh_install versions_fs (mesh_init_table (fun _ => 255)).1 alice row_uninit
        [ascii "install", ascii "chess-v1.2"] 3 = some (f1, 0) ∧
      mesh_list f1 alice 3 = some [ascii "chess-v1.2"] ∧
      mesh_uninstall f1 alice [ascii "uninstall", ascii "chess-v1.2"] 3 = some (f2, 0) ∧
      mesh_list f2 alice 3 = some [] ∧
      mesh_install versions_fs f2 alice row_uninit [ascii "install", ascii "chess-v1.1"] 3 =
        some (f2, 5) :=
  mesh_scenario_chess versions_fs (mesh_init_table (fun _ => 255)).1 row_uninit
    (ascii "install") (ascii "uninstall") 3 (by decide) (by decide)
    ⟨parsed_header versions_fs (ascii "chess-v1.2"), rfl, by decide, by decide, by decide⟩
    ⟨parsed_header versions_fs (ascii "chess-v1.1"), rfl, by decide, by decide, by decide⟩

/-! ## Theorems: the header of a package -/

theorem decimal_loop_ge (cs : List Nat) : ∀ r, r ≤ decimal_loop cs r := by
  induction cs with
  | nil => intro r; exact Nat.le_refl r
  | cons c cs ih =>
    intro r
    unfold decimal_loop
    exact Nat.le_trans (by omega) (ih _)

theorem strtoul_loop_decimal (cs : List Nat) :
    ∀ r, (∀ c ∈ cs, 48 ≤ c ∧ c ≤ 57) → decimal_loop cs r < 2 ^ 32 →
      strtoul_loop cs r = decimal_loop cs r := by
  induction cs with
  | nil => intro r _ _; rfl
  | cons c cs ih =>
    intro r hd hlt
    have hc := hd c (List.mem_cons_self _ _)
    unfold decimal_loop at hlt
    have hge := decimal_loop_ge cs (r * 10 + (c - 48))
    have hu : u32 (r * 10 + (c - 48)) = r * 10 + (c - 48) := by
      unfold u32
      exact Nat.mod_eq_of_lt (by omega)
    unfold strtoul_loop decimal_loop
    rw [if_pos hc, hu]
    exact ih _ (fun x hx => hd x (List.mem_cons_of_mem _ hx)) hlt

/-- On a version number of a well-formed header, `simple_strtoul` returns the
number that the digits denote. -/
theorem simple_strtoul_decimal (cs : CStr) (h : IsDecimal cs) :
    simple_strtoul cs = decimal_value cs :=
  strtoul_loop_decimal cs 0 h.2.1 h.2.2

theorem getD_append_length (pre s : List Nat) :
    (pre ++ s).getD pre.length 0 = s.getD 0 0 := by
  induction pre with
  | nil => rfl
  | cons a pre ih => simpa using ih

/-- The inner loop of the user copy on a name that fits the entry: it copies
the name and stops at the space or the NUL after it. -/
theorem copy_user_spec (us : CStr) (i : Nat) (post : CStr)
    (hpost : post.getD 0 0 = 32 ∨ post.getD 0 0 = 0) :
    ∀ (u pre : CStr) (fuel j : Nat) (mem : Buf), us = pre ++ (u ++ post) →
      (∀ c ∈ u, c ≠ 32 ∧ c ≠ 0) → j + u.length ≤ MAX_USERNAME_LENGTH → u.length < fuel →
      copy_user us i fuel mem j pre.length =
        (fun a => if 16 * i + j ≤ a ∧ a < 16 * i + j + u.length then
            u.getD (a - (16 * i + j)) 0 else mem a,
          j + u.length, pre.length + u.length) := by
  intro u
  induction u with
  | nil =>
    intro pre fuel j mem hus _ _ hfuel
    obtain ⟨fuel, rfl⟩ : ∃ k, fuel = k + 1 := ⟨fuel - 1, by simp at hfuel; omega⟩
    have hg : us.getD pre.length 0 = post.getD 0 0 := by
      rw [hus, List.nil_append, getD_append_length]
    unfold copy_user
    have hc : ¬ (j ≤ MAX_USERNAME_LENGTH ∧ us.getD pre.length 0 ≠ 32 ∧
        us.getD pre.length 0 ≠ 0) := by
      rw [hg]
      intro hh
      rcases hpost with h | h
      · exact hh.2.1 h
      · exact hh.2.2 h
    rw [if_neg hc]
    simp only [List.length_nil, Nat.add_zero, Prod.mk.injEq, and_true]
    funext a
    have : ¬ (16 * i + j ≤ a ∧ a < 16 * i + j) := by omega
    rw [if_neg this]
  | cons c u ih =>
    intro pre fuel j mem hus hu hj hfuel
    obtain ⟨fuel, rfl⟩ : ∃ k, fuel = k + 1 := ⟨fuel - 1, by simp at hfuel; omega⟩
    have hcu := hu c (List.mem_cons_self _ _)
    have hg : us.getD pre.length 0 = c := by
      rw [hus, getD_append_length]; rfl
    simp only [List.length_cons] at hj hfuel
    unfold copy_user
    have hc : j ≤ MAX_USERNAME_LENGTH ∧ us.getD pre.length 0 ≠ 32 ∧
        us.getD pre.length 0 ≠ 0 := by
      rw [hg]; exact ⟨by omega, hcu.1, hcu.2⟩
    rw [if_pos hc, hg]
    have hus1 : us = (pre ++ [c]) ++ (u ++ post) := by
      rw [hus]; simp
    have h1 := ih (pre ++ [c]) fuel (j + 1) (Function.update mem (16 * i + j) c) hus1
      (fun x hx => hu x (List.mem_cons_of_mem _ hx)) (by omega) (by omega)
    simp only [List.length_append, List.length_singleton] at h1
    rw [h1]
    simp only [List.length_cons, Prod.mk.injEq]
    refine ⟨?_, by omega, by omega⟩
    funext a
    by_cases ha : a = 16 * i + j
    · subst ha
      have h2 : ¬ (16 * i + (j + 1) ≤ 16 * i + j ∧
          16 * i + j < 16 * i + (j + 1) + u.length) := by omega
      have h3 : 16 * i + j ≤ 16 * i + j ∧ 16 * i + j < 16 * i + j + (u.length + 1) := by
        omega
      rw [if_neg h2, if_pos h3, Function.update_same, Nat.sub_self]
      rfl
    · rw [Function.update_noteq ha]
      by_cases hb : 16 * i + (j + 1) ≤ a ∧ a < 16 * i + (j + 1) + u.length
      · have h3 : 16 * i + j ≤ a ∧ a < 16 * i + j + (u.length + 1) := by omega
        rw [if_pos hb, if_pos h3]
        have e : a - (16 * i + j) = (a - (16 * i + (j + 1))) + 1 := by omega
        rw [e]
        rfl
      · have h3 : ¬ (16 * i + j ≤ a ∧ a < 16 * i + j + (u.length + 1)) := by omega
        rw [if_neg hb, if_neg h3]

theorem join_users_cons (u : CStr) (rest : List CStr) :
    join_users (u :: rest) = u ++ (if rest = [] then [] else 32 :: join_users rest) := by
  cases rest with
  | nil => simp [join_users]
  | cons v rest => simp [join_users]

/-- The outer loop of the user copy on a line of names that fit their
entries: entry `i + t` receives the `t`-th name and a NUL after it, and the
entries before `i` stay as they are. -/
theorem copy_users_spec (us : CStr) :
    ∀ (l : List CStr) (pre : CStr) (fuel i : Nat) (mem : Buf),
      us = pre ++ join_users l →
      (∀ u ∈ l, u ≠ [] ∧ (∀ c ∈ u, c ≠ 32 ∧ c ≠ 0) ∧ u.length ≤ MAX_USERNAME_LENGTH) →
      i + l.length ≤ MAX_NUM_USERS → l.length < fuel →
      ∃ mem1, copy_users us fuel mem i pre.length = (mem1, i + l.length) ∧
        (∀ a, a < 16 * i → mem1 a = mem a) ∧
        ∀ t, t < l.length →
          (∀ s, s < (l.getD t []).length →
            mem1 (16 * (i + t) + s) = (l.getD t []).getD s 0) ∧
          mem1 (16 * (i + t) + (l.getD t []).length) = 0 := by
  intro l
  induction l with
  | nil =>
    intro pre fuel i mem hus _ _ hfuel
    obtain ⟨fuel, rfl⟩ : ∃ k, fuel = k + 1 := ⟨fuel - 1, by simp at hfuel; omega⟩
    have hg : us.getD pre.length 0 = 0 := by
      rw [hus, getD_append_length]; rfl
    refine ⟨mem, ?_, fun a _ => rfl, fun t ht => absurd ht (by simp)⟩
    unfold copy_users
    have hc : ¬ (i < MAX_NUM_USERS ∧ us.getD pre.length 0 ≠ 0) := by
      rw [hg]; simp
    rw [if_neg hc]
    rfl
  | cons u rest ih =>
    intro pre fuel i mem hus hl hi hfuel
    obtain ⟨fuel, rfl⟩ : ∃ k, fuel = k + 1 := ⟨fuel - 1, by simp at hfuel; omega⟩
    obtain ⟨hne, hchars, hlen⟩ := hl u (List.mem_cons_self _ _)
    simp only [List.length_cons] at hi hfuel
    rw [join_users_cons] at hus
    have hpost : (if rest = [] then [] else 32 :: join_users rest).getD 0 0 = 32 ∨
        (if rest = [] then ([] : List Nat) else 32 :: join_users rest).getD 0 0 = 0 := by
      by_cases hr : rest = []
      · right; rw [if_pos hr]; rfl
      · left; rw [if_neg hr]; rfl
    have hcu := copy_user_spec us i _ hpost u pre (MAX_USERNAME_LENGTH + 2) 0 mem hus hchars
      (by omega) (by unfold MAX_USERNAME_LENGTH at *; omega)
    have hhead : us.getD pre.length 0 ≠ 0 := by
      rw [hus, getD_append_length]
      cases u with
      | nil => exact absurd rfl hne
      | cons c u => exact (hchars c (List.mem_cons_self _ _)).2
    have hnext : us.getD (pre.length + u.length) 0 =
        (if rest = [] then ([] : List Nat) else 32 :: join_users rest).getD 0 0 := by
      have e : us = (pre ++ u) ++ (if rest = [] then [] else 32 :: join_users rest) := by
        rw [hus]; simp
      rw [← List.length_append, e, getD_append_length]
    have hus1 : us = (pre ++ u ++ (if rest = [] then [] else [32])) ++ join_users rest := by
      rw [hus]
      by_cases hr : rest = []
      · subst hr; simp [join_users]
      · simp [hr]
    have hsp : (if us.getD (pre.length + u.length) 0 = 32 then pre.length + u.length + 1
        else pre.length + u.length) =
        (pre ++ u ++ (if rest = [] then [] else [32])).length := by
      rw [hnext]
      by_cases hr : rest = []
      · simp [hr]
      · simp [hr, Nat.add_assoc]
    obtain ⟨mem1, hrec, hframe, hent⟩ := ih _ fuel (i + 1)
      (Function.update
        (fun a => if 16 * i + 0 ≤ a ∧ a < 16 * i + 0 + u.length then
          u.getD (a - (16 * i + 0)) 0 else mem a) (16 * i + (0 + u.length)) 0) hus1
      (fun x hx => hl x (List.mem_cons_of_mem _ hx)) (by omega) (by omega)
    refine ⟨mem1, ?_, ?_, ?_⟩
    · unfold copy_users
      have hc : i < MAX_NUM_USERS ∧ us.getD pre.length 0 ≠ 0 := ⟨by omega, hhead⟩
      rw [if_pos hc]
      simp only [hcu, hsp]
      rw [hrec]
      simp only [List.length_cons, Prod.mk.injEq, true_and]
      omega
    · intro a ha
      rw [hframe a (by omega), Function.update_noteq (by omega)]
      have : ¬ (16 * i + 0 ≤ a ∧ a < 16 * i + 0 + u.length) := by omega
      rw [if_neg this]
    · intro t ht
      unfold MAX_USERNAME_LENGTH at hlen
      cases t with
      | zero =>
        simp only [List.getD_cons_zero, Nat.add_zero]
        constructor
        · intro s hs
          rw [hframe _ (by omega), Function.update_noteq (by omega)]
          have : 16 * i + 0 ≤ 16 * i + s ∧ 16 * i + s < 16 * i + 0 + u.length := by omega
          rw [if_pos this]
          congr 1
          omega
        · rw [hframe _ (by omega)]
          rw [Function.update_apply, if_pos (by omega)]
      | succ t =>
        simp only [List.length_cons] at ht
        have h := hent t (by omega)
        simp only [List.getD_cons_succ]
        have e : i + (t + 1) = i + 1 + t := by omega
        rw [e]
        exact h

/-- The string at an entry of the user array that holds a name and a NUL
after it. -/
theorem user_at_of_mem (game : Game) (i : Nat) (u : CStr) (hi : i < MAX_NUM_USERS)
    (hu : ∀ c ∈ u, c ≠ 0) (hlen : u.length ≤ MAX_USERNAME_LENGTH)
    (hmem : ∀ s, s < u.length → game.users (16 * i + s) = u.getD s 0)
    (hz : game.users (16 * i + u.length) = 0) : game.user_at i = u := by
  unfold MAX_NUM_USERS at hi
  unfold MAX_USERNAME_LENGTH at hlen
  unfold Game.user_at
  have e1 : 80 - 16 * i = ((80 - 16 * i - u.length - 1) + 1) + u.length := by omega
  have e2 : (List.range' (16 * i) u.length).map game.users = u := by
    apply List.ext_getElem
    · simp
    · intro n h1 h2
      simp only [List.getElem_map, List.getElem_range'_1]
      rw [hmem n h2]
      exact List.getD_eq_getElem _ _ h2
  rw [e1, ← List.range'_append_1, ← List.range'_append_1, List.map_append, List.map_append,
    e2]
  have e3 : (List.range' (16 * i + u.length) 1).map game.users = [0] := by
    simp [List.range', hz]
  rw [e3, List.append_assoc, List.append_assoc, List.singleton_append]
  exact cstr_append_zero u _ hu

theorem cstr_append (a b : List Nat) (ha : ∀ c ∈ a, c ≠ 0) : cstr (a ++ b) = a ++ cstr b := by
  induction a with
  | nil => rfl
  | cons x a ih =>
    have hx : x ≠ 0 := ha x (List.mem_cons_self _ _)
    have h := ih (fun c hc => ha c (List.mem_cons_of_mem _ hc))
    unfold cstr at h ⊢
    simp only [List.cons_append, List.takeWhile_cons, hx, ne_eq, not_false_eq_true,
      decide_True, ite_true, h]

theorem mem_join_users (c : Nat) :
    ∀ l : List CStr, c ∈ join_users l → c = 32 ∨ ∃ u ∈ l, c ∈ u := by
  intro l
  induction l with
  | nil => intro h; cases h
  | cons u rest ih =>
    intro h
    rw [join_users_cons, List.mem_append] at h
    rcases h with h | h
    · exact Or.inr ⟨u, List.mem_cons_self _ _, h⟩
    · by_cases hr : rest = []
      · rw [if_pos hr] at h; cases h
      · rw [if_neg hr, List.mem_cons] at h
        rcases h with h | h
        · exact Or.inl h
        · rcases ih h with h1 | ⟨v, hv, hc⟩
          · exact Or.inl h1
          · exact Or.inr ⟨v, List.mem_cons_of_mem _ hv, hc⟩

theorem join_users_ne_nil (l : List CStr) (hl : l ≠ []) (hu : ∀ u ∈ l, u ≠ []) :
    join_users l ≠ [] := by
  cases l with
  | nil => exact absurd rfl hl
  | cons u rest =>
    rw [join_users_cons]
    intro h
    exact hu u (List.mem_cons_self _ _) (List.append_eq_nil.mp h).1

theorem header_users_chars (users : List CStr) (hus : HeaderUsersOk users) :
    ∀ c ∈ join_users users, c ≠ 10 ∧ c ≠ 0 := by
  intro c hc
  rcases mem_join_users c users hc with h | ⟨u, hu, hcu⟩
  · subst h; exact ⟨by decide, by decide⟩
  · have := (hus.2.2 u hu).2.1 c hcu
    exact ⟨this.2.1, this.2.2⟩

/-- The buffer that `mesh_get_game_header` parses for a well-formed header:
the three lines, and of what follows them the bytes before the first NUL. -/
theorem header_buffer (M m N : CStr) (users : List CStr) (rest : List Nat)
    (hM : IsDecimal M) (hm : IsDecimal m) (hN : HeaderNameOk N)
    (hus : HeaderUsersOk users) :
    cstr (header_bytes M m N users ++ rest) =
      ascii "version" ++ 58 :: (M ++ 46 :: (m ++ 10 :: (ascii "name" ++ 58 :: (N ++ 10 ::
        (ascii "users" ++ 58 :: (join_users users ++ 10 :: cstr rest)))))) := by
  have e1 : ascii "version:" = ascii "version" ++ [58] := by decide
  have e2 : ascii "name:" = ascii "name" ++ [58] := by decide
  have e3 : ascii "users:" = ascii "users" ++ [58] := by decide
  have h1 : ∀ c ∈ ascii "version:", c ≠ 0 := by decide
  have h2 : ∀ c ∈ ascii "name:", c ≠ 0 := by decide
  have h3 : ∀ c ∈ ascii "users:", c ≠ 0 := by decide
  have hz : ∀ c ∈ header_bytes M m N users, c ≠ 0 := by
    intro c hc
    unfold header_bytes at hc
    simp only [List.mem_append, List.mem_singleton] at hc
    rcases hc with (((((((((h | h) | h) | h) | h) | h) | h) | h) | h) | h) | h
    · exact h1 c h
    · have := hM.2.1 c h; omega
    · omega
    · have := hm.2.1 c h; omega
    · omega
    · exact h2 c h
    · exact (hN.2.1 c h).2
    · omega
    · exact h3 c h
    · exact (header_users_chars users hus c h).2
    · omega
  rw [cstr_append _ _ hz]
  unfold header_bytes
  rw [e1, e2, e3]
  simp only [List.append_assoc, List.cons_append, List.nil_append, List.singleton_append]

/-- C20: for every well-formed three-line header `version:M.m`, `name:N`,
`users:u1 u2 ...` (version numbers in decimal digits that fit an
`unsigned int`; a name of 1 to 31 bytes without newline; 1 to 5 users, each of
1 to 15 bytes without space and newline), whatever follows the three lines,
`mesh_get_game_header` yields the major version `M`, the minor version `m`, the
name `N`, the number of users and the users in their order of appearance. -/
theorem mesh_get_game_header_well_formed (fs : FS) (game_name M m N : CStr)
    (users : List CStr) (rest : List Nat)
    (hfs : fs game_name = some (header_bytes M m N users ++ rest))
    (hM : IsDecimal M) (hm : IsDecimal m) (hN : HeaderNameOk N)
    (hus : HeaderUsersOk users) :
    ∃ game, mesh_get_game_header fs game_name = some game ∧
      game.major_version = decimal_value M ∧ game.minor_version = decimal_value m ∧
      game.name = N ∧ game.num_users = users.length ∧
      ∀ i, i < users.length → game.user_at i = users.getD i [] := by
  have hv : ∀ c ∈ ascii "version", c ∉ [58] := by decide
  have hn : ∀ c ∈ ascii "name", c ∉ [58] := by decide
  have hu : ∀ c ∈ ascii "users", c ∉ [58] := by decide
  have hMd : ∀ c ∈ M, c ∉ [46] := by
    intro c hc h
    rw [List.mem_singleton] at h
    have := hM.2.1 c hc
    omega
  have hmd : ∀ c ∈ m, c ∉ [10] := by
    intro c hc h
    rw [List.mem_singleton] at h
    have := hm.2.1 c hc
    omega
  have hNd : ∀ c ∈ N, c ∉ [10] := by
    intro c hc h
    rw [List.mem_singleton] at h
    exact (hN.2.1 c hc).1 h
  have hJd : ∀ c ∈ join_users users, c ∉ [10] := by
    intro c hc h
    rw [List.mem_singleton] at h
    exact (header_users_chars users hus c hc).1 h
  have hJne := join_users_ne_nil users hus.1 (fun u hu => (hus.2.2 u hu).1)
  obtain ⟨mem1, hrec, -, hent⟩ := copy_users_spec (join_users users) users []
    (MAX_NUM_USERS + 1) 0 (fun _ => 0) rfl
    (fun u hu => ⟨(hus.2.2 u hu).1,
      fun c hc => ⟨((hus.2.2 u hu).2.1 c hc).1, ((hus.2.2 u hu).2.1 c hc).2.2⟩,
      (hus.2.2 u hu).2.2⟩)
    (by have := hus.2.1; omega) (by have := hus.2.1; omega)
  simp only [List.length_nil, Nat.zero_add] at hrec hent
  unfold mesh_get_game_header
  rw [hfs]
  dsimp only
  rw [header_buffer M m N users rest hM hm hN hus,
    strtok_token (ascii "version") 58 _ [58] (by decide) hv (List.mem_singleton_self _)]
  dsimp only
  rw [strtok_token M 46 _ [46] hM.1 hMd (List.mem_singleton_self _)]
  dsimp only
  rw [strtok_token m 10 _ [10] hm.1 hmd (List.mem_singleton_self _)]
  dsimp only
  rw [strtok_token (ascii "name") 58 _ [58] (by decide) hn (List.mem_singleton_self _)]
  dsimp only
  rw [strtok_token N 10 _ [10] hN.1 hNd (List.mem_singleton_self _)]
  dsimp only
  rw [strtok_token (ascii "users") 58 _ [58] (by decide) hu (List.mem_singleton_self _)]
  dsimp only
  rw [strtok_token (join_users users) 10 _ [10] hJne hJd (List.mem_singleton_self _)]
  dsimp only
  rw [hrec]
  refine ⟨_, rfl, simple_strtoul_decimal M hM, simple_strtoul_decimal m hm,
    List.take_of_length_le hN.2.2, rfl, ?_⟩
  intro i hi
  have hui := hus.2.2 (users.getD i []) (by
    rw [List.getD_eq_getElem _ _ hi]; exact List.getElem_mem _)
  exact user_at_of_mem _ i _ (by have := hus.2.1; omega)
    (fun c hc => (hui.2.1 c hc).2.2) hui.2.2 (hent i hi).1 (hent i hi).2

set_option maxRecDepth 100000 in
/-- Witness of C20: the header `version:1.3`, `name:Chess`, `users:alice bob`
yields major version 1, minor version 3, the name `Chess`, two users, and the
users `alice` and `bob` in this order. -/
theorem mesh_get_game_header_well_formed_witness :
    (mesh_get_game_header header_fs (ascii "chess")).map
      (fun game => (game.major_version, game.minor_version, game.name, game.num_users,
        game.user_at 0, game.user_at 1)) =
      some (1, 3, ascii "Chess", 2, ascii "alice", ascii "bob") ∧
    ∃ game, mesh_get_game_header header_fs (ascii "chess") = some game ∧
      game.major_version = 1 ∧ game.minor_version = 3 ∧
      game.name = ascii "Chess" ∧ game.num_users = 2 ∧
      ∀ i, i < 2 → game.user_at i = [ascii "alice", ascii "bob"].getD i [] :=
  ⟨by decide,
    mesh_get_game_header_well_formed header_fs (ascii "chess") (ascii "1") (ascii "3")
      (ascii "Chess") [ascii "alice", ascii "bob"] [127, 69] (by decide)
      (by unfold IsDecimal; decide) (by unfold IsDecimal; decide)
      (by unfold HeaderNameOk; decide) (by unfold HeaderUsersOk; decide)⟩

/-! ## Theorems: the pages of a write -/

theorem write_page_high (data : Buf) (loc len sp : Nat) (s : WriteState) (i a : Nat)
    (ha : FLASH_SIZE ≤ a) : (write_page data loc len sp s i).flash a = s.flash a := by
  unfold write_page sf_update
  dsimp only
  split
  · rename_i h
    have h1 : ¬ (u32 (i * FLASH_PAGE_SIZE) ≤ a ∧ a < u32 (i * FLASH_PAGE_SIZE) + FLASH_PAGE_SIZE) := by
      omega
    simp only [if_neg h1]
  · rfl

theorem write_fold_high (data : Buf) (loc len sp a : Nat) (ha : FLASH_SIZE ≤ a) :
    ∀ (pages : List Nat) (s : WriteState),
      (pages.foldl (write_page data loc len sp) s).flash a = s.flash a := by
  intro pages
  induction pages with
  | nil => intro s; rfl
  | cons i pages ih =>
    intro s
    rw [List.foldl_cons, ih, write_page_high data loc len sp s i a ha]

/-- A write changes no byte at or after the end of the written range. -/
theorem mesh_flash_write_after (f : Flash) (data : Buf) (loc len a : Nat)
    (ha : loc + len ≤ a) : (mesh_flash_write f data loc len).flash a = f a := by
  by_cases hlen : 1 ≤ len
  · by_cases hin : loc + len ≤ FLASH_SIZE
    · rw [mesh_flash_write_flash f data loc len hlen hin]
      have h : ¬ (loc ≤ a ∧ a < loc + len) := by omega
      simp only [written, if_neg h]
    · have h : ¬ (len < 1) := by omega
      simp only [mesh_flash_write, if_neg h]
      exact write_fold_high data loc len _ a (by omega) _ _
  · have h : len < 1 := by omega
    simp only [mesh_flash_write, if_pos h]

theorem update_calls_page (i : Nat) :
    update_calls (page_calls i) = [(u32 (i * FLASH_PAGE_SIZE), FLASH_PAGE_SIZE)] := by
  rfl

theorem update_calls_append (l1 l2 : List SfCall) :
    update_calls (l1 ++ l2) = update_calls l1 ++ update_calls l2 := by
  unfold update_calls
  rw [List.filter_append, List.map_append]

theorem update_calls_pages (pages : List Nat) :
    update_calls (pages.flatMap page_calls) =
      pages.map (fun i => (u32 (i * FLASH_PAGE_SIZE), FLASH_PAGE_SIZE)) := by
  induction pages with
  | nil => rfl
  | cons i pages ih =>
    rw [List.flatMap_cons, update_calls_append, ih, update_calls_page]
    rfl

/-- C24: the pages of `mesh_flash_write`.  A write of fewer than one byte
issues no command, returns 0 and leaves the flash as it is.  A write of
`len >= 1` bytes at `offset` with `offset + len < 2^32` issues exactly
`(offset + len) / 65536 - offset / 65536 + 1` updates, one for every page
index from `offset / 65536` to `(offset + len) / 65536` in ascending order,
each at the address `65536 * index` with length 65536; when `offset + len` is
a multiple of 65536 the last of them is the update of the page that begins at
`offset + len`, and no byte at or after `offset + len` is changed. -/
theorem mesh_flash_write_pages (f : Flash) (data : Buf) (offset len : Nat) :
    (len < 1 →
      (mesh_flash_write f data offset len).log = [] ∧
      (mesh_flash_write f data offset len).ret = 0 ∧
      (mesh_flash_write f data offset len).flash = f) ∧
    (1 ≤ len → offset + len < 2 ^ 32 →
      update_calls (mesh_flash_write f data offset len).log =
        (List.range' (offset / FLASH_PAGE_SIZE)
          ((offset + len) / FLASH_PAGE_SIZE - offset / FLASH_PAGE_SIZE + 1)).map
          (fun i => (FLASH_PAGE_SIZE * i, FLASH_PAGE_SIZE)) ∧
      (update_calls (mesh_flash_write f data offset len).log).length =
        (offset + len) / FLASH_PAGE_SIZE - offset / FLASH_PAGE_SIZE + 1 ∧
      ((offset + len) % FLASH_PAGE_SIZE = 0 →
        (update_calls (mesh_flash_write f data offset len).log).getLast? =
          some (offset + len, FLASH_PAGE_SIZE) ∧
        ∀ a, offset + len ≤ a → (mesh_flash_write f data offset len).flash a = f a)) := by
  constructor
  · intro h
    simp only [mesh_flash_write, if_pos h, and_self]
  · intro hlen h32
    have hu : u32 (offset + len) = offset + len := by
      unfold u32; exact Nat.mod_eq_of_lt h32
    have hle : offset / FLASH_PAGE_SIZE ≤ (offset + len) / FLASH_PAGE_SIZE :=
      Nat.div_le_div_right (Nat.le_add_right _ _)
    have hcount : (offset + len) / FLASH_PAGE_SIZE + 1 - offset / FLASH_PAGE_SIZE =
        (offset + len) / FLASH_PAGE_SIZE - offset / FLASH_PAGE_SIZE + 1 := by omega
    have hcalls : update_calls (mesh_flash_write f data offset len).log =
        (List.range' (offset / FLASH_PAGE_SIZE)
          ((offset + len) / FLASH_PAGE_SIZE - offset / FLASH_PAGE_SIZE + 1)).map
          (fun i => (FLASH_PAGE_SIZE * i, FLASH_PAGE_SIZE)) := by
      rw [mesh_flash_write_log f data offset len hlen, update_calls_pages, hu, hcount]
      apply List.map_congr_left
      intro i hi
      rw [List.mem_range'_1] at hi
      have hi2 : i ≤ (offset + len) / FLASH_PAGE_SIZE := by omega
      have hi3 : i * FLASH_PAGE_SIZE ≤ offset + len :=
        Nat.le_trans (Nat.mul_le_mul_right _ hi2) (Nat.div_mul_le_self _ _)
      have hi4 : u32 (i * FLASH_PAGE_SIZE) = i * FLASH_PAGE_SIZE := by
        unfold u32; exact Nat.mod_eq_of_lt (by omega)
      rw [hi4, Nat.mul_comm]
    refine ⟨hcalls, ?_, ?_⟩
    · rw [hcalls, List.length_map, List.length_range']
    · intro hmod
      refine ⟨?_, fun a ha => mesh_flash_write_after f data offset len a ha⟩
      rw [hcalls, List.range'_concat, List.map_append, List.map_singleton,
        List.getLast?_concat]
      have e : offset / FLASH_PAGE_SIZE + 1 *
          ((offset + len) / FLASH_PAGE_SIZE - offset / FLASH_PAGE_SIZE) =
          (offset + len) / FLASH_PAGE_SIZE := by omega
      rw [e, Nat.mul_div_cancel' (Nat.dvd_of_mod_eq_zero hmod)]

set_option maxRecDepth 100000 in
/-- Witness of C24: a write of 65536 bytes at offset 65536 ends at a multiple
of 65536 and issues two updates, of the page at 65536 and of the page at
131072; an empty write issues nothing. -/
theorem mesh_flash_write_pages_witness :
    ((mesh_flash_write (fun _ => 255) (fun j => j % 251) 65536 0).log = [] ∧
      (mesh_flash_write (fun _ => 255) (fun j => j % 251) 65536 0).ret = 0 ∧
      (mesh_flash_write (fun _ => 255) (fun j => j % 251) 65536 0).flash = fun _ => 255) ∧
    (update_calls (mesh_flash_write (fun _ => 255) (fun j => j % 251) 65536 65536).log =
        [(65536, 65536), (131072, 65536)] ∧
      (update_calls (mesh_flash_write (fun _ => 255) (fun j => j % 251) 65536 65536).log).length
        = 2 ∧
      (update_calls (mesh_flash_write (fun _ => 255) (fun j => j % 251) 65536
        65536).log).getLast? = some (131072, 65536) ∧
      ∀ a, 131072 ≤ a →
        (mesh_flash_write (fun _ => 255) (fun j => j % 251) 65536 65536).flash a = 255) :=
  ⟨(mesh_flash_write_pages (fun _ => 255) (fun j => j % 251) 65536 0).1 (by decide),
    ((mesh_flash_write_pages (fun _ => 255) (fun j => j % 251) 65536 65536).2
      (by decide) (by decide)).1,
    ((mesh_flash_write_pages (fun _ => 255) (fun j => j % 251) 65536 65536).2
      (by decide) (by decide)).2.1,
    ((mesh_flash_write_pages (fun _ => 255) (fun j => j % 251) 65536 65536).2
      (by decide) (by decide)).2.2 (by decide)⟩

/-! ## Theorems: a duplicate reported as a downgrade -/

set_option maxRecDepth 100000 in
/-- C25, counterexample: `chess` 1.0 is installed for `alice`, and the package
`long_chess_name` (33 bytes, header version 1.0, `alice` authorized) exists.
`mesh_game_installed` is 0 for that name and `mesh_check_downgrade` returns 2;
`mesh_valid_install` returns 3, and `mesh_install_validate_args` returns 2
(name too long), not 5. -/
theorem mesh_validate_duplicate_long_name :
    mesh_game_exists duplicate_fs long_chess_name = 1 ∧
    (mesh_get_game_header duplicate_fs long_chess_name).map
      (fun game => (game.major_version, game.minor_version, mesh_check_user game alice)) =
      some (1, 0, 1) ∧
    mesh_game_installed (table_flash [chess_1_0]) alice long_chess_name 2 = some 0 ∧
    mesh_check_downgrade (table_flash [chess_1_0]) alice long_chess_name 1 0 2 = some 2 ∧
    mesh_valid_install duplicate_fs (table_flash [chess_1_0]) alice long_chess_name 2 =
      some 3 ∧
    mesh_install_validate_args duplicate_fs (table_flash [chess_1_0]) alice
      [ascii "install", long_chess_name] 2 = some 2 := by
  decide

/-- C25, amended: whenever the package exists with a header that names the
user, `mesh_game_installed(name)` is 0 and `mesh_check_downgrade` returns 2,
`mesh_valid_install` returns 3, not 4, and for a name of at most
`MAX_GAME_LENGTH + 1` (32) bytes `mesh_install_validate_args` returns 5;
`mesh_valid_install` returns 4 only when `mesh_game_installed` is not 0. -/
theorem mesh_valid_install_duplicate (fs : FS) (f : Flash) (user : User)
    (cmd game_name : CStr) (rest : List CStr) (game : Game) (fuel : Nat)
    (hh : mesh_get_game_header fs game_name = some game)
    (hu : mesh_check_user game user = 1)
    (hi : mesh_game_installed f user game_name fuel = some 0)
    (hd : mesh_check_downgrade f user game_name game.major_version game.minor_version fuel =
      some 2) :
    mesh_game_exists fs game_name = 1 ∧
    mesh_valid_install fs f user game_name fuel = some 3 ∧
    (game_name.length ≤ MAX_GAME_LENGTH + 1 →
      mesh_install_validate_args fs f user (cmd :: game_name :: rest) fuel = some 5) ∧
    ∀ (fs1 : FS) (f1 : Flash) (user1 : User) (name1 : CStr) (fuel1 : Nat),
      mesh_valid_install fs1 f1 user1 name1 fuel1 = some 4 →
      ∃ v, mesh_game_installed f1 user1 name1 fuel1 = some v ∧ v ≠ 0 := by
  have hex := header_some_exists fs game_name game hh
  have h10 : ¬ ((1 : Int) = 0) := by decide
  have h00 : ¬ ((0 : Int) ≠ 0) := by decide
  have h20 : (2 : Int) ≠ 0 := by decide
  have hv : mesh_valid_install fs f user game_name fuel = some 3 := by
    unfold mesh_valid_install
    rw [hex, if_neg h10, hh]
    dsimp only
    rw [hu, if_neg h10, hi]
    dsimp only
    rw [if_neg h00, hd]
    dsimp only
    rw [if_pos h20]
  refine ⟨hex, hv, ?_, ?_⟩
  · intro hlen
    unfold mesh_install_validate_args
    have h2 : ¬ ((cmd :: game_name :: rest).length < 2) := by simp
    have hgd : (cmd :: game_name :: rest).getD 1 [] = game_name := rfl
    rw [if_neg h2]
    dsimp only
    rw [hgd, name_length_ok _ hlen, hv]
    simp
  · intro fs1 f1 user1 name1 fuel1 h
    unfold mesh_valid_install at h
    split at h
    · cases h
    · split at h
      · cases h
      · split at h
        · cases h
        · split at h
          · cases h
          · rename_i installed hinst
            split at h
            · rename_i hne
              exact ⟨installed, hinst, hne⟩
            · split at h
              · cases h
              · split at h
                · cases h
                · cases h

set_option maxRecDepth 100000 in
/-- Witness of C25: `chess` 1.0 is installed for `alice` and the package
`chess-v1.00` (header version 1.0) is requested. -/
theorem mesh_valid_install_duplicate_witness :
    mesh_game_exists duplicate_fs (ascii "chess-v1.00") = 1 ∧
    mesh_valid_install duplicate_fs (table_flash [chess_1_0]) alice (ascii "chess-v1.00") 2 =
      some 3 ∧
    mesh_install_validate_args duplicate_fs (table_flash [chess_1_0]) alice
      [ascii "install", ascii "chess-v1.00"] 2 = some 5 :=
  have h := mesh_valid_install_duplicate duplicate_fs (table_flash [chess_1_0]) alice
    (ascii "install") (ascii "chess-v1.00") []
    (parsed_header duplicate_fs (ascii "chess-v1.00")) 2 rfl (by decide) (by decide)
    (by decide)
  ⟨h.1, h.2.1, h.2.2.1 (by decide)⟩

/-! ## Theorems: headers that are not well formed -/

set_option maxRecDepth 100000 in
/-- C23, counterexample: the header of the package `noname` has no name line.
`mesh_get_game_header` produces a header all the same: version 1.0, the name
`alice bob` (the content of the users line) and the single user `42` (taken
from the line after). -/
theorem mesh_get_game_header_missing_name_line :
    malformed_fs (ascii "noname") =
      some (ascii "version:1.0\nusers:alice bob\nsize:42\n") ∧
    (mesh_get_game_header malformed_fs (ascii "noname")).map
      (fun game => (game.major_version, game.minor_version, game.name, game.num_users,
        game.user_at 0)) =
      some (1, 0, ascii "alice bob", 1, ascii "42") := by
  decide

/-- C23, amended: `mesh_get_game_header` takes its fields by position.  For
every file whose bytes before the first NUL are seven tokens ended in turn by
`:`, `.`, newline, `:`, newline, `:` and newline, it produces a header: the
versions are read from the second and the third token, the name is the fifth
token (its first `MAX_GAME_LENGTH` bytes), the users are copied from the
seventh; the first, fourth and sixth token are not looked at. -/
theorem mesh_get_game_header_positional (fs : FS) (game_name : CStr) (content : List Nat)
    (t0 T1 T2 t3 T4 t5 T6 rest : CStr)
    (hfs : fs game_name = some content)
    (hc : cstr content = t0 ++ 58 :: (T1 ++ 46 :: (T2 ++ 10 :: (t3 ++ 58 :: (T4 ++ 10 ::
      (t5 ++ 58 :: (T6 ++ 10 :: rest)))))))
    (h0 : t0 ≠ [] ∧ 58 ∉ t0) (h1 : T1 ≠ [] ∧ 46 ∉ T1) (h2 : T2 ≠ [] ∧ 10 ∉ T2)
    (h3 : t3 ≠ [] ∧ 58 ∉ t3) (h4 : T4 ≠ [] ∧ 10 ∉ T4) (h5 : t5 ≠ [] ∧ 58 ∉ t5)
    (h6 : T6 ≠ [] ∧ 10 ∉ T6) :
    ∃ game, mesh_get_game_header fs game_name = some game ∧
      game.major_version = simple_strtoul T1 ∧ game.minor_version = simple_strtoul T2 ∧
      game.name = T4.take MAX_GAME_LENGTH ∧
      game.users = (copy_users T6 (MAX_NUM_USERS + 1) (fun _ => 0) 0 0).1 ∧
      game.num_users = (copy_users T6 (MAX_NUM_USERS + 1) (fun _ => 0) 0 0).2 := by
  have hd : ∀ (tok : CStr) (d : Nat), d ∉ tok → ∀ c ∈ tok, c ∉ [d] := by
    intro tok d h c hc hcd
    rw [List.mem_singleton] at hcd
    subst hcd
    exact h hc
  unfold mesh_get_game_header
  rw [hfs]
  dsimp only
  rw [hc, strtok_token t0 58 _ [58] h0.1 (hd _ _ h0.2) (List.mem_singleton_self _)]
  dsimp only
  rw [strtok_token T1 46 _ [46] h1.1 (hd _ _ h1.2) (List.mem_singleton_self _)]
  dsimp only
  rw [strtok_token T2 10 _ [10] h2.1 (hd _ _ h2.2) (List.mem_singleton_self _)]
  dsimp only
  rw [strtok_token t3 58 _ [58] h3.1 (hd _ _ h3.2) (List.mem_singleton_self _)]
  dsimp only
  rw [strtok_token T4 10 _ [10] h4.1 (hd _ _ h4.2) (List.mem_singleton_self _)]
  dsimp only
  rw [strtok_token t5 58 _ [58] h5.1 (hd _ _ h5.2) (List.mem_singleton_self _)]
  dsimp only
  rw [strtok_token T6 10 _ [10] h6.1 (hd _ _ h6.2) (List.mem_singleton_self _)]
  exact ⟨_, rfl, rfl, rfl, rfl, rfl, rfl⟩

set_option maxRecDepth 100000 in
/-- Witness of C23: the header of `noname`, whose tokens are `version`, `1`,
`0`, `users`, `alice bob`, `size` and `42`. -/
theorem mesh_get_game_header_positional_witness :
    ∃ game, mesh_get_game_header malformed_fs (ascii "noname") = some game ∧
      game.major_version = simple_strtoul (ascii "1") ∧
      game.minor_version = simple_strtoul (ascii "0") ∧
      game.name = (ascii "alice bob").take MAX_GAME_LENGTH ∧
      game.users = (copy_users (ascii "42") (MAX_NUM_USERS + 1) (fun _ => 0) 0 0).1 ∧
      game.num_users = (copy_users (ascii "42") (MAX_NUM_USERS + 1) (fun _ => 0) 0 0).2 :=
  mesh_get_game_header_positional malformed_fs (ascii "noname")
    (ascii "version:1.0\nusers:alice bob\nsize:42\n")
    (ascii "version") (ascii "1") (ascii "0") (ascii "users") (ascii "alice bob")
    (ascii "size") (ascii "42") [] (by decide) (by decide) (by decide) (by decide)
    (by decide) (by decide) (by decide) (by decide) (by decide)

/-! ## Theorems: the user copy on arbitrary lines -/

/-- The inner loop of the user copy on a run of characters that ends at a
space, at the end of the line or at the 16th character of the entry. -/
theorem copy_user_fill (us : CStr) (i : Nat) (post : CStr) :
    ∀ (u pre : CStr) (fuel j : Nat) (mem : Buf), us = pre ++ (u ++ post) →
      (∀ c ∈ u, c ≠ 32 ∧ c ≠ 0) → j + u.length ≤ 16 →
      (j + u.length = 16 ∨ post.getD 0 0 = 32 ∨ post.getD 0 0 = 0) → u.length < fuel →
      copy_user us i fuel mem j pre.length =
        (fun a => if 16 * i + j ≤ a ∧ a < 16 * i + j + u.length then
            u.getD (a - (16 * i + j)) 0 else mem a,
          j + u.length, pre.length + u.length) := by
  intro u
  induction u with
  | nil =>
    intro pre fuel j mem hus _ _ hstop hfuel
    obtain ⟨fuel, rfl⟩ : ∃ k, fuel = k + 1 := ⟨fuel - 1, by simp at hfuel; omega⟩
    have hg : us.getD pre.length 0 = post.getD 0 0 := by
      rw [hus, List.nil_append, getD_append_length]
    unfold copy_user
    have hc : ¬ (j ≤ MAX_USERNAME_LENGTH ∧ us.getD pre.length 0 ≠ 32 ∧
        us.getD pre.length 0 ≠ 0) := by
      rw [hg]
      intro hh
      rcases hstop with h | h | h
      · have := hh.1
        unfold MAX_USERNAME_LENGTH at this
        simp only [List.length_nil] at h
        omega
      · exact hh.2.1 h
      · exact hh.2.2 h
    rw [if_neg hc]
    simp only [List.length_nil, Nat.add_zero, Prod.mk.injEq, and_true]
    funext a
    have : ¬ (16 * i + j ≤ a ∧ a < 16 * i + j) := by omega
    rw [if_neg this]
  | cons c u ih =>
    intro pre fuel j mem hus hu hj hstop hfuel
    obtain ⟨fuel, rfl⟩ : ∃ k, fuel = k + 1 := ⟨fuel - 1, by simp at hfuel; omega⟩
    have hcu := hu c (List.mem_cons_self _ _)
    have hg : us.getD pre.length 0 = c := by
      rw [hus, getD_append_length]; rfl
    simp only [List.length_cons] at hj hfuel hstop
    unfold copy_user
    have hc : j ≤ MAX_USERNAME_LENGTH ∧ us.getD pre.length 0 ≠ 32 ∧
        us.getD pre.length 0 ≠ 0 := by
      rw [hg]; exact ⟨by unfold MAX_USERNAME_LENGTH; omega, hcu.1, hcu.2⟩
    rw [if_pos hc, hg]
    have hus1 : us = (pre ++ [c]) ++ (u ++ post) := by
      rw [hus]; simp
    have h1 := ih (pre ++ [c]) fuel (j + 1) (Function.update mem (16 * i + j) c) hus1
      (fun x hx => hu x (List.mem_cons_of_mem _ hx)) (by omega)
      (by rcases hstop with h | h | h
          · left; omega
          · right; left; exact h
          · right; right; exact h) (by omega)
    simp only [List.length_append, List.length_singleton] at h1
    rw [h1]
    simp only [List.length_cons, Prod.mk.injEq]
    refine ⟨?_, by omega, by omega⟩
    funext a
    by_cases ha : a = 16 * i + j
    · subst ha
      have h2 : ¬ (16 * i + (j + 1) ≤ 16 * i + j ∧
          16 * i + j < 16 * i + (j + 1) + u.length) := by omega
      have h3 : 16 * i + j ≤ 16 * i + j ∧ 16 * i + j < 16 * i + j + (u.length + 1) := by
        omega
      rw [if_neg h2, if_pos h3, Function.update_same, Nat.sub_self]
      rfl
    · rw [Function.update_noteq ha]
      by_cases hb : 16 * i + (j + 1) ≤ a ∧ a < 16 * i + (j + 1) + u.length
      · have h3 : 16 * i + j ≤ a ∧ a < 16 * i + j + (u.length + 1) := by omega
        rw [if_pos hb, if_pos h3]
        have e : a - (16 * i + j) = (a - (16 * i + (j + 1))) + 1 := by omega
        rw [e]
        rfl
      · have h3 : ¬ (16 * i + j ≤ a ∧ a < 16 * i + j + (u.length + 1)) := by omega
        rw [if_neg hb, if_neg h3]

/-- One pass of the outer loop of the user copy on a run `u` of 1 to 16
characters that ends at a space, at the end of the line or at the 16th
character: the run is stored in entry `i` with a NUL after it, and a space
that follows the run is skipped. -/
theorem copy_users_step (us pre u post : CStr) (fuel i : Nat) (mem : Buf)
    (hus : us = pre ++ (u ++ post)) (hne : u ≠ []) (hu : ∀ c ∈ u, c ≠ 32 ∧ c ≠ 0)
    (hlen : u.length ≤ 16)
    (hstop : u.length = 16 ∨ post.getD 0 0 = 32 ∨ post.getD 0 0 = 0)
    (hi : i < MAX_NUM_USERS) :
    copy_users us (fuel + 1) mem i pre.length =
      copy_users us fuel (put_entry mem i u) (i + 1)
        (pre.length + u.length + (if post.getD 0 0 = 32 then 1 else 0)) := by
  have hcu := copy_user_fill us i post u pre (MAX_USERNAME_LENGTH + 2) 0 mem hus hu
    (by omega) (by omega) (by unfold MAX_USERNAME_LENGTH; omega)
  have hhead : us.getD pre.length 0 ≠ 0 := by
    rw [hus, getD_append_length]
    cases u with
    | nil => exact absurd rfl hne
    | cons c u => exact (hu c (List.mem_cons_self _ _)).2
  have hnext : us.getD (pre.length + u.length) 0 = post.getD 0 0 := by
    have e : us = (pre ++ u) ++ post := by rw [hus]; simp
    rw [← List.length_append, e, getD_append_length]
  have hmem : Function.update
      (fun a => if 16 * i + 0 ≤ a ∧ a < 16 * i + 0 + u.length then
        u.getD (a - (16 * i + 0)) 0 else mem a) (16 * i + (0 + u.length)) 0 =
      put_entry mem i u := by
    funext a
    unfold put_entry
    rw [Function.update_apply]
    simp only [Nat.add_zero, Nat.zero_add]
    by_cases h1 : 16 * i ≤ a ∧ a < 16 * i + u.length
    · have h2 : ¬ (a = 16 * i + u.length) := by omega
      simp only [if_neg h2, if_pos h1]
    · by_cases h2 : a = 16 * i + u.length
      · simp only [if_pos h2, if_neg h1]
      · simp only [if_neg h2, if_neg h1]
  have hc : i < MAX_NUM_USERS ∧ us.getD pre.length 0 ≠ 0 := ⟨hi, hhead⟩
  rw [copy_users, if_pos hc]
  simp only [hcu, hnext, hmem]
  by_cases h32 : post.getD 0 0 = 32
  · simp only [if_pos h32]
  · simp only [if_neg h32, Nat.add_zero]

theorem copy_user_frame (us : CStr) (i : Nat) :
    ∀ (fuel : Nat) (mem : Buf) (j sp a : Nat), a < 16 * i + j →
      (copy_user us i fuel mem j sp).1 a = mem a := by
  intro fuel
  induction fuel with
  | zero => intro mem j sp a _; rfl
  | succ fuel ih =>
    intro mem j sp a ha
    unfold copy_user
    split
    · rw [ih _ _ _ a (by omega), Function.update_noteq (by omega)]
    · rfl

/-- The outer loop of the user copy counts up from `i` to at most
`MAX_NUM_USERS` and leaves the entries before `i` as they are. -/
theorem copy_users_frame (us : CStr) :
    ∀ (fuel : Nat) (mem : Buf) (i sp : Nat),
      i ≤ (copy_users us fuel mem i sp).2 ∧
      (i ≤ MAX_NUM_USERS → (copy_users us fuel mem i sp).2 ≤ MAX_NUM_USERS) ∧
      ∀ a, a < 16 * i → (copy_users us fuel mem i sp).1 a = mem a := by
  intro fuel
  induction fuel with
  | zero => intro mem i sp; exact ⟨Nat.le_refl _, fun h => h, fun a _ => rfl⟩
  | succ fuel ih =>
    intro mem i sp
    unfold copy_users
    split
    · rename_i hc
      dsimp only
      obtain ⟨h1, h2, h3⟩ := ih
        (Function.update (copy_user us i (MAX_USERNAME_LENGTH + 2) mem 0 sp).1
          (16 * i + (copy_user us i (MAX_USERNAME_LENGTH + 2) mem 0 sp).2.1) 0) (i + 1)
        (if us.getD (copy_user us i (MAX_USERNAME_LENGTH + 2) mem 0 sp).2.2 0 = 32 then
          (copy_user us i (MAX_USERNAME_LENGTH + 2) mem 0 sp).2.2 + 1
          else (copy_user us i (MAX_USERNAME_LENGTH + 2) mem 0 sp).2.2)
      refine ⟨by omega, fun _ => h2 (by have := hc.1; omega), fun a ha => ?_⟩
      rw [h3 a (by omega), Function.update_noteq (by omega),
        copy_user_frame us i _ mem 0 sp a (by omega)]
    · exact ⟨Nat.le_refl _, fun h => h, fun a _ => rfl⟩

/-- The bound on the passes of the outer loop is never reached: once it
exceeds the number of passes that are left, the result does not depend on
it. -/
theorem copy_users_fuel (us : CStr) :
    ∀ (fuel k : Nat) (mem : Buf) (i sp : Nat), MAX_NUM_USERS < i + fuel →
      copy_users us (fuel + k) mem i sp = copy_users us fuel mem i sp := by
  intro fuel
  induction fuel with
  | zero =>
    intro k mem i sp h
    have hc : ¬ (i < MAX_NUM_USERS ∧ us.getD sp 0 ≠ 0) := by
      intro hh; have := hh.1; omega
    cases k with
    | zero => rfl
    | succ k =>
      rw [Nat.zero_add]
      unfold copy_users
      rw [if_neg hc]
  | succ fuel ih =>
    intro k mem i sp h
    have e : fuel + 1 + k = (fuel + k) + 1 := by omega
    rw [e]
    unfold copy_users
    split
    · dsimp only
      exact ih k _ (i + 1) _ (by omega)
    · rfl

theorem check_user_one (game : Game) (user : User) (i : Nat) (hi : i < game.num_users)
    (h : game.user_at i = user.name) : mesh_check_user game user = 1 := by
  unfold mesh_check_user
  have hany : (List.range game.num_users).any
      (fun i => decide (game.user_at i = user.name)) = true := by
    rw [List.any_eq_true]
    exact ⟨i, List.mem_range.mpr hi, by simpa using h⟩
  rw [if_pos hany]

theorem put_entry_below (mem : Buf) (i : Nat) (u : CStr) (a : Nat) (ha : a < 16 * i) :
    put_entry mem i u a = mem a := by
  unfold put_entry
  have h1 : ¬ (16 * i ≤ a ∧ a < 16 * i + u.length) := by omega
  have h2 : ¬ (a = 16 * i + u.length) := by omega
  rw [if_neg h1, if_neg h2]

theorem put_entry_char (mem : Buf) (i : Nat) (u : CStr) (s : Nat) (hs : s < u.length) :
    put_entry mem i u (16 * i + s) = u.getD s 0 := by
  unfold put_entry
  have h1 : 16 * i ≤ 16 * i + s ∧ 16 * i + s < 16 * i + u.length := by omega
  rw [if_pos h1, Nat.add_sub_cancel_left]

theorem put_entry_nul (mem : Buf) (i : Nat) (u : CStr) :
    put_entry mem i u (16 * i + u.length) = 0 := by
  unfold put_entry
  have h1 : ¬ (16 * i ≤ 16 * i + u.length ∧ 16 * i + u.length < 16 * i + u.length) := by
    omega
  rw [if_neg h1, if_pos rfl]

theorem put_entries_below :
    ∀ (l : List CStr) (mem : Buf) (i a : Nat), a < 16 * i →
      put_entries mem i l a = mem a := by
  intro l
  induction l with
  | nil => intro mem i a _; rfl
  | cons u rest ih =>
    intro mem i a ha
    unfold put_entries
    rw [ih _ (i + 1) a (by omega), put_entry_below mem i u a ha]

/-- The entries of names that fit: entry `i + t` holds the `t`-th name and a
NUL after it. -/
theorem put_entries_entry :
    ∀ (l : List CStr) (mem : Buf) (i t : Nat), t < l.length →
      (∀ u ∈ l, u.length ≤ MAX_USERNAME_LENGTH) →
      (∀ s, s < (l.getD t []).length →
        put_entries mem i l (16 * (i + t) + s) = (l.getD t []).getD s 0) ∧
      put_entries mem i l (16 * (i + t) + (l.getD t []).length) = 0 := by
  intro l
  induction l with
  | nil => intro mem i t ht; exact absurd ht (by simp)
  | cons u rest ih =>
    intro mem i t ht hl
    have hu := hl u (List.mem_cons_self _ _)
    unfold MAX_USERNAME_LENGTH at hu
    cases t with
    | zero =>
      simp only [List.getD_cons_zero, Nat.add_zero]
      unfold put_entries
      constructor
      · intro s hs
        rw [put_entries_below rest _ (i + 1) _ (by omega), put_entry_char mem i u s hs]
      · rw [put_entries_below rest _ (i + 1) _ (by omega), put_entry_nul]
    | succ t =>
      simp only [List.length_cons] at ht
      simp only [List.getD_cons_succ]
      have e : i + (t + 1) = i + 1 + t := by omega
      rw [e]
      unfold put_entries
      exact ih (put_entry mem i u) (i + 1) t (by omega)
        (fun v hv => hl v (List.mem_cons_of_mem _ hv))

/-- The outer loop of the user copy on a line of names that fit their
entries, however many: the names are stored one per entry until
`MAX_NUM_USERS` entries are filled, and the names after that are not
stored. -/
theorem copy_users_names (us : CStr) :
    ∀ (l : List CStr) (pre : CStr) (fuel i : Nat) (mem : Buf),
      us = pre ++ join_users l →
      (∀ u ∈ l, u ≠ [] ∧ (∀ c ∈ u, c ≠ 32 ∧ c ≠ 0) ∧ u.length ≤ MAX_USERNAME_LENGTH) →
      i ≤ MAX_NUM_USERS → MAX_NUM_USERS < i + fuel →
      copy_users us fuel mem i pre.length =
        (put_entries mem i (l.take (MAX_NUM_USERS - i)), min (i + l.length) MAX_NUM_USERS) := by
  intro l
  induction l with
  | nil =>
    intro pre fuel i mem hus _ hi hfuel
    obtain ⟨fuel, rfl⟩ : ∃ k, fuel = k + 1 := ⟨fuel - 1, by omega⟩
    have hg : us.getD pre.length 0 = 0 := by
      rw [hus, getD_append_length]; rfl
    have hc : ¬ (i < MAX_NUM_USERS ∧ us.getD pre.length 0 ≠ 0) := by
      rw [hg]; simp
    rw [copy_users, if_neg hc]
    simp only [List.take_nil, put_entries, List.length_nil, Nat.add_zero, Prod.mk.injEq,
      true_and]
    omega
  | cons u rest ih =>
    intro pre fuel i mem hus hl hi hfuel
    obtain ⟨fuel, rfl⟩ : ∃ k, fuel = k + 1 := ⟨fuel - 1, by omega⟩
    obtain ⟨hne, hchars, hlen⟩ := hl u (List.mem_cons_self _ _)
    by_cases hi5 : i < MAX_NUM_USERS
    · rw [join_users_cons] at hus
      have hstop : u.length = 16 ∨
          (if rest = [] then ([] : List Nat) else 32 :: join_users rest).getD 0 0 = 32 ∨
          (if rest = [] then ([] : List Nat) else 32 :: join_users rest).getD 0 0 = 0 := by
        by_cases hr : rest = []
        · right; right; rw [if_pos hr]; rfl
        · right; left; rw [if_neg hr]; rfl
      rw [copy_users_step us pre u _ fuel i mem hus hne hchars
        (by unfold MAX_USERNAME_LENGTH at hlen; omega) hstop hi5]
      have hus1 : us = (pre ++ u ++ (if rest = [] then [] else [32])) ++ join_users rest := by
        rw [hus]
        by_cases hr : rest = []
        · subst hr; simp [join_users]
        · simp [hr]
      have hsp : pre.length + u.length +
          (if (if rest = [] then ([] : List Nat) else 32 :: join_users rest).getD 0 0 = 32
            then 1 else 0) =
          (pre ++ u ++ (if rest = [] then [] else [32])).length := by
        by_cases hr : rest = []
        · simp [hr]
        · simp [hr, Nat.add_assoc]
      rw [hsp, ih _ fuel (i + 1) _ hus1 (fun x hx => hl x (List.mem_cons_of_mem _ hx))
        (by omega) (by omega)]
      have e : MAX_NUM_USERS - i = (MAX_NUM_USERS - (i + 1)) + 1 := by omega
      rw [e, List.take_succ_cons]
      simp only [put_entries, List.length_cons, Prod.mk.injEq, true_and]
      omega
    · have hc : ¬ (i < MAX_NUM_USERS ∧ us.getD pre.length 0 ≠ 0) := fun h => hi5 h.1
      rw [copy_users, if_neg hc]
      have e : MAX_NUM_USERS - i = 0 := by omega
      rw [e]
      simp only [List.take_zero, put_entries, List.length_cons, Prod.mk.injEq, true_and]
      omega

theorem header_line_eq (M m N : CStr) (users : List CStr) :
    header_bytes M m N users = header_line_bytes M m N (join_users users) := by
  rfl

/-- The result of `mesh_get_game_header` on a header whose version and name
lines are well formed, in terms of the user copy on its users line. -/
theorem header_line_parse (fs : FS) (game_name M m N line : CStr) (rest : List Nat)
    (hfs : fs game_name = some (header_line_bytes M m N line ++ rest))
    (hM : IsDecimal M) (hm : IsDecimal m) (hN : HeaderNameOk N)
    (hne : line ≠ []) (hline : ∀ c ∈ line, c ≠ 10 ∧ c ≠ 0) :
    ∃ game, mesh_get_game_header fs game_name = some game ∧
      game.major_version = decimal_value M ∧ game.minor_version = decimal_value m ∧
      game.name = N ∧
      game.users = (copy_users line (MAX_NUM_USERS + 1) (fun _ => 0) 0 0).1 ∧
      game.num_users = (copy_users line (MAX_NUM_USERS + 1) (fun _ => 0) 0 0).2 := by
  have e1 : ascii "version:" = ascii "version" ++ [58] := by decide
  have e2 : ascii "name:" = ascii "name" ++ [58] := by decide
  have e3 : ascii "users:" = ascii "users" ++ [58] := by decide
  have h1 : ∀ c ∈ ascii "version:", c ≠ 0 := by decide
  have h2 : ∀ c ∈ ascii "name:", c ≠ 0 := by decide
  have h3 : ∀ c ∈ ascii "users:", c ≠ 0 := by decide
  have hz : ∀ c ∈ header_line_bytes M m N line, c ≠ 0 := by
    intro c hc
    unfold header_line_bytes at hc
    simp only [List.mem_append, List.mem_singleton] at hc
    rcases hc with (((((((((h | h) | h) | h) | h) | h) | h) | h) | h) | h) | h
    · exact h1 c h
    · have := hM.2.1 c h; omega
    · omega
    · have := hm.2.1 c h; omega
    · omega
    · exact h2 c h
    · exact (hN.2.1 c h).2
    · omega
    · exact h3 c h
    · exact (hline c h).2
    · omega
  have hbuf : cstr (header_line_bytes M m N line ++ rest) =
      ascii "version" ++ 58 :: (M ++ 46 :: (m ++ 10 :: (ascii "name" ++ 58 :: (N ++ 10 ::
        (ascii "users" ++ 58 :: (line ++ 10 :: cstr rest)))))) := by
    rw [cstr_append _ _ hz]
    unfold header_line_bytes
    rw [e1, e2, e3]
    simp only [List.append_assoc, List.cons_append, List.nil_append, List.singleton_append]
  have hv : ∀ c ∈ ascii "version", c ∉ [58] := by decide
  have hn : ∀ c ∈ ascii "name", c ∉ [58] := by decide
  have hu : ∀ c ∈ ascii "users", c ∉ [58] := by decide
  have hMd : ∀ c ∈ M, c ∉ [46] := by
    intro c hc h
    rw [List.mem_singleton] at h
    have := hM.2.1 c hc
    omega
  have hmd : ∀ c ∈ m, c ∉ [10] := by
    intro c hc h
    rw [List.mem_singleton] at h
    have := hm.2.1 c hc
    omega
  have hNd : ∀ c ∈ N, c ∉ [10] := by
    intro c hc h
    rw [List.mem_singleton] at h
    exact (hN.2.1 c hc).1 h
  have hLd : ∀ c ∈ line, c ∉ [10] := by
    intro c hc h
    rw [List.mem_singleton] at h
    exact (hline c hc).1 h
  unfold mesh_get_game_header
  rw [hfs]
  dsimp only
  rw [hbuf, strtok_token (ascii "version") 58 _ [58] (by decide) hv (List.mem_singleton_self _)]
  dsimp only
  rw [strtok_token M 46 _ [46] hM.1 hMd (List.mem_singleton_self _)]
  dsimp only
  rw [strtok_token m 10 _ [10] hm.1 hmd (List.mem_singleton_self _)]
  dsimp only
  rw [strtok_token (ascii "name") 58 _ [58] (by decide) hn (List.mem_singleton_self _)]
  dsimp only
  rw [strtok_token N 10 _ [10] hN.1 hNd (List.mem_singleton_self _)]
  dsimp only
  rw [strtok_token (ascii "users") 58 _ [58] (by decide) hu (List.mem_singleton_self _)]
  dsimp only
  rw [strtok_token line 10 _ [10] hne hLd (List.mem_singleton_self _)]
  exact ⟨_, rfl, simple_strtoul_decimal M hM, simple_strtoul_decimal m hm,
    List.take_of_length_le hN.2.2, rfl, rfl⟩

/-- The number of users of a parsed header is at most `MAX_NUM_USERS`. -/
theorem num_users_le (fs : FS) (game_name : CStr) (game : Game)
    (h : mesh_get_game_header fs game_name = some game) :
    game.num_users ≤ MAX_NUM_USERS := by
  unfold mesh_get_game_header at h
  split at h
  · cases h
  · dsimp only at h
    split at h
    · rename_i us _ _ _ _
      simp only [Option.some.injEq] at h
      rw [← h]
      exact (copy_users_frame us _ _ 0 0).2.1 (Nat.zero_le _)
    · cases h

theorem check_user_one_inv (game : Game) (user : User)
    (h : mesh_check_user game user = 1) :
    ∃ i, i < game.num_users ∧ game.user_at i = user.name := by
  by_contra hno
  have h0 := check_user_zero game user (fun i hi hu => hno ⟨i, hi, hu⟩)
  rw [h0] at h
  exact absurd h (by decide)

theorem getD_take (l : List CStr) :
    ∀ (n i : Nat), i < n → (l.take n).getD i [] = l.getD i [] := by
  induction l with
  | nil => intro n i _; simp
  | cons u rest ih =>
    intro n i h
    cases n with
    | zero => exact absurd h (by omega)
    | succ n =>
      cases i with
      | zero => rfl
      | succ i =>
        simp only [List.take_succ_cons, List.getD_cons_succ]
        exact ih n i (by omega)

theorem mem_iff_getD (l : List CStr) (x : CStr) :
    x ∈ l ↔ ∃ i, i < l.length ∧ l.getD i [] = x := by
  constructor
  · intro h
    obtain ⟨i, hi, hx⟩ := List.mem_iff_getElem.mp h
    exact ⟨i, hi, by rw [List.getD_eq_getElem _ _ hi]; exact hx⟩
  · rintro ⟨i, hi, hx⟩
    rw [List.getD_eq_getElem _ _ hi] at hx
    rw [← hx]
    exact List.getElem_mem _

/-- The bound on the passes of the inner loop of the user copy is never
reached: once it exceeds the number of passes that are left, the result does
not depend on it. -/
theorem copy_user_fuel (us : CStr) (i : Nat) :
    ∀ (fuel k : Nat) (mem : Buf) (j sp : Nat), MAX_USERNAME_LENGTH + 1 < j + fuel →
      copy_user us i (fuel + k) mem j sp = copy_user us i fuel mem j sp := by
  intro fuel
  induction fuel with
  | zero =>
    intro k mem j sp h
    have hc : ¬ (j ≤ MAX_USERNAME_LENGTH ∧ us.getD sp 0 ≠ 32 ∧ us.getD sp 0 ≠ 0) := by
      intro hh; have := hh.1; omega
    cases k with
    | zero => rfl
    | succ k =>
      rw [Nat.zero_add]
      unfold copy_user
      rw [if_neg hc]
  | succ fuel ih =>
    intro k mem j sp h
    have e : fuel + 1 + k = (fuel + k) + 1 := by omega
    rw [e]
    unfold copy_user
    split
    · exact ih k _ (j + 1) _ (by omega)
    · rfl

/-- C22: the cap of `MAX_NUM_USERS` (5) authorized users.  Every header that
`mesh_get_game_header` produces has at most 5 users, and the loop that counts
them ends by its own condition (a larger bound on its passes gives the same
result).  For a well-formed
header whose users line names more than 5 users (each name of 1 to 15 bytes),
the header has 5 users, entry `i` is the `i`-th name of the line for
`i < 5`, and `mesh_check_user` accepts exactly the users whose name is among
the first 5 names: the names after the fifth are ignored. -/
theorem mesh_get_game_header_user_cap (fs : FS) (game_name : CStr) :
    (∀ game, mesh_get_game_header fs game_name = some game →
      game.num_users ≤ MAX_NUM_USERS) ∧
    (∀ (line : CStr) (k : Nat),
      copy_users line (MAX_NUM_USERS + 1 + k) (fun _ => 0) 0 0 =
        copy_users line (MAX_NUM_USERS + 1) (fun _ => 0) 0 0) ∧
    ∀ (M m N : CStr) (users : List CStr) (rest : List Nat),
      fs game_name = some (header_bytes M m N users ++ rest) →
      IsDecimal M → IsDecimal m → HeaderNameOk N → HeaderNamesOk users →
      MAX_NUM_USERS < users.length →
      ∃ game, mesh_get_game_header fs game_name = some game ∧
        game.num_users = MAX_NUM_USERS ∧
        (∀ i, i < MAX_NUM_USERS → game.user_at i = users.getD i []) ∧
        ∀ user : User, mesh_check_user game user = 1 ↔
          user.name ∈ users.take MAX_NUM_USERS := by
  refine ⟨fun game h => num_users_le fs game_name game h,
    fun line k => copy_users_fuel line (MAX_NUM_USERS + 1) k _ 0 0 (by omega), ?_⟩
  intro M m N users rest hfs hM hm hN hus hmore
  have hchars : ∀ c ∈ join_users users, c ≠ 10 ∧ c ≠ 0 := by
    intro c hc
    rcases mem_join_users c users hc with h | ⟨u, hu, hcu⟩
    · subst h; exact ⟨by decide, by decide⟩
    · have := (hus.2 u hu).2.1 c hcu
      exact ⟨this.2.1, this.2.2⟩
  obtain ⟨game, hparse, -, -, -, hmem, hnum⟩ := header_line_parse fs game_name M m N
    (join_users users) rest hfs hM hm hN
    (join_users_ne_nil users hus.1 (fun u hu => (hus.2 u hu).1)) hchars
  have hcopy := copy_users_names (join_users users) users [] (MAX_NUM_USERS + 1) 0
    (fun _ => 0) rfl
    (fun u hu => ⟨(hus.2 u hu).1,
      fun c hc => ⟨((hus.2 u hu).2.1 c hc).1, ((hus.2 u hu).2.1 c hc).2.2⟩,
      (hus.2 u hu).2.2⟩)
    (Nat.zero_le _) (by omega)
  simp only [List.length_nil, Nat.zero_add, Nat.sub_zero] at hcopy
  rw [hcopy] at hmem hnum
  dsimp only at hmem hnum
  have hn5 : game.num_users = MAX_NUM_USERS := by
    rw [hnum]; exact Nat.min_eq_right (Nat.le_of_lt hmore)
  have htl : (users.take MAX_NUM_USERS).length = MAX_NUM_USERS := by
    rw [List.length_take]; exact Nat.min_eq_left (Nat.le_of_lt hmore)
  have hat : ∀ i, i < MAX_NUM_USERS → game.user_at i = users.getD i [] := by
    intro i hi
    have hent := put_entries_entry (users.take MAX_NUM_USERS) (fun _ => 0) 0 i
      (by rw [htl]; exact hi)
      (fun u hu => (hus.2 u (List.mem_of_mem_take hu)).2.2)
    rw [getD_take users MAX_NUM_USERS i hi, Nat.zero_add] at hent
    have hui := hus.2 (users.getD i []) (by
      rw [List.getD_eq_getElem _ _ (by omega)]; exact List.getElem_mem _)
    exact user_at_of_mem game i _ hi (fun c hc => (hui.2.1 c hc).2.2) hui.2.2
      (by rw [hmem]; exact hent.1) (by rw [hmem]; exact hent.2)
  refine ⟨game, hparse, hn5, hat, ?_⟩
  intro user
  rw [mem_iff_getD, htl]
  constructor
  · intro h
    obtain ⟨i, hi, hu⟩ := check_user_one_inv game user h
    rw [hn5] at hi
    exact ⟨i, hi, by rw [getD_take users MAX_NUM_USERS i hi, ← hat i hi, hu]⟩
  · rintro ⟨i, hi, hu⟩
    rw [getD_take users MAX_NUM_USERS i hi] at hu
    exact check_user_one game user i (by rw [hn5]; exact hi) (by rw [hat i hi, hu])

set_option maxRecDepth 100000 in
/-- Witness of C22: the header of `six` names `a`, `b`, `c`, `d`, `e` and `f`;
the parsed header has 5 users, `a` to `e`. -/
theorem mesh_get_game_header_user_cap_witness :
    ∃ game, mesh_get_game_header six_users_fs (ascii "six") = some game ∧
      game.num_users = MAX_NUM_USERS ∧
      (∀ i, i < MAX_NUM_USERS → game.user_at i =
        [ascii "a", ascii "b", ascii "c", ascii "d", ascii "e", ascii "f"].getD i []) ∧
      ∀ user : User, mesh_check_user game user = 1 ↔
        user.name ∈
          [ascii "a", ascii "b", ascii "c", ascii "d", ascii "e", ascii "f"].take
            MAX_NUM_USERS :=
  (mesh_get_game_header_user_cap six_users_fs (ascii "six")).2.2 (ascii "1") (ascii "0")
    (ascii "Six") [ascii "a", ascii "b", ascii "c", ascii "d", ascii "e", ascii "f"] []
    (by decide) (by unfold IsDecimal; decide) (by unfold IsDecimal; decide)
    (by unfold HeaderNameOk; decide) (by unfold HeaderNamesOk; decide) (by decide)

/-! ## Theorems: user tokens of more than 16 characters -/

theorem getD_append_lt (pre rest : List Nat) (sp : Nat) (h : sp < pre.length) :
    (pre ++ rest).getD sp 0 = pre.getD sp 0 := by
  rw [List.getD_eq_getElem?_getD, List.getD_eq_getElem?_getD, List.getElem?_append_left h]

theorem getD_last_append (p : List Nat) (x : Nat) :
    (p ++ [x]).getD ((p ++ [x]).length - 1) 0 = x := by
  have e : (p ++ [x]).length - 1 = p.length := by simp
  rw [e, getD_append_length]
  rfl

theorem getD_mem_ne (l : List Nat) (sp : Nat) (h : sp < l.length) (hl : ∀ c ∈ l, c ≠ 0) :
    l.getD sp 0 ≠ 0 := by
  rw [List.getD_eq_getElem _ _ h]
  exact hl _ (List.getElem_mem _)

/-- The inner loop of the user copy inside a part of the line that ends with
a space: it reads that part only and stops before its end. -/
theorem copy_user_inside (pre rest : CStr) (i : Nat)
    (hlast : pre.getD (pre.length - 1) 0 = 32) :
    ∀ (fuel : Nat) (mem : Buf) (j sp : Nat), sp < pre.length →
      copy_user (pre ++ rest) i fuel mem j sp = copy_user pre i fuel mem j sp ∧
      (copy_user pre i fuel mem j sp).2.2 < pre.length := by
  intro fuel
  induction fuel with
  | zero => intro mem j sp h; exact ⟨rfl, h⟩
  | succ fuel ih =>
    intro mem j sp h
    have hg := getD_append_lt pre rest sp h
    by_cases hc : j ≤ MAX_USERNAME_LENGTH ∧ pre.getD sp 0 ≠ 32 ∧ pre.getD sp 0 ≠ 0
    · have hc1 : j ≤ MAX_USERNAME_LENGTH ∧ (pre ++ rest).getD sp 0 ≠ 32 ∧
          (pre ++ rest).getD sp 0 ≠ 0 := by rw [hg]; exact hc
      have hsp : sp + 1 < pre.length := by
        have hne : sp ≠ pre.length - 1 := by
          intro e; rw [e] at hc; exact hc.2.1 hlast
        omega
      have h1 : copy_user (pre ++ rest) i (fuel + 1) mem j sp =
          copy_user (pre ++ rest) i fuel
            (Function.update mem (16 * i + j) (pre.getD sp 0)) (j + 1) (sp + 1) := by
        rw [copy_user, if_pos hc1, hg]
      have h2 : copy_user pre i (fuel + 1) mem j sp =
          copy_user pre i fuel
            (Function.update mem (16 * i + j) (pre.getD sp 0)) (j + 1) (sp + 1) := by
        rw [copy_user, if_pos hc]
      rw [h1, h2]
      exact ih _ (j + 1) (sp + 1) hsp
    · have hc1 : ¬ (j ≤ MAX_USERNAME_LENGTH ∧ (pre ++ rest).getD sp 0 ≠ 32 ∧
          (pre ++ rest).getD sp 0 ≠ 0) := by rw [hg]; exact hc
      have h1 : copy_user (pre ++ rest) i (fuel + 1) mem j sp = (mem, j, sp) := by
        rw [copy_user, if_neg hc1]
      have h2 : copy_user pre i (fuel + 1) mem j sp = (mem, j, sp) := by
        rw [copy_user, if_neg hc]
      rw [h1, h2]
      exact ⟨rfl, h⟩

/-- The outer loop of the user copy on a line that begins with `pre`, a part
that is empty or ends with a space: it first does what it does on `pre`
alone, and goes on from the end of `pre` with the entries and the count that
`pre` gave, as long as that count is below `MAX_NUM_USERS`. -/
theorem copy_users_resume (pre rest : CStr)
    (hpre : pre = [] ∨ ∃ p, pre = p ++ [32]) (hnul : ∀ c ∈ pre, c ≠ 0) :
    ∀ (fuel : Nat) (mem : Buf) (i sp : Nat), sp ≤ pre.length →
      (copy_users pre fuel mem i sp).2 < MAX_NUM_USERS → MAX_NUM_USERS < i + fuel →
      ∃ fuel1, MAX_NUM_USERS < (copy_users pre fuel mem i sp).2 + fuel1 ∧
        copy_users (pre ++ rest) fuel mem i sp =
          copy_users (pre ++ rest) fuel1 (copy_users pre fuel mem i sp).1
            (copy_users pre fuel mem i sp).2 pre.length := by
  intro fuel
  induction fuel with
  | zero =>
    intro mem i sp _ h5 hfuel
    have : (copy_users pre 0 mem i sp).2 = i := rfl
    omega
  | succ fuel ih =>
    intro mem i sp hsp h5 hfuel
    by_cases hend : sp = pre.length
    · have hg : pre.getD sp 0 = 0 := by
        rw [hend]; exact List.getD_eq_default _ _ (Nat.le_refl _)
      have hc : ¬ (i < MAX_NUM_USERS ∧ pre.getD sp 0 ≠ 0) := by
        rw [hg]; simp
      have h2 : copy_users pre (fuel + 1) mem i sp = (mem, i) := by
        rw [copy_users, if_neg hc]
      rw [h2]
      exact ⟨fuel + 1, hfuel, by rw [hend]⟩
    · have hlt : sp < pre.length := by omega
      have hlast : pre.getD (pre.length - 1) 0 = 32 := by
        rcases hpre with h | ⟨p, hp⟩
        · rw [h] at hlt; exact absurd hlt (by simp)
        · rw [hp]; exact getD_last_append p 32
      have hg := getD_append_lt pre rest sp hlt
      have hne := getD_mem_ne pre sp hlt hnul
      by_cases hi : i < MAX_NUM_USERS
      · obtain ⟨hin, hpos⟩ := copy_user_inside pre rest i hlast (MAX_USERNAME_LENGTH + 2)
          mem 0 sp hlt
        have hg2 := getD_append_lt pre rest _ hpos
        have hc : i < MAX_NUM_USERS ∧ pre.getD sp 0 ≠ 0 := ⟨hi, hne⟩
        have hc1 : i < MAX_NUM_USERS ∧ (pre ++ rest).getD sp 0 ≠ 0 := by
          rw [hg]; exact hc
        have h2 : copy_users pre (fuel + 1) mem i sp =
            copy_users pre fuel
              (Function.update (copy_user pre i (MAX_USERNAME_LENGTH + 2) mem 0 sp).1
                (16 * i + (copy_user pre i (MAX_USERNAME_LENGTH + 2) mem 0 sp).2.1) 0)
              (i + 1)
              (if pre.getD (copy_user pre i (MAX_USERNAME_LENGTH + 2) mem 0 sp).2.2 0 = 32
                then (copy_user pre i (MAX_USERNAME_LENGTH + 2) mem 0 sp).2.2 + 1
                else (copy_user pre i (MAX_USERNAME_LENGTH + 2) mem 0 sp).2.2) := by
          rw [copy_users, if_pos hc]
        have h1 : copy_users (pre ++ rest) (fuel + 1) mem i sp =
            copy_users (pre ++ rest) fuel
              (Function.update (copy_user pre i (MAX_USERNAME_LENGTH + 2) mem 0 sp).1
                (16 * i + (copy_user pre i (MAX_USERNAME_LENGTH + 2) mem 0 sp).2.1) 0)
              (i + 1)
              (if pre.getD (copy_user pre i (MAX_USERNAME_LENGTH + 2) mem 0 sp).2.2 0 = 32
                then (copy_user pre i (MAX_USERNAME_LENGTH + 2) mem 0 sp).2.2 + 1
                else (copy_user pre i (MAX_USERNAME_LENGTH + 2) mem 0 sp).2.2) := by
          rw [copy_users, if_pos hc1]
          simp only [hin, hg2]
        rw [h2] at h5 ⊢
        rw [h1]
        refine ih _ (i + 1) _ ?_ h5 (by omega)
        split
        · omega
        · omega
      · have hc : ¬ (i < MAX_NUM_USERS ∧ pre.getD sp 0 ≠ 0) := fun h => hi h.1
        have h2 : copy_users pre (fuel + 1) mem i sp = (mem, i) := by
          rw [copy_users, if_neg hc]
        rw [h2] at h5
        exact absurd h5 hi

/-- Two bounds on the passes of the outer loop that both exceed the number of
passes that are left give the same result. -/
theorem copy_users_fuel_eq (us : CStr) (fuel1 fuel2 : Nat) (mem : Buf) (i sp : Nat)
    (h1 : MAX_NUM_USERS < i + fuel1) (h2 : MAX_NUM_USERS < i + fuel2) :
    copy_users us fuel1 mem i sp = copy_users us fuel2 mem i sp := by
  by_cases h : fuel1 ≤ fuel2
  · obtain ⟨k, rfl⟩ := Nat.exists_eq_add_of_le h
    exact (copy_users_fuel us fuel1 k mem i sp h1).symm
  · obtain ⟨k, rfl⟩ := Nat.exists_eq_add_of_le (Nat.le_of_not_le h)
    exact copy_users_fuel us fuel2 k mem i sp h2

theorem getD_take_lt (l : List Nat) :
    ∀ (n s : Nat), s < n → (l.take n).getD s 0 = l.getD s 0 := by
  induction l with
  | nil => intro n s _; simp
  | cons x l ih =>
    intro n s h
    cases n with
    | zero => exact absurd h (by omega)
    | succ n =>
      cases s with
      | zero => rfl
      | succ s =>
        simp only [List.take_succ_cons, List.getD_cons_succ]
        exact ih n s (by omega)

/-- The user copy on a line with a token `w` of more than 16 characters that
starts at entry `entries_before pre`: that entry receives the first 16
characters of `w`, the next entry the characters that follow, and a NUL after
them when fewer than 16 follow. -/
theorem copy_users_long_token (pre w post : CStr)
    (hpre : pre = [] ∨ ∃ p, pre = p ++ [32]) (hpost : post = [] ∨ ∃ q, post = 32 :: q)
    (hnul : ∀ c ∈ pre ++ w ++ post, c ≠ 0) (hw : ∀ c ∈ w, c ≠ 32)
    (hlen : 16 < w.length) (hi : entries_before pre + 1 < MAX_NUM_USERS) :
    entries_before pre + 2 ≤
      (copy_users (pre ++ w ++ post) (MAX_NUM_USERS + 1) (fun _ => 0) 0 0).2 ∧
    (∀ s, s < 16 →
      (copy_users (pre ++ w ++ post) (MAX_NUM_USERS + 1) (fun _ => 0) 0 0).1
        (16 * entries_before pre + s) = w.getD s 0) ∧
    (∀ s, s < 16 → 16 + s < w.length →
      (copy_users (pre ++ w ++ post) (MAX_NUM_USERS + 1) (fun _ => 0) 0 0).1
        (16 * (entries_before pre + 1) + s) = w.getD (16 + s) 0) ∧
    (w.length ≤ 31 →
      (copy_users (pre ++ w ++ post) (MAX_NUM_USERS + 1) (fun _ => 0) 0 0).1
        (16 * (entries_before pre + 1) + (w.length - 16)) = 0) := by
  unfold entries_before at *
  unfold MAX_NUM_USERS at hi
  have hchars : ∀ c ∈ w, c ≠ 32 ∧ c ≠ 0 := fun c hc =>
    ⟨hw c hc, hnul c (List.mem_append_left _ (List.mem_append_right _ hc))⟩
  have hnulpre : ∀ c ∈ pre, c ≠ 0 := fun c hc =>
    hnul c (List.mem_append_left _ (List.mem_append_left _ hc))
  obtain ⟨fuel1, hf1, heq⟩ := copy_users_resume pre (w ++ post) hpre hnulpre
    (MAX_NUM_USERS + 1) (fun _ => 0) 0 0 (Nat.zero_le _)
    (by unfold MAX_NUM_USERS; omega) (by omega)
  unfold MAX_NUM_USERS at hf1
  obtain ⟨f2, rfl⟩ : ∃ k, fuel1 = k + 2 := ⟨fuel1 - 2, by omega⟩
  have hla : (w.take 16).length = 16 := by
    rw [List.length_take]; omega
  have hlb : (w.drop 16).length = w.length - 16 := List.length_drop _ _
  have hbne : w.drop 16 ≠ [] := by
    intro h
    rw [h] at hlb
    simp only [List.length_nil] at hlb
    omega
  -- the first 16 characters
  have hus1 : pre ++ (w ++ post) = pre ++ (w.take 16 ++ (w.drop 16 ++ post)) := by
    rw [← List.append_assoc (w.take 16), List.take_append_drop]
  have hhead : (w.drop 16 ++ post).getD 0 0 ≠ 32 := by
    cases hb : w.drop 16 with
    | nil => exact absurd hb hbne
    | cons x b =>
      have hx : x ∈ w := List.mem_of_mem_drop (by rw [hb]; exact List.mem_cons_self _ _)
      exact hw x hx
  have hstep1 := copy_users_step (pre ++ (w ++ post)) pre (w.take 16) (w.drop 16 ++ post)
    (f2 + 1) (copy_users pre (MAX_NUM_USERS + 1) (fun _ => 0) 0 0).2
    (copy_users pre (MAX_NUM_USERS + 1) (fun _ => 0) 0 0).1 hus1
    (by intro h; rw [h] at hla; exact absurd hla (by decide))
    (fun c hc => hchars c (List.mem_of_mem_take hc)) (by omega) (Or.inl hla)
    (by unfold MAX_NUM_USERS; omega)
  simp only [if_neg hhead, Nat.add_zero] at hstep1
  rw [← List.length_append] at hstep1
  -- the characters that follow
  have hus2 : pre ++ (w ++ post) =
      (pre ++ w.take 16) ++ ((w.drop 16).take 16 ++ ((w.drop 16).drop 16 ++ post)) := by
    rw [← List.append_assoc ((w.drop 16).take 16), List.take_append_drop,
      List.append_assoc, ← List.append_assoc (w.take 16), List.take_append_drop]
  have hb1ne : (w.drop 16).take 16 ≠ [] := by
    intro h
    have hl : ((w.drop 16).take 16).length = 0 := by rw [h]; rfl
    rw [List.length_take, hlb] at hl
    omega
  have hstop2 : ((w.drop 16).take 16).length = 16 ∨
      ((w.drop 16).drop 16 ++ post).getD 0 0 = 32 ∨
      ((w.drop 16).drop 16 ++ post).getD 0 0 = 0 := by
    by_cases h32 : 32 ≤ w.length
    · left; rw [List.length_take, hlb]; omega
    · right
      have hnil : (w.drop 16).drop 16 = [] := List.drop_of_length_le (by rw [hlb]; omega)
      rw [hnil, List.nil_append]
      rcases hpost with h | ⟨q, h⟩
      · right; rw [h]; rfl
      · left; rw [h]; rfl
  have hstep2 := copy_users_step (pre ++ (w ++ post)) (pre ++ w.take 16)
    ((w.drop 16).take 16) ((w.drop 16).drop 16 ++ post) f2
    ((copy_users pre (MAX_NUM_USERS + 1) (fun _ => 0) 0 0).2 + 1)
    (put_entry (copy_users pre (MAX_NUM_USERS + 1) (fun _ => 0) 0 0).1
      (copy_users pre (MAX_NUM_USERS + 1) (fun _ => 0) 0 0).2 (w.take 16)) hus2 hb1ne
    (fun c hc => hchars c (List.mem_of_mem_drop (List.mem_of_mem_take hc)))
    (by rw [List.length_take]; omega) hstop2 (by unfold MAX_NUM_USERS; omega)
  rw [List.append_assoc pre w post, heq, hstep1, hstep2]
  obtain ⟨hn, -, hframe⟩ := copy_users_frame (pre ++ (w ++ post)) f2
    (put_entry (put_entry (copy_users pre (MAX_NUM_USERS + 1) (fun _ => 0) 0 0).1
      (copy_users pre (MAX_NUM_USERS + 1) (fun _ => 0) 0 0).2 (w.take 16))
      ((copy_users pre (MAX_NUM_USERS + 1) (fun _ => 0) 0 0).2 + 1) ((w.drop 16).take 16))
    ((copy_users pre (MAX_NUM_USERS + 1) (fun _ => 0) 0 0).2 + 1 + 1)
    ((pre ++ w.take 16).length + ((w.drop 16).take 16).length +
      (if ((w.drop 16).drop 16 ++ post).getD 0 0 = 32 then 1 else 0))
  refine ⟨hn, ?_, ?_, ?_⟩
  · intro s hs
    rw [hframe _ (by omega), put_entry_below _ _ _ _ (by omega),
      put_entry_char _ _ _ s (by omega), getD_take_lt w 16 s hs]
  · intro s hs hsw
    have hsl : s < ((w.drop 16).take 16).length := by
      rw [List.length_take, hlb]; omega
    rw [hframe _ (by omega), put_entry_char _ _ _ s hsl, getD_take_lt _ 16 s hs,
      ← getD_of_drop]
  · intro h31
    have hb1 : (w.drop 16).take 16 = w.drop 16 := List.take_of_length_le (by rw [hlb]; omega)
    have hidx : 16 * ((copy_users pre (MAX_NUM_USERS + 1) (fun _ => 0) 0 0).2 + 1) +
        (w.length - 16) =
        16 * ((copy_users pre (MAX_NUM_USERS + 1) (fun _ => 0) 0 0).2 + 1) +
          ((w.drop 16).take 16).length := by
      rw [hb1, hlb]
    rw [hframe _ (by omega), hidx, put_entry_nul]

/-- C26: user tokens of more than 16 characters are split.  In a header whose
version and name lines are well formed and whose users line holds a token
`w` of more than 16 characters (the part `pre` before it empty or ended by a
space, the part `post` after it empty or begun by a space), with
`entries_before pre + 1 < MAX_NUM_USERS`, so that an entry is left for what
follows, the entry at which `w` starts receives the first 16 characters of
`w`, the next entry receives the characters of `w` from position 16 on, and
both count as users; a user whose name is that remainder has the next entry
as a match and passes `mesh_check_user`. -/
theorem mesh_get_game_header_long_token (fs : FS) (game_name M m N pre w post : CStr)
    (rest : List Nat)
    (hfs : fs game_name = some (header_line_bytes M m N (pre ++ w ++ post) ++ rest))
    (hM : IsDecimal M) (hm : IsDecimal m) (hN : HeaderNameOk N)
    (hline : ∀ c ∈ pre ++ w ++ post, c ≠ 10 ∧ c ≠ 0)
    (hpre : pre = [] ∨ ∃ p, pre = p ++ [32]) (hpost : post = [] ∨ ∃ q, post = 32 :: q)
    (hw : ∀ c ∈ w, c ≠ 32) (hlen : 16 < w.length)
    (hi : entries_before pre + 1 < MAX_NUM_USERS) :
    ∃ game, mesh_get_game_header fs game_name = some game ∧
      (∀ s, s < 16 → game.users (16 * entries_before pre + s) = w.getD s 0) ∧
      (∀ s, s < 16 → 16 + s < w.length →
        game.users (16 * (entries_before pre + 1) + s) = w.getD (16 + s) 0) ∧
      entries_before pre + 2 ≤ game.num_users ∧
      ∀ user : User, UserOk user → user.name = w.drop 16 →
        game.user_at (entries_before pre + 1) = user.name ∧
        mesh_check_user game user = 1 := by
  have hne : pre ++ w ++ post ≠ [] := by
    intro h
    have hl : (pre ++ w ++ post).length = 0 := by rw [h]; rfl
    simp only [List.length_append] at hl
    omega
  obtain ⟨game, hparse, -, -, -, hmem, hnum⟩ := header_line_parse fs game_name M m N
    (pre ++ w ++ post) rest hfs hM hm hN hne hline
  obtain ⟨h1, h2, h3, h4⟩ := copy_users_long_token pre w post hpre hpost
    (fun c hc => (hline c hc).2) hw hlen hi
  refine ⟨game, hparse, by rw [hmem]; exact h2, by rw [hmem]; exact h3,
    by rw [hnum]; exact h1, ?_⟩
  intro user hU hname
  have hlb : (w.drop 16).length = w.length - 16 := List.length_drop _ _
  have hl : (w.drop 16).length ≤ MAX_USERNAME_LENGTH := by rw [← hname]; exact hU.2
  have hl15 := hl
  unfold MAX_USERNAME_LENGTH at hl15
  have hat : game.user_at (entries_before pre + 1) = w.drop 16 := by
    apply user_at_of_mem game (entries_before pre + 1) (w.drop 16) hi
      (by rw [← hname]; exact hU.1) hl
    · intro s hs
      rw [hmem, h3 s (by omega) (by omega), getD_of_drop]
    · rw [hmem, hlb]
      exact h4 (by omega)
  exact ⟨hat.trans hname.symm,
    check_user_one game user (entries_before pre + 1) (by omega) (hat.trans hname.symm)⟩

set_option maxRecDepth 100000 in
/-- Witness of C26: in the users line `alice abcdefghijklmnopqrs bob` the
token of 19 characters starts at entry 1; entry 2 is `qrs`, and a user named
`qrs`, which is not a token of the line, passes `mesh_check_user`. -/
theorem mesh_get_game_header_long_token_witness :
    (entries_before (ascii "alice ") = 1 ∧
      (mesh_get_game_header split_fs (ascii "split")).map
        (fun game => (game.num_users, game.user_at 1, game.user_at 2,
          mesh_check_user game ⟨ascii "qrs", []⟩)) =
        some (4, ascii "abcdefghijklmnopqrs", ascii "qrs", 1)) ∧
    ∃ game, mesh_get_game_header split_fs (ascii "split") = some game ∧
      (∀ s, s < 16 → game.users (16 * entries_before (ascii "alice ") + s) =
        (ascii "abcdefghijklmnopqrs").getD s 0) ∧
      (∀ s, s < 16 → 16 + s < (ascii "abcdefghijklmnopqrs").length →
        game.users (16 * (entries_before (ascii "alice ") + 1) + s) =
          (ascii "abcdefghijklmnopqrs").getD (16 + s) 0) ∧
      entries_before (ascii "alice ") + 2 ≤ game.num_users ∧
      ∀ user : User, UserOk user → user.name = (ascii "abcdefghijklmnopqrs").drop 16 →
        game.user_at (entries_before (ascii "alice ") + 1) = user.name ∧
        mesh_check_user game user = 1 :=
  ⟨⟨by decide, by decide⟩,
    mesh_get_game_header_long_token split_fs (ascii "split") (ascii "1") (ascii "0")
      (ascii "G") (ascii "alice ") (ascii "abcdefghijklmnopqrs") (ascii " bob") []
      (by decide) (by unfold IsDecimal; decide) (by unfold IsDecimal; decide)
      (by unfold HeaderNameOk; decide) (by decide) (Or.inr ⟨ascii "alice", by decide⟩)
      (Or.inr ⟨ascii "bob", by decide⟩) (by decide) (by decide) (by decide)⟩

set_option maxRecDepth 100000 in
/-- C21, the code at the failing input: the users line `abcdefghijklmnop bob`
begins with a token of 16 characters.  All 16 are copied to entry 0, whose 16
bytes then hold no terminator; the byte after them is the first byte of entry
1, `b`.  Entry 0 reads as `abcdefghijklmnopbob`, 19 characters, and a user
named `abcdefghijklmno`, the token cut at 15 characters, does not pass
`mesh_check_user`. -/
theorem mesh_get_game_header_sixteen_chars :
    (mesh_get_game_header sixteen_fs (ascii "sixteen")).map
      (fun game => (game.num_users, (List.range 17).map game.users, game.user_at 0,
        game.user_at 1, mesh_check_user game ⟨ascii "abcdefghijklmno", []⟩)) =
      some (2, ascii "abcdefghijklmnopb", ascii "abcdefghijklmnopbob", ascii "bob", 0) := by
  decide

/-! ## Theorems: the game names that the code stores -/

theorem dropWhile_head_false (p : Nat → Bool) :
    ∀ (l : List Nat) (x : Nat) (r : List Nat), l.dropWhile p = x :: r → p x = false := by
  intro l
  induction l with
  | nil => intro x r h; cases h
  | cons a l ih =>
    intro x r h
    rw [List.dropWhile_cons] at h
    cases hp : p a with
    | true => rw [hp] at h; exact ih x r h
    | false =>
      rw [hp] at h
      simp only [Bool.false_eq_true, if_false, List.cons.injEq] at h
      rw [← h.1]; exact hp

/-- What a `strtok` call that finds a token returns: the token is not empty,
holds no delimiter and only characters of the string, and the token, the
delimiter that ends it and what is left fit into the string. -/
theorem strtok_from_some (s delims tok rest : CStr)
    (h : strtok_from s delims = (some tok, rest)) :
    tok ≠ [] ∧ (∀ c ∈ tok, c ∉ delims) ∧ (∀ c ∈ tok, c ∈ s) ∧
    (rest ≠ [] → tok.length + rest.length + 1 ≤ s.length) := by
  unfold strtok_from at h
  simp only [] at h
  split at h
  · cases h
  · rename_i hs1
    simp only [Prod.mk.injEq, Option.some.injEq] at h
    obtain ⟨htok, hrest⟩ := h
    have hsplit := List.takeWhile_append_dropWhile (fun c => !decide (c ∈ delims))
      (s.dropWhile (fun c => decide (c ∈ delims)))
    have hlen1 : (s.dropWhile (fun c => decide (c ∈ delims))).length ≤ s.length :=
      (List.dropWhile_sublist _).length_le
    have hlen2 := congrArg List.length hsplit
    rw [List.length_append, htok] at hlen2
    refine ⟨?_, ?_, ?_, ?_⟩
    · intro hnil
      cases hd : s.dropWhile (fun c => decide (c ∈ delims)) with
      | nil => exact hs1 hd
      | cons x r =>
        have hx := dropWhile_head_false _ s x r hd
        rw [← htok, hd, List.takeWhile_cons, hx] at hnil
        simp at hnil
    · intro c hc
      rw [← htok] at hc
      have := List.mem_takeWhile_imp hc
      simpa using this
    · intro c hc
      rw [← htok] at hc
      exact (List.dropWhile_sublist _).subset ((List.takeWhile_sublist _).subset hc)
    · intro hr
      rw [← hrest] at hr ⊢
      rw [List.length_drop]
      have : (List.dropWhile (fun c => !decide (c ∈ delims))
          (s.dropWhile (fun c => decide (c ∈ delims)))).length ≠ 0 := by
        intro h0
        rw [List.length_eq_zero] at h0
        rw [h0] at hr
        exact hr rfl
      omega

/-- The short name that `mesh_install` cuts out of a game name of at most 32
bytes: not empty, without `-`, at most 30 bytes (a `-` and at least one more
character follow it), made of characters of the name. -/
theorem split_game_name_short (game_name short M m : CStr)
    (hlen : game_name.length ≤ MAX_GAME_LENGTH + 1)
    (h : split_game_name game_name = some (short, M, m)) :
    short ≠ [] ∧ 45 ∉ short ∧ (∀ c ∈ short, c ∈ game_name) ∧
    short.length < MAX_GAME_LENGTH := by
  unfold split_game_name at h
  simp only [] at h
  split at h
  · rename_i s1 s2 s3 h1 h2 h3
    simp only [Option.some.injEq, Prod.mk.injEq] at h
    obtain ⟨hs, -, -⟩ := h
    subst hs
    have e1 : strtok_from game_name [45] =
        (some s1, (strtok_from game_name [45]).2) := by rw [← h1]
    obtain ⟨hne, hd, hmem, hl⟩ := strtok_from_some _ _ _ _ e1
    have hrest : (strtok_from game_name [45]).2 ≠ [] := by
      intro hnil
      rw [hnil] at h2
      have : (strtok_from [] [46]).1 = none := rfl
      rw [this] at h2
      cases h2
    have hl2 := hl hrest
    have hpos : 0 < (strtok_from game_name [45]).2.length :=
      List.length_pos.mpr hrest
    refine ⟨hne, fun h45 => hd 45 h45 (List.mem_singleton_self _), hmem, ?_⟩
    unfold MAX_GAME_LENGTH at *
    omega
  · cases h

theorem install_row_game_name_any (junk : games_tbl_row) (g : CStr) (user : User)
    (M m : CStr) (hlen : g.length ≤ MAX_GAME_LENGTH) (hnul : ∀ c ∈ g, c ≠ 0) :
    (install_row junk g user M m).game_name = g := by
  unfold games_tbl_row.game_name install_row pad_to
  have h1 : g.take MAX_GAME_LENGTH = g := List.take_of_length_le hlen
  rw [h1]
  simp only [List.append_assoc, List.singleton_append, List.cons_append, List.nil_append,
    List.drop_succ_cons, List.drop_zero]
  have hz : ∀ (k : Nat) (R : List Nat), ∃ Z, List.replicate k 0 ++ 0 :: R = 0 :: Z := by
    intro k R
    cases k with
    | zero => exact ⟨R, rfl⟩
    | succ k => exact ⟨List.replicate k 0 ++ 0 :: R, by rw [List.replicate_succ]; rfl⟩
  obtain ⟨Z, hZ⟩ := hz (MAX_GAME_LENGTH - g.length)
    (junk.bytes.getD 33 0 :: junk.bytes.getD 34 0 :: junk.bytes.getD 35 0 ::
      (le_bytes (simple_strtoul M) ++ (le_bytes (simple_strtoul m) ++
        (user.name.take (MAX_USERNAME_LENGTH + 1) ++
          List.replicate (MAX_USERNAME_LENGTH + 1 -
            (user.name.take (MAX_USERNAME_LENGTH + 1)).length) 0).set
          MAX_USERNAME_LENGTH 0)))
  rw [hZ, List.take_append_eq_append_take, List.take_of_length_le (Nat.le_succ_of_le hlen)]
  have e : MAX_GAME_LENGTH + 1 - g.length = (MAX_GAME_LENGTH - g.length) + 1 := by omega
  rw [e, List.take_succ_cons]
  exact cstr_append_zero g _ hnul

theorem name_length_of_any (len : Nat)
    (h : (List.range len).any (fun count => decide (MAX_GAME_LENGTH < count)) = false) :
    len ≤ MAX_GAME_LENGTH + 1 := by
  by_contra hlt
  have hmem : MAX_GAME_LENGTH + 1 ∈ List.range len := List.mem_range.mpr (by omega)
  rw [List.any_eq_false] at h
  have := h _ hmem
  simp at this

theorem stored_names_append (rows : List games_tbl_row) (row : games_tbl_row)
    (h : StoredNamesOk rows)
    (hrow : row.game_name ≠ [] ∧ 45 ∉ row.game_name ∧
      row.game_name.length < MAX_GAME_LENGTH) : StoredNamesOk (rows ++ [row]) := by
  intro r hr
  rw [List.mem_append, List.mem_singleton] at hr
  rcases hr with hr | hr
  · exact h r hr
  · rw [hr]; exact hrow

theorem stored_names_tombstone (user : User) (game_name : CStr) :
    ∀ rows : List games_tbl_row, StoredNamesOk rows →
      StoredNamesOk (tombstone_rows user game_name rows) := by
  intro rows
  induction rows with
  | nil => intro h; exact h
  | cons row rest ih =>
    intro h
    unfold tombstone_rows
    split
    · intro r hr
      rw [List.mem_cons] at hr
      rcases hr with hr | hr
      · rw [hr, set_install_flag_game_name]
        exact h row (List.mem_cons_self _ _)
      · exact h r (List.mem_cons_of_mem _ hr)
    · intro r hr
      rw [List.mem_cons] at hr
      rcases hr with hr | hr
      · rw [hr]; exact h row (List.mem_cons_self _ _)
      · exact ih (fun x hx => h x (List.mem_cons_of_mem _ hx)) r hr

/-- An empty table holds no name. -/
theorem stored_names_empty (f : Flash) : StoredNamesOk (table_rows f 0) := by
  intro row hrow
  cases hrow

/-- The game names of the table stay as `mesh_install` stores them through
every `mesh_install` of a game name without NUL: a rejected install writes
nothing, and an accepted one appends a record whose name is the short name cut
out of a game name of at most 32 bytes. -/
theorem mesh_install_stored_names (fs : FS) (f : Flash) (user : User)
    (junk : games_tbl_row) (args : List CStr) (n fuel : Nat) (f1 : Flash) (code : Int)
    (hT : TableEnd f n) (hfuel : n < fuel) (hcap : n + 1 ≤ MAX_RECORDS)
    (hnul : ∀ c ∈ args.getD 1 [], c ≠ 0) (hnames : StoredNamesOk (table_rows f n))
    (h : mesh_install fs f user junk args fuel = some (f1, code)) :
    ∃ n1, TableEnd f1 n1 ∧ StoredNamesOk (table_rows f1 n1) := by
  unfold mesh_install at h
  split at h
  · cases h
  · rename_i validated hval
    split at h
    · simp only [Option.some.injEq, Prod.mk.injEq] at h
      rw [← h.1]
      exact ⟨n, hT, hnames⟩
    · rename_i hv
      have hv0 : validated = 0 := not_not.mp hv
      subst hv0
      have hlen : (args.getD 1 []).length ≤ MAX_GAME_LENGTH + 1 := by
        unfold mesh_install_validate_args at hval
        split at hval
        · cases hval
        · simp only [] at hval
          split at hval
          · cases hval
          · rename_i hany
            exact name_length_of_any _ (by simpa using hany)
      split at h
      · cases h
      · rename_i short M m hsplit
        rw [find_table_end_eq f n fuel hT hfuel] at h
        simp only [Option.some.injEq, Prod.mk.injEq] at h
        obtain ⟨hne, hd, hmem, hl⟩ := split_game_name_short _ short M m hlen hsplit
        have hgn := install_row_game_name_any junk short user M m
          (by unfold MAX_GAME_LENGTH at *; omega) (fun c hc => hnul c (hmem c hc))
        obtain ⟨hT1, hrows⟩ := install_write_rows f (install_row junk short user M m) n hT
          hcap (install_row_length _ _ _ _ _)
          (by rw [install_row_flag]; decide)
        rw [← h.1]
        refine ⟨n + 1, hT1, ?_⟩
        rw [hrows]
        apply stored_names_append _ _ hnames
        rw [hgn]
        exact ⟨hne, hd, hl⟩

/-- The game names of the table stay as they are through every
`mesh_uninstall`. -/
theorem mesh_uninstall_stored_names (f : Flash) (user : User) (args : List CStr)
    (n fuel : Nat) (f1 : Flash) (code : Int) (hT : TableEnd f n) (hfuel : n < fuel)
    (hnames : StoredNamesOk (table_rows f n))
    (h : mesh_uninstall f user args fuel = some (f1, code)) :
    TableEnd f1 n ∧ StoredNamesOk (table_rows f1 n) := by
  rw [mesh_uninstall_eq f user args n fuel hT hfuel] at h
  simp only [Option.some.injEq, Prod.mk.injEq] at h
  rw [← h.1]
  refine ⟨TableEnd_tombstoned f user _ n hT, ?_⟩
  rw [tombstoned_rows]
  exact stored_names_tombstone user _ _ hnames

/-! ## Theorems: the first-boot test -/

/-- C19, amended: `mesh_is_first_table_write` returns 1 if the sentinel is not
yet written at `MESH_SENTINEL_LOCATION` (0x40) and 0 if it is, for every flash
content.  Its result is not 0 exactly when `mesh_init_table` goes on to write
the table (returns 0), and after `mesh_init_table` it is 0. -/
theorem mesh_is_first_table_write_first_boot (f : Flash) :
    (mesh_is_first_table_write f = 1 ↔ read_sentinel f ≠ MESH_SENTINEL_VALUE) ∧
    (mesh_is_first_table_write f = 0 ↔ read_sentinel f = MESH_SENTINEL_VALUE) ∧
    (mesh_is_first_table_write f ≠ 0 ↔ (mesh_init_table f).2 = 0) ∧
    mesh_is_first_table_write (mesh_init_table f).1 = 0 := by
  obtain ⟨h1, h0⟩ := mesh_is_first_table_write_eq f
  refine ⟨h1, h0, ?_, ?_⟩
  · unfold mesh_is_first_table_write mesh_init_table
    by_cases h : read_sentinel f ≠ MESH_SENTINEL_VALUE
    · rw [if_pos h, if_pos h]
      exact ⟨fun _ => rfl, fun _ => by decide⟩
    · rw [if_neg h, if_neg h]
      have h10 : ¬ ((1 : Int) = 0) := by decide
      exact ⟨fun hh => absurd rfl hh, fun hh => absurd hh h10⟩
  · exact (mesh_is_first_table_write_eq (mesh_init_table f).1).2.mpr
      (read_sentinel_after_init f)

end Mesh
